import Mathlib

/-!
Verification of the multiplexed compression stream engine of lrzip
(`src/stream.c`, `src/util.c`), as a shallow embedding in Lean 4.

Bytes are modelled as natural numbers, buffers as lists of bytes, the
archive file as a list of bytes indexed from the engine's initial
position, and machine integers as `Nat`/`Int` with explicit reductions
modulo `2 ^ 64` where the on-disk 8-byte fields truncate.  Stateful C
code becomes explicit state passing; the semaphore discipline of the
worker rings (which serialises the file-writing portion of the workers
in dispatch order and delivers decompressed blocks in submission order)
is modelled by its sequential functional effect.  Back-end codecs,
`malloc`, `write`/`read`, AES and SHA-512 are external collaborators and
enter as function parameters (oracles) constrained only by the
hypotheses each theorem states.
-/

namespace Lrzip

/-! ## Chunked low-level I/O: `write_1g` / `read_1g` (stream.c:523-571) -/

/-- Constant `one_g` from stream.c:523: `1000 * 1024 * 1024`. -/
def one_g : Int := 1000 * 1024 * 1024

/-- Loop shared verbatim by `write_1g` (stream.c:528-548) and `read_1g`
(stream.c:551-571).  `os call_index requested` is the return value of the
underlying `write`/`read` call.  `fuel` bounds the number of iterations we
observe; `none` means the loop was still running when the fuel ran out
(the C loop does not terminate on its own if the OS keeps returning 0).
The second component records the size argument of every issued call. -/
def run_1g (os : Nat → Int → Int) : Nat → Nat → Int → Int → Option Int × List Int
  | 0, _, len, total => if len ≤ 0 then (some total, []) else (none, [])
  | fuel+1, idx, len, total =>
    if len ≤ 0 then (some total, [])
    else
      let req : Int := if len > one_g then one_g else len
      let ret : Int := os idx req
      if ret < 0 then (some ret, [req])
      else
        let rest := run_1g os fuel (idx+1) (len - ret) (total + ret)
        (rest.1, req :: rest.2)

/-- `write_1g fd buf len` as a function of the underlying `write` oracle. -/
def write_1g (os : Nat → Int → Int) (fuel : Nat) (len : Int) : Option Int × List Int :=
  run_1g os fuel 0 len 0

/-- `read_1g fd buf len`, byte-for-byte the same loop as `write_1g`. -/
def read_1g (os : Nat → Int → Int) (fuel : Nat) (len : Int) : Option Int × List Int :=
  run_1g os fuel 0 len 0

/-! ## LZ compressibility probe: `lzo_compresses` (stream.c:1189-1250) -/

/-- Initial test-window size, stream.c:1197: `STREAM_BUFSIZE` if the buffer
exceeds `5 * STREAM_BUFSIZE`, else `STREAM_BUFSIZE / 4096`.  `S` stands for
the `STREAM_BUFSIZE` constant (declared in the missing rzip.h), kept as a
parameter. -/
def lzo_buftest_init (S s_len : Nat) : Nat :=
  if s_len > 5 * S then S else S / 4096

/-- Main loop of `lzo_compresses` (stream.c:1219-1238).  `comp off in_len`
is the `dlen` reported by `lzo1x_1_compress` for the window of `in_len`
bytes at offset `off` of `s_buf`; `thr` is `control.threshold` (a rational
stand-in for the C double).  Returns the verdict and the list of
`(offset, length)` windows actually compressed.  The fuel is an upper
bound on the iteration count; `s_len + 1` always suffices when the
initial window size is positive. -/
def lzo_probe_loop (comp : Nat → Nat → Nat) (thr : ℚ) (S : Nat) :
    Nat → Nat → Nat → Nat → Bool × List (Nat × Nat)
  | 0, _, _, _ => (false, [])
  | fuel+1, off, test_len, buftest =>
    if test_len = 0 then (false, [])
    else
      let in_len := min test_len buftest
      let dlen := comp off in_len
      if (dlen : ℚ) < (in_len : ℚ) * thr then (true, [(off, in_len)])
      else
        let rest := lzo_probe_loop comp thr S fuel (off + in_len)
          (test_len - in_len) (if buftest < S then buftest * 2 else buftest)
        (rest.1, (off, in_len) :: rest.2)

/-- The full partition of the buffer into probe windows: the windows the
loop would visit if no window ever beat the threshold. -/
def lzo_probe_windows (S : Nat) : Nat → Nat → Nat → Nat → List (Nat × Nat)
  | 0, _, _, _ => []
  | fuel+1, off, test_len, buftest =>
    if test_len = 0 then []
    else
      let in_len := min test_len buftest
      (off, in_len) :: lzo_probe_windows S fuel (off + in_len)
        (test_len - in_len) (if buftest < S then buftest * 2 else buftest)

/-- `lzo_compresses(s_buf, s_len)` (stream.c:1189-1250). -/
def lzo_compresses (comp : Nat → Nat → Nat) (thr : ℚ) (S s_len : Nat) :
    Bool × List (Nat × Nat) :=
  if thr > 1 then (true, [])
  else lzo_probe_loop comp thr S (s_len + 1) 0 s_len (lzo_buftest_init S s_len)

/-! ## Memory sizer in `open_stream_out` (stream.c:698-735) -/

/-- Speculative-allocation probe, stream.c:713-722 (64-bit path, `BITS32`
false): try `malloc(limit * (n + 1))`; on failure set
`limit = limit / 10 * 9` (integer arithmetic) and retry.  `alloc size`
says whether a `malloc` of `size` bytes succeeds.  The C loop has no
fuel and spins forever if `malloc` never succeeds; `none` models that. -/
def test_malloc_probe (alloc : Nat → Bool) (n : Nat) : Nat → Nat → Option Nat
  | 0, _ => none
  | fuel+1, limit =>
    if alloc (limit * (n + 1)) then some limit
    else test_malloc_probe alloc n fuel (limit / 10 * 9)

/-- Block sizing after a successful probe, stream.c:726-731:
`bufsize = MIN(limit, MAX((limit + threads - 1) / threads, STREAM_BUFSIZE))`.
`S` stands for `STREAM_BUFSIZE`. -/
def open_bufsize (S threads limit : Nat) : Nat :=
  min limit (max ((limit + threads - 1) / threads) S)

/-- Modelled from the spec: the value claim C4 assigns, namely
`max(STREAM_BUFSIZE_MIN, min(limit, ceil(limit/W)))`, for comparison with
the computation the source performs. -/
def claimed_bufsize (S threads limit : Nat) : Nat :=
  max S (min limit ((limit + threads - 1) / threads))

/-- Modelled from the spec: `STREAM_BUFSIZE` is declared in rzip.h, which
is not part of the sources; the spec gives no value, so the released
lrzip value of 10 MiB is used.  Every theorem except the concrete
counterexample keeps it as a parameter `S`, and the counterexample goes
through unchanged for any value of at least 2. -/
def STREAM_BUFSIZE : Nat := 10485760

/-! ## On-disk header fields -/

/-- Modelled from the spec: the `CTYPE_` tags are declared in rzip.h, which
is not among the sources; §6 of the spec fixes the stream-head type byte —
hence `CTYPE_NONE` — at 0, and the remaining tags need only be distinct
bytes different from `CTYPE_NONE`. -/
def CTYPE_NONE : Nat := 0

/-- Modelled from the spec: tag of the bzip2 back end (distinct byte). -/
def CTYPE_BZIP2 : Nat := 4

/-- Modelled from the spec: tag of the lzo back end (distinct byte). -/
def CTYPE_LZO : Nat := 5

/-- Modelled from the spec: tag of the lzma back end (distinct byte). -/
def CTYPE_LZMA : Nat := 6

/-- Modelled from the spec: tag of the gzip back end (distinct byte). -/
def CTYPE_GZIP : Nat := 7

/-- Modelled from the spec: tag of the zpaq back end (distinct byte). -/
def CTYPE_ZPAQ : Nat := 8

/-- Little-endian serialisation of the low 8 bytes of `v`: what
`write_i64` (stream.c:597) leaves on disk on the little-endian targets
the format documents. -/
def le64 (v : Nat) : List Nat :=
  [v % 256, v / 256 % 256, v / 256 ^ 2 % 256, v / 256 ^ 3 % 256,
   v / 256 ^ 4 % 256, v / 256 ^ 5 % 256, v / 256 ^ 6 % 256, v / 256 ^ 7 % 256]

/-- Value recovered from a little-endian byte list, as `read_i64` /
`read_u32` (stream.c:626-638) recover it. -/
def readLE (bs : List Nat) : Nat :=
  bs.foldr (fun b acc => b + 256 * acc) 0

/-- Read of `len` bytes at absolute position `p`; `none` when the file is
too short to satisfy it.  The program never observes such a read as an
error: `read()` at end of file transfers 0 bytes and `read_1g`
(stream.c:551-571) retries the remainder forever, so the caller hangs
inside `read_1g` (the short-read branch of `read_buf`, stream.c:604-619,
is unreachable this way).  A consumer of `none` therefore models a
non-returning read, not an error return — see `sentinel_loop`, which
spins on it. -/
def readAt (file : List Nat) (p len : Nat) : Option (List Nat) :=
  if p + len ≤ file.length then some ((file.drop p).take len) else none

/-- `read_u8` at position `p`. -/
def readU8At (file : List Nat) (p : Nat) : Option Nat :=
  file.get? p

/-- `read_u32` (width 4) / `read_i64` (width 8) at position `p`. -/
def readNumAt (file : List Nat) (p w : Nat) : Option Nat :=
  (readAt file p w).map readLE

/-- Header length: 13 bytes for archives from versions before 0.4 (three
`u32` fields), 25 bytes for current archives (three `i64` fields);
stream.c:811-834. -/
def hdrLen (legacy : Bool) : Nat := if legacy then 13 else 25

/-- One record header `(c_type, c_len, u_len, next)` read sequentially at
position `p`, in either format; stream.c:807-834 and stream.c:1008-1033.
The four consecutive `read_u8`/`read_u32`/`read_i64` calls are one
13- or 25-byte read split into fields (they fail together exactly when
the file ends inside the header). -/
def readHeaderAt (legacy : Bool) (file : List Nat) (p : Nat) :
    Option (Nat × Nat × Nat × Nat) :=
  let w := if legacy then 4 else 8
  match readAt file p (1 + 3 * w) with
  | none => none
  | some h =>
    some (h.headI, readLE ((h.drop 1).take w),
      readLE ((h.drop (1 + w)).take w), readLE ((h.drop (1 + 2 * w)).take w))

/-! ## Reader open: `open_stream_in` (stream.c:763-864) -/

/-- Sentinel-reading loop of `open_stream_in` (stream.c:799-856).  `k`
streams remain to be validated, `first` records whether the next sentinel
is stream 0's (only there the all-zero close workaround applies), `p` is
the descriptor offset (reads are sequential; the workaround does not seek
back), `ip` the running `initial_pos` adjustment.  Returns the final
`initial_pos` adjustment and the `last_head` chain-start of every stream.
`none` means the call has not returned a handle within the fuel: a
sentinel that fails validation makes the C code `return NULL` (and the
result stays `none` at every larger fuel), while a header read past the
end of the archive never returns at all — `read()` reports 0 bytes at
end of file and `read_1g` (stream.c:551-571) retries forever — so on
such a read the loop burns a unit of fuel and retries in the same state,
and no fuel at all produces a result.  The `goto again` of the
workaround is likewise unbounded in C; on a terminating run every
iteration consumes at least 13 bytes of file, so `file.length + 1` fuel
suffices. -/
def sentinel_loop (legacy : Bool) (file : List Nat) :
    Nat → Bool → Nat → Nat → Nat → Option (Nat × List Nat)
  | _, _, 0, _, ip => some (ip, [])
  | 0, _, _+1, _, _ => none
  | fuel+1, first, k+1, p, ip =>
    match readHeaderAt legacy file p with
    | none => sentinel_loop legacy file fuel first (k+1) p ip
    | some (c, v1, v2, lh) =>
      if first ∧ c = CTYPE_NONE ∧ v1 = 0 ∧ v2 = 0 ∧ lh = 0 then
        sentinel_loop legacy file fuel first (k+1) (p + hdrLen legacy) (ip + hdrLen legacy)
      else if c ≠ CTYPE_NONE then none
      else if v1 ≠ 0 then none
      else if v2 ≠ 0 then none
      else
        match sentinel_loop legacy file fuel false k (p + hdrLen legacy) ip with
        | none => none
        | some (ip', heads) => some (ip', lh :: heads)

/-- `open_stream_in(f, n)` stripped to its validation core:
`some (initial_pos_shift, last_heads)` is a successful open; `none`
means no handle came back within `file.length + 1` loop iterations —
the NULL return when a sentinel fails validation, and a call that never
returns when the loop ends up reading past the end of the archive (see
`sentinel_loop`).  `legacy` selects the pre-0.4 13-byte headers
(`control.major_version == 0 && control.minor_version < 4`). -/
def open_stream_in (legacy : Bool) (file : List Nat) (n : Nat) :
    Option (Nat × List Nat) :=
  sentinel_loop legacy file (file.length + 1) true n 0 0

/-! ## Back-end dispatch and store-raw policy (stream.c:156-362, 868-891) -/

/-- Outcome of one back-end compressor invocation: failure to allocate its
work buffers, a codec error (the flag marks lzma's `SZ_ERROR_MEM`), or
success with reported output size `dlen`. -/
inductive CompRes where
  | allocFail : CompRes
  | codecErr : Bool → CompRes
  | ok : Nat → CompRes
deriving DecidableEq

/-- Per-block oracle results for the five back ends plus the
`lzo_compresses` probe verdict for the block at hand. -/
structure CodecEnv where
  probe : Bool
  lzma : CompRes
  lzo : CompRes
  bzip2 : CompRes
  gzip : CompRes
  zpaq : CompRes
deriving DecidableEq

/-- Fields of a `compress_thread` slot after the codec phase: `raw = true`
means `s_buf` still holds the original uncompressed bytes. -/
structure CompSlot where
  c_type : Nat
  c_len : Nat
  s_len : Nat
  raw : Bool
deriving DecidableEq

/-- `bzip2_compress_buf` (stream.c:204-234): probe, allocate, compress,
keep the result only when it strictly shrinks the block. -/
def bzip2_compress_buf (env : CodecEnv) (ct : CompSlot) : CompSlot :=
  if !env.probe then ct
  else match env.bzip2 with
  | .allocFail => ct
  | .codecErr _ => ct
  | .ok dlen =>
    if dlen ≥ ct.c_len then ct
    else { ct with c_type := CTYPE_BZIP2, c_len := dlen, raw := false }

/-- `gzip_compress_buf` (stream.c:236-262): no probe. -/
def gzip_compress_buf (env : CodecEnv) (ct : CompSlot) : CompSlot :=
  match env.gzip with
  | .allocFail => ct
  | .codecErr _ => ct
  | .ok dlen =>
    if dlen ≥ ct.c_len then ct
    else { ct with c_type := CTYPE_GZIP, c_len := dlen, raw := false }

/-- `lzma_compress_buf` (stream.c:264-329): on `SZ_ERROR_MEM` the block is
retried with bzip2 (stream.c:309-315); other errors leave it raw. -/
def lzma_compress_buf (env : CodecEnv) (ct : CompSlot) : CompSlot :=
  if !env.probe then ct
  else match env.lzma with
  | .allocFail => ct
  | .codecErr oom => if oom then bzip2_compress_buf env ct else ct
  | .ok dlen =>
    if dlen ≥ ct.c_len then ct
    else { ct with c_type := CTYPE_LZMA, c_len := dlen, raw := false }

/-- `lzo_compress_buf` (stream.c:331-362): no probe; compares against
`in_len = s_len`. -/
def lzo_compress_buf (env : CodecEnv) (ct : CompSlot) : CompSlot :=
  match env.lzo with
  | .allocFail => ct
  | .codecErr _ => ct
  | .ok dlen =>
    if dlen ≥ ct.s_len then ct
    else { ct with c_type := CTYPE_LZO, c_len := dlen, raw := false }

/-- `zpaq_compress_buf` (stream.c:166-202): its stream-buffer setup
failures are `fatal` (`none`), not a silent raw store. -/
def zpaq_compress_buf (env : CodecEnv) (ct : CompSlot) : Option CompSlot :=
  if !env.probe then some ct
  else match env.zpaq with
  | .allocFail => none
  | .codecErr _ => some ct
  | .ok dlen =>
    some (if dlen ≥ ct.c_len then ct
      else { ct with c_type := CTYPE_ZPAQ, c_len := dlen, raw := false })

/-- Back-end selection, the `LZMA_COMPRESS`/`LZO_COMPRESS`/… flags of the
control block. -/
inductive Backend where
  | lzma | lzo | bzip2 | gzip | zpaq
deriving DecidableEq

/-- Codec phase of `compthread` (stream.c:876-891): the slot starts with
`c_type = CTYPE_NONE`, `c_len = s_len`, and is handed to the selected
back end unless `NO_COMPRESS` is set or the block is empty.  `none` is a
fatal worker abort (no record reaches the archive). -/
def compthread_comp (env : CodecEnv) (noCompress : Bool) (sel : Backend)
    (s_len : Nat) : Option CompSlot :=
  let ct : CompSlot := { c_type := CTYPE_NONE, c_len := s_len, s_len := s_len, raw := true }
  if noCompress || s_len == 0 then some ct
  else match sel with
  | .lzma => some (lzma_compress_buf env ct)
  | .lzo => some (lzo_compress_buf env ct)
  | .bzip2 => some (bzip2_compress_buf env ct)
  | .gzip => some (gzip_compress_buf env ct)
  | .zpaq => zpaq_compress_buf env ct

/-- Store-raw dichotomy for one slot. -/
def slotDichotomy (ct : CompSlot) : Prop :=
  (ct.c_type = CTYPE_NONE ∧ ct.c_len = ct.s_len ∧ ct.raw = true) ∨
  (ct.c_type ≠ CTYPE_NONE ∧ ct.c_len < ct.s_len ∧ ct.raw = false)

/-- Oracle environment exhibiting the lzma out-of-memory fallback. -/
def c3_env : CodecEnv :=
  { probe := true, lzma := .codecErr true, lzo := .ok 0,
    bzip2 := .ok 5, gzip := .ok 0, zpaq := .ok 0 }

/-! ## Allocation-failure outcomes of `open_stream_out` (stream.c:656-748) -/

/-- How `open_stream_out` reacts to each allocation in order: outcome of
the whole call as a function of which allocations succeed. -/
inductive AllocOutcome where
  | fatal : AllocOutcome
  | null : AllocOutcome
  | ok : AllocOutcome
deriving DecidableEq

/-- The allocation ladder of `open_stream_out`: `malloc(sinfo)` and
`calloc(threads)` failures return NULL (stream.c:663-669);
`calloc(cthread)` failure calls `fatal` (stream.c:674-676);
`calloc(sinfo->s)` failure returns NULL (stream.c:704-708); a per-stream
buffer `malloc` failure calls `fatal` (stream.c:744-748). -/
def open_stream_out_alloc (sinfoOk threadsOk cthreadOk sArrOk bufsOk : Bool) :
    AllocOutcome :=
  if !sinfoOk then .null
  else if !threadsOk then .null
  else if !cthreadOk then .fatal
  else if !sArrOk then .null
  else if !bufsOk then .fatal
  else .ok

/-! ## Block encryption: `lrz_crypt` (util.c:160-247)

`CBC_LEN` (from the missing lrzip_private.h) is the AES block size, 16
bytes, as the spec's CBC-with-ciphertext-stealing description requires;
the AES-128 block transforms and SHA-512 (`sha4`) are external
collaborators and enter as oracles. -/

/-- Bytewise XOR; `xor128` (util.c:160-167) is this on 16-byte blocks. -/
def xorBytes (a b : List Nat) : List Nat := List.zipWith (fun x y => x ^^^ y) a b

/-- `aes_crypt_cbc(..., AES_ENCRYPT, ...)`: ciphertext blocks and the
final chaining IV (the last ciphertext block, or the IV if no block). -/
def cbcEnc (E : List Nat → List Nat) (iv : List Nat) :
    List (List Nat) → List (List Nat) × List Nat
  | [] => ([], iv)
  | b :: bs =>
    let c := E (xorBytes b iv)
    let rest := cbcEnc E c bs
    (c :: rest.1, rest.2)

/-- `aes_crypt_cbc(..., AES_DECRYPT, ...)`: plaintext blocks and the
final chaining IV (the last ciphertext block consumed). -/
def cbcDec (D : List Nat → List Nat) (iv : List Nat) :
    List (List Nat) → List (List Nat) × List Nat
  | [] => ([], iv)
  | c :: cs =>
    let p := xorBytes (D c) iv
    let rest := cbcDec D c cs
    (p :: rest.1, rest.2)

/-- Split a byte list into 16-byte blocks (final block possibly short). -/
def toBlocks (l : List Nat) : List (List Nat) :=
  if h : l = [] then [] else l.take 16 :: toBlocks (l.drop 16)
termination_by l.length
decreasing_by
  simp only [List.length_drop]
  have hp : 0 < l.length := List.length_pos.mpr h
  omega

/-- Encryption side of `lrz_crypt` (util.c:195-208): CBC over the `N`
16-byte-aligned bytes, then ciphertext stealing for the `M = len % 16`
remaining bytes: the final partial block is zero-padded, encrypted with
the running IV, swapped in front of the (truncated) last full ciphertext
block. -/
def lrz_encrypt_cts (E : List Nat → List Nat) (iv : List Nat)
    (buf : List Nat) : List Nat :=
  let M := buf.length % 16
  let N := buf.length - M
  let enc := cbcEnc E iv (toBlocks (buf.take N))
  let main := enc.1.flatten
  if M = 0 then main
  else
    let tmp0 := buf.drop N ++ List.replicate (16 - M) 0
    let tmp1 := E (xorBytes tmp0 enc.2)
    main.take (N - 16) ++ tmp1 ++ (main.drop (N - 16)).take M

/-- Decryption side of `lrz_crypt` (util.c:209-229), inverting the
stealing: CBC over the first `N - 16` bytes, decrypt the stolen block,
recover the tail and the last full block. -/
def lrz_decrypt_cts (D : List Nat → List Nat) (iv : List Nat)
    (buf : List Nat) : List Nat :=
  let M := buf.length % 16
  let N := buf.length - M
  if M = 0 then (cbcDec D iv (toBlocks buf)).1.flatten
  else
    let dec := cbcDec D iv (toBlocks (buf.take (N - 16)))
    let tmp0 := D ((buf.drop (N - 16)).take 16)
    let tmp1 := buf.drop N ++ List.replicate (16 - M) 0
    let t := xorBytes tmp0 tmp1
    let tmp1b := (buf.drop N).take M ++ t.drop M
    dec.1.flatten ++ xorBytes (D tmp1b) dec.2 ++ t.take M

/-- Key derivation (util.c:183-186): SHA-512 over
`(pass_hash ⊕ archive_hash) ++ salt`. -/
def lrz_key (sha4 : List Nat → List Nat) (pass_hash hash salt : List Nat) :
    List Nat :=
  sha4 (xorBytes pass_hash hash ++ salt)

/-- IV derivation (util.c:187-190): SHA-512 over
`(key ⊕ pass_hash) ++ salt`, using the derived key. -/
def lrz_iv (sha4 : List Nat → List Nat) (pass_hash hash salt : List Nat) :
    List Nat :=
  sha4 (xorBytes (lrz_key sha4 pass_hash hash salt) pass_hash ++ salt)

/-- `lrz_encrypt` (util.c:239-242): `aesE key block` is AES-128-ECB
encryption under `key`.  `aes_crypt_cbc` reads only the first `CBC_LEN`
bytes of the 72-byte `iv` buffer, hence the `take 16`. -/
def lrz_encrypt (sha4 : List Nat → List Nat)
    (aesE : List Nat → List Nat → List Nat)
    (pass_hash hash salt buf : List Nat) : List Nat :=
  lrz_encrypt_cts (aesE (lrz_key sha4 pass_hash hash salt))
    ((lrz_iv sha4 pass_hash hash salt).take 16) buf

/-- `lrz_decrypt` (util.c:244-247). -/
def lrz_decrypt (sha4 : List Nat → List Nat)
    (aesD : List Nat → List Nat → List Nat)
    (pass_hash hash salt buf : List Nat) : List Nat :=
  lrz_decrypt_cts (aesD (lrz_key sha4 pass_hash hash salt))
    ((lrz_iv sha4 pass_hash hash salt).take 16) buf

/-! ## Writer engine (stream.c:654-760, 866-956, 1084-1163) and reader
engine (stream.c:958-1135)

The semaphore ring serialises the workers' file-writing phase in dispatch
order (`wait_on` chain) and the reader consumes decoded blocks in
submission order (`unext_thread`); both are modelled by their sequential
functional effect.  The back end is one abstract `Codec`: `comp` covers
the whole probe-and-compress dispatch of `compthread` (§ on
`compthread_comp` above), returning `none` when the block is left raw for
any reason, and `decomp` is the decompressor `ucompthread` dispatches to.
File offsets are relative to `initial_pos`, which `seekto`
(stream.c:641-650) adds on every access. -/

/-- Abstract back-end codec pair for one archive. -/
structure Codec where
  tag : Nat
  comp : List Nat → Option (List Nat)
  decomp : List Nat → Nat → Option (List Nat)

/-- Decode step of `ucompthread` (stream.c:966-983): `CTYPE_NONE` blocks
pass through unchanged; others are decompressed, and a decoder failure or
a length mismatch with `u_len` is fatal (`none`). -/
def decodeRec (cd : Codec) (c : Nat) (payload : List Nat) (ulen : Nat) :
    Option (List Nat) :=
  if c = CTYPE_NONE then some payload
  else match cd.decomp payload ulen with
    | none => none
    | some d => if d.length = ulen then some d else none

/-- One record read by `fill_buffer` (stream.c:1005-1047): 25-byte header
at `pos`, then `c_len` payload bytes. -/
def readRecordAt (file : List Nat) (pos : Nat) :
    Option (Nat × Nat × Nat × Nat × List Nat) :=
  match readHeaderAt false file pos with
  | none => none
  | some (c, cl, ul, nx) =>
    match readAt file (pos + 25) cl with
    | none => none
    | some payload => some (c, cl, ul, nx, payload)

/-- Random-access write at `pos`, extending the file when writing at its
end (all writer seeks are `initial_pos + pos`, stream.c:641-650). -/
def storeAt (file : List Nat) (pos : Nat) (bytes : List Nat) : List Nat :=
  file.take pos ++ bytes ++ file.drop (pos + bytes.length)

/-- Bytes of a stream-head sentinel whose `next` field holds `v`
(stream.c:750-758 writes it with `v = 0`). -/
def sentBytes (v : Nat) : List Nat :=
  CTYPE_NONE :: (le64 0 ++ le64 0 ++ le64 v)

/-- Bytes of a record as `compthread` writes them (stream.c:907-916):
type byte, `c_len`, `u_len`, `next`, payload. -/
def recBytes (ctype : Nat) (payload : List Nat) (ulen nx : Nat) : List Nat :=
  ctype :: (le64 payload.length ++ le64 ulen ++ le64 nx ++ payload)

/-- Per-stream writer state (`struct stream`, producer side). -/
structure WStream where
  buf : List Nat
  last_head : Nat

/-- Writer handle (`struct stream_info`, producer side). -/
structure WState where
  file : List Nat
  cur_pos : Nat
  bufsize : Nat
  ss : List WStream

/-- `open_stream_out(f, n, limit)` after sizing: allocates the per-stream
buffers, writes the `n` all-zero sentinels, sets
`last_head i = cur_pos + 17` as each is written (stream.c:744-758). -/
def open_stream_out (n bufsize : Nat) : WState :=
  { file := (List.replicate n (sentBytes 0)).flatten
    cur_pos := 25 * n
    bufsize := bufsize
    ss := (List.range n).map (fun i => { buf := [], last_head := 25 * i + 17 }) }

/-- Codec phase of one worker on a full buffer: the store-raw policy of
stream.c:876-891 over the abstract back end (compare `compthread_comp`). -/
def compressBlock (cd : Codec) (data : List Nat) : Nat × List Nat :=
  if data.length = 0 then (CTYPE_NONE, data)
  else match cd.comp data with
  | none => (CTYPE_NONE, data)
  | some c => if c.length ≥ data.length then (CTYPE_NONE, data) else (cd.tag, c)

/-- `flush_buffer` plus the (ring-serialised) write phase of `compthread`
(stream.c:896-918, 930-956): patch the stream's `last_head` with
`cur_pos`, move `last_head` to `cur_pos + 17`, append the new record with
`next = 0`, advance `cur_pos`, hand the producer a fresh empty buffer. -/
def flushW (cd : Codec) (st : WState) (s : Nat) : WState :=
  let str := st.ss.getD s ⟨[], 0⟩
  let cp := compressBlock cd str.buf
  let file1 := storeAt st.file str.last_head (le64 st.cur_pos)
  let file2 := storeAt file1 st.cur_pos (recBytes cp.1 cp.2 str.buf.length 0)
  { file := file2
    cur_pos := st.cur_pos + 25 + cp.2.length
    bufsize := st.bufsize
    ss := st.ss.set s { buf := [], last_head := st.cur_pos + 17 } }

/-- Copy loop of `write_stream` (stream.c:1089-1102): append
`min(bufsize - buflen, len)` bytes, flush exactly when the buffer reaches
`bufsize`, repeat.  The fuel (`p.length` suffices: each round consumes at
least one byte while the buffer invariant `buflen < bufsize` holds). -/
def wsGo (cd : Codec) : Nat → WState → Nat → List Nat → WState
  | 0, st, _, _ => st
  | fuel+1, st, s, p =>
    if p.isEmpty then st
    else
      let str := st.ss.getD s ⟨[], 0⟩
      let n := min (st.bufsize - str.buf.length) p.length
      let st' := { st with ss := st.ss.set s ⟨str.buf ++ p.take n, str.last_head⟩ }
      let st'' := if (str.buf ++ p.take n).length = st.bufsize then flushW cd st' s
        else st'
      wsGo cd fuel st'' s (p.drop n)

/-- `write_stream(ss, stream, p, len)` (stream.c:1085-1104); the function
has a single `return 0` — the `Int` is that return value. -/
def write_stream (cd : Codec) (st : WState) (s : Nat) (p : List Nat) :
    Int × WState :=
  (0, wsGo cd p.length st s p)

/-- `close_stream_out` (stream.c:1138-1146): flush each stream's partial
buffer in stream order (teardown of the ring has no file effect). -/
def close_stream_out (cd : Codec) (st : WState) : WState :=
  (List.range st.ss.length).foldl
    (fun acc i => if (acc.ss.getD i ⟨[], 0⟩).buf.isEmpty then acc
      else flushW cd acc i) st

/-- A producer script: `write_stream` calls in order. -/
def runScript (cd : Codec) : WState → List (Nat × List Nat) → WState
  | st, [] => st
  | st, (s, p) :: rest => runScript cd (write_stream cd st s p).2 rest

/-! ### Ghost view of the archive: the records in file (append) order -/

/-- Ghost record: owning stream, absolute offset, stored fields, and the
original uncompressed buffer. -/
structure CRec where
  stream : Nat
  off : Nat
  ctype : Nat
  payload : List Nat
  ulen : Nat
  data : List Nat

/-- Records are appended back to back from `n0`. -/
def packed (n0 : Nat) : List CRec → Prop
  | [] => True
  | r :: rest => r.off = n0 ∧ packed (n0 + 25 + r.payload.length) rest

/-- End offset of a packed record list starting at `n0`. -/
def recsEnd (n0 : Nat) : List CRec → Nat
  | [] => n0
  | r :: rest => recsEnd (r.off + 25 + r.payload.length) rest

/-- The records of stream `s`, in file order = chain order. -/
def streamChain (recs : List CRec) (s : Nat) : List CRec :=
  recs.filter (fun r => r.stream == s)

/-- Offset of a chain's first record, 0 when there is none: the value a
stream's sentinel `next` field holds. -/
def chainHeadOff : List CRec → Nat
  | [] => 0
  | r :: _ => r.off

/-- Where stream `s`'s `last_head` points: 17 bytes into its last record,
or into its sentinel when it has none. -/
def lastHeadOf (s : Nat) (ch : List CRec) : Nat :=
  match ch.getLast? with
  | none => 25 * s + 17
  | some r => r.off + 17

/-- The on-disk chain of one stream reads back correctly: each record's
raw header bytes (with `next` naming the successor, 0 at the end),
payload, and decode. -/
def chainOK (cd : Codec) (file : List Nat) : List CRec → Prop
  | [] => True
  | r :: rest =>
    readAt file r.off 25 = some (r.ctype ::
      (le64 r.payload.length ++ le64 r.ulen ++ le64 (chainHeadOff rest))) ∧
    readAt file (r.off + 25) r.payload.length = some r.payload ∧
    decodeRec cd r.ctype r.payload r.ulen = some r.data ∧
    r.ulen = r.data.length ∧ 1 ≤ r.ulen ∧ r.payload.length ≤ r.ulen ∧
    r.payload.length < 2 ^ 64 ∧ r.ulen < 2 ^ 64 ∧
    chainOK cd file rest

/-- Total bytes sitting in producer buffers. -/
def totalBuf (st : WState) : Nat :=
  (st.ss.map (fun str => str.buf.length)).sum

/-- Bytes accepted so far for stream `s`: flushed records plus the
pending buffer. -/
def dataOf (recs : List CRec) (s : Nat) : List Nat :=
  ((streamChain recs s).map (fun r => r.data)).flatten

/-- The writer invariant tying a state to its ghost record list. -/
def WFstate (cd : Codec) (n B : Nat) (st : WState) (recs : List CRec) : Prop :=
  st.ss.length = n ∧
  st.bufsize = B ∧
  st.file.length = st.cur_pos ∧
  st.cur_pos < 2 ^ 64 ∧
  packed (25 * n) recs ∧
  recsEnd (25 * n) recs = st.cur_pos ∧
  (∀ r ∈ recs, r.stream < n) ∧
  (∀ s, s < n →
    readAt st.file (25 * s) 25
      = some (sentBytes (chainHeadOff (streamChain recs s))) ∧
    chainOK cd st.file (streamChain recs s) ∧
    (st.ss.getD s ⟨[], 0⟩).last_head = lastHeadOf s (streamChain recs s))

/-! ### Reader engine -/

/-- Per-stream reader state (`struct stream`, consumer side): the chain
cursor `last_head`, the `eos` flag, the stream's slice of the
decompress-thread ring as a queue of decoded-but-unconsumed buffers
(submission between `unext_thread` and `uthread_no`), and the buffer the
consumer currently drains. -/
structure RStream where
  last_head : Nat
  eos : Bool
  pending : List (List Nat)
  buf : List Nat
  bufp : Nat

/-- Reader handle (`struct stream_info`, consumer side). -/
structure RState where
  file : List Nat
  initial_pos : Nat
  W : Nat
  ss : List RStream

/-- `open_stream_in(f, n)` with `control.threads = W` workers per stream:
the sentinel loop of § `open_stream_in` above, then one ring range per
stream (stream.c:799-805). -/
def open_stream_in_full (file : List Nat) (n W : Nat) : Option RState :=
  match open_stream_in false file n with
  | none => none
  | some (ip, heads) =>
    some { file := file, initial_pos := ip, W := W,
           ss := heads.map (fun h =>
             { last_head := h, eos := false, pending := [], buf := [], bufp := 0 }) }

/-- The `fill_another` loop of `fill_buffer` (stream.c:1001-1068): while
the stream is not at end-of-stream, read the record at `last_head`,
decode it into the next ring slot, advance `last_head` to its `next`
field (setting `eos` when that is 0), and keep prefetching while the next
slot is free — in the sequential model, while fewer than `W` decoded
buffers are pending.  `none` is a fatal read or decode failure. -/
def fillLoop (cd : Codec) (file : List Nat) (ip W : Nat) :
    Nat → RStream → Option RStream
  | 0, _ => none
  | fuel+1, str =>
    if str.eos then some str
    else
      match readRecordAt file (ip + str.last_head) with
      | none => none
      | some (c, _, ul, nx, payload) =>
        match decodeRec cd c payload ul with
        | none => none
        | some d =>
          let str' : RStream :=
            { str with pending := str.pending ++ [d], last_head := nx, eos := nx = 0 }
          if str'.pending.length < W then fillLoop cd file ip W fuel str'
          else some str'

/-- `fill_buffer` (stream.c:993-1082): prefetch, then block on the
`complete` signal of the oldest submitted slot and take its buffer; with
nothing submitted and `eos` set that wait never returns (`none`). -/
def fill_buffer (cd : Codec) (file : List Nat) (ip W : Nat) (str : RStream) :
    Option RStream :=
  match fillLoop cd file ip W (W + 1) str with
  | none => none
  | some str' =>
    match str'.pending with
    | [] => none
    | d :: rest => some { str' with pending := rest, buf := d, bufp := 0 }

/-- The `while (len)` loop of `read_stream` (stream.c:1108-1135): copy
what the current buffer holds, refill when it runs dry, stop short only
when a refill delivers an empty buffer. -/
def readStreamGo (cd : Codec) (file : List Nat) (ip W : Nat) :
    Nat → RStream → List Nat → Nat → Option (List Nat × RStream)
  | 0, _, _, _ => none
  | fuel+1, str, acc, len =>
    if len = 0 then some (acc, str)
    else
      let n := min (str.buf.length - str.bufp) len
      let acc' := acc ++ (str.buf.drop str.bufp).take n
      let str1 : RStream := { str with bufp := str.bufp + n }
      if len - n ≠ 0 ∧ str1.bufp = str1.buf.length then
        match fill_buffer cd file ip W str1 with
        | none => none
        | some str2 =>
          if str2.bufp = str2.buf.length then some (acc', str2)
          else readStreamGo cd file ip W fuel str2 acc' (len - n)
      else
        readStreamGo cd file ip W fuel str1 acc' (len - n)

/-- `read_stream(ss, stream, p, len)` (stream.c:1108-1135), returning the
bytes copied out. -/
def read_stream (cd : Codec) (rst : RState) (s : Nat) (len : Nat) :
    Option (List Nat × RState) :=
  match readStreamGo cd rst.file rst.initial_pos rst.W (2 * len + 2)
      (rst.ss.getD s ⟨0, false, [], [], 0⟩) [] len with
  | none => none
  | some (out, str') => some (out, { rst with ss := rst.ss.set s str' })

/-- Total payload length of a producer script. -/
def scriptBytes (script : List (Nat × List Nat)) : Nat :=
  (script.map (fun e => e.2.length)).sum

/-- Concatenation of the bytes a script writes to stream `t`, in call
order — the reference value the round-trip returns. -/
def fedBytes (script : List (Nat × List Nat)) (t : Nat) : List Nat :=
  ((script.filter (fun e => e.1 == t)).map (fun e => e.2)).flatten

/-- The parsed linked-list view of one stream's chain: each record's
header fields as `fill_buffer`'s four reads return them, with `next`
holding the absolute offset of the stream's following record and 0 for
the final record. -/
def chainNextOK (file : List Nat) : List CRec → Prop
  | [] => True
  | r :: rest =>
    readHeaderAt false file r.off
        = some (r.ctype, r.payload.length, r.ulen, chainHeadOff rest) ∧
    chainNextOK file rest

/-- A concrete back end for witnesses: tagged bzip2, whose compressor
always declines (every block is then stored raw). -/
def rawCodec : Codec := ⟨CTYPE_BZIP2, fun _ => none, fun _ _ => none⟩

/-- The `last_head` values `open_stream_in` collects for streams
`j, j+1, ..., j+k-1`. -/
def headsList (hh : Nat → Nat) : Nat → Nat → List Nat
  | _, 0 => []
  | j, k+1 => hh j :: headsList hh (j+1) k

/-- Consumer-side chain invariant: the remaining (undelivered) records of
a stream read back correctly, `last_head` points at the first of them
(`eos` only once the chain has run out), and every decoded buffer waiting
in the ring is nonempty. -/
def rsChainInv (cd : Codec) (file : List Nat) (str : RStream)
    (ch : List CRec) : Prop :=
  chainOK cd file ch ∧
  (∀ r ∈ ch, 0 < r.off ∧ r.off < 2 ^ 64) ∧
  (str.eos = false → str.last_head = chainHeadOff ch ∧ ch ≠ []) ∧
  (str.eos = true → ch = []) ∧
  (∀ d ∈ str.pending, d ≠ [])

theorem req_bounds (len : Int) (h : 0 < len) :
    0 < (if len > one_g then one_g else len) ∧ (if len > one_g then one_g else len) ≤ one_g := by
  have hg : (0:Int) < one_g := by norm_num [one_g]
  split <;> omega

theorem run_1g_requests (os : Nat → Int → Int) :
    ∀ (fuel idx : Nat) (len total : Int),
      ∀ q ∈ (run_1g os fuel idx len total).2, 0 < q ∧ q ≤ one_g := by
  intro fuel
  induction fuel with
  | zero =>
    intro idx len total q hq
    simp only [run_1g] at hq
    split at hq <;> simp_all
  | succ n ih =>
    intro idx len total q hq
    have hg : (0:Int) < one_g := by norm_num [one_g]
    simp only [run_1g] at hq
    split at hq
    · simp_all
    · rename_i hlen
      push_neg at hlen
      split at hq
      · rename_i hgt
        split at hq
        · simp only [List.mem_singleton] at hq
          subst hq; exact ⟨hg, le_refl _⟩
        · simp only [List.mem_cons] at hq
          rcases hq with rfl | hq
          · exact ⟨hg, le_refl _⟩
          · exact ih _ _ _ q hq
      · rename_i hng
        push_neg at hng
        split at hq
        · simp only [List.mem_singleton] at hq
          subst hq; exact ⟨by omega, by omega⟩
        · simp only [List.mem_cons] at hq
          rcases hq with rfl | hq
          · exact ⟨by omega, by omega⟩
          · exact ih _ _ _ q hq

theorem run_1g_result (os : Nat → Int → Int) (hos : ∀ i r, os i r ≤ r) :
    ∀ (fuel idx : Nat) (len total : Int), 0 ≤ len →
      ∀ v, (run_1g os fuel idx len total).1 = some v →
        v = total + len ∨ (v < 0 ∧ ∃ i r, v = os i r) := by
  intro fuel
  induction fuel with
  | zero =>
    intro idx len total h0 v hv
    simp only [run_1g] at hv
    split at hv
    · rename_i hle
      simp only [Option.some.injEq] at hv
      left; omega
    · simp at hv
  | succ n ih =>
    intro idx len total h0 v hv
    have hg : (0:Int) < one_g := by norm_num [one_g]
    simp only [run_1g] at hv
    split at hv
    · rename_i hle
      left
      have : len = 0 := le_antisymm hle h0
      simp only [Option.some.injEq] at hv
      omega
    · rename_i hlen
      push_neg at hlen
      split at hv
      · rename_i hgt
        have hr : os idx one_g ≤ one_g := hos idx one_g
        split at hv
        · rename_i hneg
          simp only [Option.some.injEq] at hv
          exact Or.inr ⟨by omega, idx, one_g, hv.symm⟩
        · rename_i hneg
          push_neg at hneg
          dsimp only at hv
          rcases ih (idx+1) (len - os idx one_g) (total + os idx one_g) (by omega) v hv with h | h
          · left; omega
          · right; exact h
      · rename_i hng
        push_neg at hng
        have hr : os idx len ≤ len := hos idx len
        split at hv
        · rename_i hneg
          simp only [Option.some.injEq] at hv
          exact Or.inr ⟨by omega, idx, len, hv.symm⟩
        · rename_i hneg
          push_neg at hneg
          dsimp only at hv
          rcases ih (idx+1) (len - os idx len) (total + os idx len) (by omega) v hv with h | h
          · left; omega
          · right; exact h

/-- C6: `write_1g` and `read_1g` issue every underlying `write`/`read` call
with a positive size of at most `one_g` (which is below 1 GiB), retry after
every short nonnegative transfer, and whenever the loop terminates it
returns either exactly `len` or the underlying call's negative error value —
never a silently truncated positive count below `len`. -/
theorem c6_chunked_io_no_truncation (os : Nat → Int → Int) (fuel : Nat) (len : Int)
    (hos : ∀ i r, os i r ≤ r) (hlen : 0 ≤ len) :
    (∀ q ∈ (write_1g os fuel len).2, 0 < q ∧ q ≤ one_g) ∧
    (∀ q ∈ (read_1g os fuel len).2, 0 < q ∧ q ≤ one_g) ∧
    one_g ≤ 1073741824 ∧
    (∀ v, (write_1g os fuel len).1 = some v → v = len ∨ (v < 0 ∧ ∃ i r, v = os i r)) ∧
    (∀ v, (read_1g os fuel len).1 = some v → v = len ∨ (v < 0 ∧ ∃ i r, v = os i r)) := by
  refine ⟨fun q hq => run_1g_requests os fuel 0 len 0 q hq,
         fun q hq => run_1g_requests os fuel 0 len 0 q hq,
         by norm_num [one_g], ?_, ?_⟩ <;>
  · intro v hv
    have h := run_1g_result os hos fuel 0 len 0 hlen v hv
    simpa using h

theorem c6_chunked_io_no_truncation_witness :
    (0:Int) ≤ 5 ∧
    ((∀ q ∈ (write_1g (fun _ r => r) 3 5).2, 0 < q ∧ q ≤ one_g) ∧
     (∀ q ∈ (read_1g (fun _ r => r) 3 5).2, 0 < q ∧ q ≤ one_g) ∧
     one_g ≤ 1073741824 ∧
     (∀ v, (write_1g (fun _ r => r) 3 5).1 = some v →
        v = 5 ∨ (v < 0 ∧ ∃ i r, v = (fun (_ : Nat) (r : Int) => r) i r)) ∧
     (∀ v, (read_1g (fun _ r => r) 3 5).1 = some v →
        v = 5 ∨ (v < 0 ∧ ∃ i r, v = (fun (_ : Nat) (r : Int) => r) i r))) :=
  ⟨by norm_num,
   c6_chunked_io_no_truncation (fun _ r => r) 3 5 (fun _ r => le_refl r) (by norm_num)⟩

theorem lzo_probe_loop_false (comp : Nat → Nat → Nat) (thr : ℚ) (S : Nat) :
    ∀ (fuel off test_len buftest : Nat),
      (lzo_probe_loop comp thr S fuel off test_len buftest).1 = false →
      (lzo_probe_loop comp thr S fuel off test_len buftest).2
        = lzo_probe_windows S fuel off test_len buftest := by
  intro fuel
  induction fuel with
  | zero => intro off tl bt _; rfl
  | succ n ih =>
    intro off tl bt h
    by_cases htl : tl = 0
    · simp only [lzo_probe_loop, lzo_probe_windows, if_pos htl]
    · by_cases hbeat : ((comp off (min tl bt) : ℚ)) < ((min tl bt : Nat) : ℚ) * thr
      · exfalso
        simp only [lzo_probe_loop, if_neg htl, if_pos hbeat] at h
        exact Bool.true_eq_false ▸ h
      · simp only [lzo_probe_loop, lzo_probe_windows, if_neg htl, if_neg hbeat] at h ⊢
        exact congrArg (List.cons _) (ih _ _ _ h)

theorem lzo_probe_loop_true_iff (comp : Nat → Nat → Nat) (thr : ℚ) (S : Nat) :
    ∀ (fuel off test_len buftest : Nat),
      (lzo_probe_loop comp thr S fuel off test_len buftest).1 = true ↔
      ∃ w ∈ lzo_probe_windows S fuel off test_len buftest,
        (comp w.1 w.2 : ℚ) < (w.2 : ℚ) * thr := by
  intro fuel
  induction fuel with
  | zero => intro off tl bt; simp [lzo_probe_loop, lzo_probe_windows]
  | succ n ih =>
    intro off tl bt
    by_cases htl : tl = 0
    · simp [lzo_probe_loop, lzo_probe_windows, if_pos htl]
    · by_cases hbeat : ((comp off (min tl bt) : ℚ)) < ((min tl bt : Nat) : ℚ) * thr
      · simp only [lzo_probe_loop, lzo_probe_windows, if_neg htl, if_pos hbeat]
        constructor
        · intro _
          exact ⟨(off, min tl bt), List.mem_cons_self _ _, hbeat⟩
        · intro _; trivial
      · simp only [lzo_probe_loop, lzo_probe_windows, if_neg htl, if_neg hbeat]
        rw [ih]
        constructor
        · rintro ⟨w, hw, hbw⟩
          exact ⟨w, List.mem_cons_of_mem _ hw, hbw⟩
        · rintro ⟨w, hw, hbw⟩
          rcases List.mem_cons.mp hw with rfl | hw
          · exact absurd hbw hbeat
          · exact ⟨w, hw, hbw⟩

theorem lzo_probe_windows_sum (S : Nat) :
    ∀ (fuel off test_len buftest : Nat), 1 ≤ buftest → test_len < fuel →
      ((lzo_probe_windows S fuel off test_len buftest).map Prod.snd).sum = test_len := by
  intro fuel
  induction fuel with
  | zero => intro off tl bt _ h; omega
  | succ n ih =>
    intro off tl bt hbt hf
    simp only [lzo_probe_windows]
    split
    · simp_all
    · rename_i htl
      simp only [List.map_cons, List.sum_cons]
      have h1 : 1 ≤ min tl bt := by omega
      have hrec := ih (off + min tl bt) (tl - min tl bt)
        (if bt < S then bt * 2 else bt) (by split <;> omega) (by omega)
      rw [hrec]
      omega

/-- C7: the probe returns compressible at once (testing no window) when
`threshold > 1`; otherwise it returns compressible exactly when some window
of the doubling partition compresses strictly below `in_len * threshold`,
and when it returns incompressible it has examined the whole buffer: the
tested windows are the full partition, whose lengths sum to `s_len`. -/
theorem c7_lzo_probe (comp : Nat → Nat → Nat) (thr : ℚ) (S s_len : Nat)
    (hb : 1 ≤ lzo_buftest_init S s_len) :
    (thr > 1 → lzo_compresses comp thr S s_len = (true, [])) ∧
    (thr ≤ 1 →
      ((lzo_compresses comp thr S s_len).1 = true ↔
        ∃ w ∈ lzo_probe_windows S (s_len+1) 0 s_len (lzo_buftest_init S s_len),
          (comp w.1 w.2 : ℚ) < (w.2 : ℚ) * thr)) ∧
    (thr ≤ 1 → (lzo_compresses comp thr S s_len).1 = false →
      (lzo_compresses comp thr S s_len).2
        = lzo_probe_windows S (s_len+1) 0 s_len (lzo_buftest_init S s_len)) ∧
    ((lzo_probe_windows S (s_len+1) 0 s_len (lzo_buftest_init S s_len)).map
        Prod.snd).sum = s_len := by
  refine ⟨?_, ?_, ?_, ?_⟩
  · intro h; simp [lzo_compresses, h]
  · intro h
    have hnot : ¬ thr > 1 := not_lt.mpr h
    simp only [lzo_compresses, if_neg hnot]
    exact lzo_probe_loop_true_iff comp thr S _ _ _ _
  · intro h hf
    have hnot : ¬ thr > 1 := not_lt.mpr h
    simp only [lzo_compresses, if_neg hnot] at hf ⊢
    exact lzo_probe_loop_false comp thr S _ _ _ _ hf
  · exact lzo_probe_windows_sum S _ _ _ _ hb (by omega)

theorem c7_lzo_probe_witness :
    1 ≤ lzo_buftest_init 4096 3 ∧
    (((1:ℚ) > 1 → lzo_compresses (fun _ l => l) 1 4096 3 = (true, [])) ∧
     ((1:ℚ) ≤ 1 →
       ((lzo_compresses (fun _ l => l) 1 4096 3).1 = true ↔
         ∃ w ∈ lzo_probe_windows 4096 4 0 3 (lzo_buftest_init 4096 3),
           ((fun (_ l : Nat) => l) w.1 w.2 : ℚ) < (w.2 : ℚ) * 1)) ∧
     ((1:ℚ) ≤ 1 → (lzo_compresses (fun _ l => l) 1 4096 3).1 = false →
       (lzo_compresses (fun _ l => l) 1 4096 3).2
         = lzo_probe_windows 4096 4 0 3 (lzo_buftest_init 4096 3)) ∧
     ((lzo_probe_windows 4096 4 0 3 (lzo_buftest_init 4096 3)).map
         Prod.snd).sum = 3) :=
  ⟨by decide, c7_lzo_probe (fun _ l => l) 1 4096 3 (by decide)⟩

/-- C4 counterexample: with every speculative allocation succeeding, one
worker, one stream and a caller limit of 1 byte, the first probe succeeds
at limit 1 and the code sets `bufsize = min(1, max(1, S)) = 1`, while the
claim's formula `max(S, min(limit, ceil(limit/W)))` gives `S = 10485760`;
in particular `bufsize ≥ STREAM_BUFSIZE` fails. -/
theorem c4_counterexample :
    test_malloc_probe (fun _ => true) 1 1 1 = some 1 ∧
    open_bufsize STREAM_BUFSIZE 1 1 = 1 ∧
    claimed_bufsize STREAM_BUFSIZE 1 1 = STREAM_BUFSIZE ∧
    ¬ STREAM_BUFSIZE ≤ open_bufsize STREAM_BUFSIZE 1 1 := by decide

/-- C4 as amended: the sizer repeatedly attempts a speculative allocation
of `limit * (n + 1)` bytes, shrinking `limit` to `limit / 10 * 9`
(integer arithmetic, roughly 0.9) after each failure; once an attempt
succeeds at `lim`, it sets
`bufsize = min(lim, max(ceil(lim / W), STREAM_BUFSIZE))` — not the
claim's `max(STREAM_BUFSIZE, min(lim, ceil(lim / W)))` — so the
resulting bufsize satisfies `bufsize ≥ min(lim, STREAM_BUFSIZE)`, and
`bufsize ≥ STREAM_BUFSIZE` only when `lim ≥ STREAM_BUFSIZE`. -/
theorem c4_memory_sizer (alloc : Nat → Bool) (S n W fuel limit : Nat) (hW : 1 ≤ W) :
    (alloc (limit * (n + 1)) = false →
      test_malloc_probe alloc n (fuel+1) limit
        = test_malloc_probe alloc n fuel (limit / 10 * 9)) ∧
    (∀ lim, test_malloc_probe alloc n fuel limit = some lim →
      alloc (lim * (n + 1)) = true ∧
      min lim S ≤ open_bufsize S W lim ∧
      (S ≤ lim → S ≤ open_bufsize S W lim) ∧
      open_bufsize S W lim ≤ lim) := by
  have harith : ∀ lim : Nat, min lim S ≤ open_bufsize S W lim ∧
      (S ≤ lim → S ≤ open_bufsize S W lim) ∧ open_bufsize S W lim ≤ lim := by
    intro lim
    unfold open_bufsize
    refine ⟨?_, ?_, ?_⟩ <;> omega
  constructor
  · intro hf
    simp [test_malloc_probe, hf]
  · induction fuel generalizing limit with
    | zero =>
      intro lim h
      simp [test_malloc_probe] at h
    | succ f ih =>
      intro lim h
      simp only [test_malloc_probe] at h
      split at h
      · rename_i ha
        simp only [Option.some.injEq] at h
        subst h
        exact ⟨ha, harith _⟩
      · exact ih _ _ h

theorem c4_memory_sizer_witness :
    1 ≤ 2 ∧
    (((fun (_ : Nat) => true) (100 * (1 + 1)) = false →
      test_malloc_probe (fun _ => true) 1 (1+1) 100
        = test_malloc_probe (fun _ => true) 1 1 (100 / 10 * 9)) ∧
    (∀ lim, test_malloc_probe (fun _ => true) 1 1 100 = some lim →
      (fun (_ : Nat) => true) (lim * (1 + 1)) = true ∧
      min lim 10 ≤ open_bufsize 10 2 lim ∧
      (10 ≤ lim → 10 ≤ open_bufsize 10 2 lim) ∧
      open_bufsize 10 2 lim ≤ lim)) :=
  ⟨by decide, c4_memory_sizer (fun _ => true) 10 1 2 1 100 (by decide)⟩

theorem le64_length (v : Nat) : (le64 v).length = 8 := rfl

theorem readLE_le64 (v : Nat) : readLE (le64 v) = v % 2 ^ 64 := by
  simp only [le64, readLE, List.foldr]
  norm_num
  omega

theorem readLE_le64_of_lt (v : Nat) (h : v < 2 ^ 64) : readLE (le64 v) = v := by
  rw [readLE_le64, Nat.mod_eq_of_lt h]

/-- C5 counterexample: a current-format archive whose first record is
all-zero.  `open_stream_in` succeeds after advancing `initial_pos` by 25
bytes — the full header length — not by the 13 bytes the claim states. -/
theorem c5_counterexample :
    open_stream_in false
      (List.replicate 25 0 ++ (CTYPE_NONE :: (le64 0 ++ le64 0 ++ le64 5))) 1
      = some (25, [5]) ∧ (25 : Nat) ≠ 13 := by decide

/-- C5 as amended: `open_stream_in` fails (returns NULL) whenever any of
the sentinel records it validates has `c_type ≠ NONE`, `c_len ≠ 0` or
`u_len ≠ 0`; and when the first record read is all-zero it skips one full
header length — 25 bytes in the current format, 13 only for pre-0.4
archives — advancing the handle's initial position, and retries reading
stream 0's sentinel, repeating (not once but) as long as an all-zero
record remains first. -/
theorem c5_open_stream_in (legacy : Bool) (file : List Nat)
    (fuel k p ip : Nat) (first : Bool) (c v1 v2 lh : Nat)
    (hread : readHeaderAt legacy file p = some (c, v1, v2, lh)) :
    ((c ≠ CTYPE_NONE ∨ v1 ≠ 0 ∨ v2 ≠ 0) →
      ¬ (first ∧ c = CTYPE_NONE ∧ v1 = 0 ∧ v2 = 0 ∧ lh = 0) →
      sentinel_loop legacy file (fuel+1) first (k+1) p ip = none) ∧
    ((first ∧ c = CTYPE_NONE ∧ v1 = 0 ∧ v2 = 0 ∧ lh = 0) →
      sentinel_loop legacy file (fuel+1) first (k+1) p ip
        = sentinel_loop legacy file fuel first (k+1) (p + hdrLen legacy)
            (ip + hdrLen legacy)) ∧
    hdrLen false = 25 ∧ hdrLen true = 13 := by
  refine ⟨?_, ?_, rfl, rfl⟩
  · intro hbad hnwa
    simp only [sentinel_loop, hread]
    rw [if_neg hnwa]
    split
    · rfl
    · split
      · rfl
      · split
        · rfl
        · rename_i h1 h2 h3
          exfalso
          rcases hbad with h | h | h <;> simp_all
  · intro hwa
    simp only [sentinel_loop, hread]
    rw [if_pos hwa]

theorem c5_open_stream_in_witness :
    readHeaderAt false (List.replicate 25 0) 0 = some (0, 0, 0, 0) ∧
    (((0 ≠ CTYPE_NONE ∨ 0 ≠ 0 ∨ 0 ≠ 0) →
      ¬ (true = true ∧ 0 = CTYPE_NONE ∧ 0 = 0 ∧ 0 = 0 ∧ 0 = 0) →
      sentinel_loop false (List.replicate 25 0) (2+1) true (0+1) 0 0 = none) ∧
    ((true = true ∧ 0 = CTYPE_NONE ∧ 0 = 0 ∧ 0 = 0 ∧ 0 = 0) →
      sentinel_loop false (List.replicate 25 0) (2+1) true (0+1) 0 0
        = sentinel_loop false (List.replicate 25 0) 2 true (0+1) (0 + hdrLen false)
            (0 + hdrLen false)) ∧
    hdrLen false = 25 ∧ hdrLen true = 13) := by
  constructor
  · decide
  · exact c5_open_stream_in false (List.replicate 25 0) 2 0 0 0 true 0 0 0 0 (by decide)

theorem bzip2_compress_buf_dichotomy (env : CodecEnv) (ct : CompSlot)
    (h : ct.c_type = CTYPE_NONE ∧ ct.c_len = ct.s_len ∧ ct.raw = true) :
    slotDichotomy (bzip2_compress_buf env ct) := by
  unfold bzip2_compress_buf
  split
  · exact Or.inl h
  · match henv : env.bzip2 with
    | .allocFail => exact Or.inl h
    | .codecErr e => exact Or.inl h
    | .ok dlen =>
      dsimp only
      split
      · exact Or.inl h
      · rename_i hlt
        right
        refine ⟨by simp [CTYPE_BZIP2, CTYPE_NONE], ?_, rfl⟩
        simp only
        omega

theorem gzip_compress_buf_dichotomy (env : CodecEnv) (ct : CompSlot)
    (h : ct.c_type = CTYPE_NONE ∧ ct.c_len = ct.s_len ∧ ct.raw = true) :
    slotDichotomy (gzip_compress_buf env ct) := by
  unfold gzip_compress_buf
  match henv : env.gzip with
  | .allocFail => exact Or.inl h
  | .codecErr e => exact Or.inl h
  | .ok dlen =>
    dsimp only
    split
    · exact Or.inl h
    · rename_i hlt
      right
      refine ⟨by simp [CTYPE_GZIP, CTYPE_NONE], ?_, rfl⟩
      simp only
      omega

theorem lzma_compress_buf_dichotomy (env : CodecEnv) (ct : CompSlot)
    (h : ct.c_type = CTYPE_NONE ∧ ct.c_len = ct.s_len ∧ ct.raw = true) :
    slotDichotomy (lzma_compress_buf env ct) := by
  unfold lzma_compress_buf
  split
  · exact Or.inl h
  · match henv : env.lzma with
    | .allocFail => exact Or.inl h
    | .codecErr oom =>
      dsimp only
      split
      · exact bzip2_compress_buf_dichotomy env ct h
      · exact Or.inl h
    | .ok dlen =>
      dsimp only
      split
      · exact Or.inl h
      · rename_i hlt
        right
        refine ⟨by simp [CTYPE_LZMA, CTYPE_NONE], ?_, rfl⟩
        simp only
        omega

theorem lzo_compress_buf_dichotomy (env : CodecEnv) (ct : CompSlot)
    (h : ct.c_type = CTYPE_NONE ∧ ct.c_len = ct.s_len ∧ ct.raw = true) :
    slotDichotomy (lzo_compress_buf env ct) := by
  unfold lzo_compress_buf
  match henv : env.lzo with
  | .allocFail => exact Or.inl h
  | .codecErr e => exact Or.inl h
  | .ok dlen =>
    dsimp only
    split
    · exact Or.inl h
    · rename_i hlt
      right
      refine ⟨by simp [CTYPE_LZO, CTYPE_NONE], ?_, rfl⟩
      simp only
      omega

theorem zpaq_compress_buf_dichotomy (env : CodecEnv) (ct ct' : CompSlot)
    (h : ct.c_type = CTYPE_NONE ∧ ct.c_len = ct.s_len ∧ ct.raw = true)
    (h' : zpaq_compress_buf env ct = some ct') :
    slotDichotomy ct' := by
  unfold zpaq_compress_buf at h'
  split at h'
  · simp only [Option.some.injEq] at h'
    exact h' ▸ Or.inl h
  · match henv : env.zpaq with
    | .allocFail => rw [henv] at h'; exact absurd h' (by simp)
    | .codecErr e =>
      rw [henv] at h'
      simp only [Option.some.injEq] at h'
      exact h' ▸ Or.inl h
    | .ok dlen =>
      rw [henv] at h'
      simp only [Option.some.injEq] at h'
      subst h'
      split
      · exact Or.inl h
      · rename_i hlt
        right
        refine ⟨by simp [CTYPE_ZPAQ, CTYPE_NONE], ?_, rfl⟩
        simp only
        omega

/-- C3 counterexample: lzma is the selected codec and fails with
`SZ_ERROR_MEM`; the claim demands `c_type = NONE` with the original
payload, but the code retries with bzip2 (stream.c:309-315) and stores a
`CTYPE_BZIP2` record on a 10-byte block that bzip2 shrinks to 5. -/
theorem c3_counterexample :
    compthread_comp c3_env false .lzma 10
      = some { c_type := CTYPE_BZIP2, c_len := 5, s_len := 10, raw := false } ∧
    CTYPE_BZIP2 ≠ CTYPE_NONE := by decide

theorem bzip2_compress_buf_s_len (env : CodecEnv) (ct : CompSlot) :
    (bzip2_compress_buf env ct).s_len = ct.s_len := by
  unfold bzip2_compress_buf
  split
  · rfl
  · match env.bzip2 with
    | .allocFail => rfl
    | .codecErr e => rfl
    | .ok dlen => dsimp only; split <;> rfl

theorem gzip_compress_buf_s_len (env : CodecEnv) (ct : CompSlot) :
    (gzip_compress_buf env ct).s_len = ct.s_len := by
  unfold gzip_compress_buf
  match env.gzip with
  | .allocFail => rfl
  | .codecErr e => rfl
  | .ok dlen => dsimp only; split <;> rfl

theorem lzo_compress_buf_s_len (env : CodecEnv) (ct : CompSlot) :
    (lzo_compress_buf env ct).s_len = ct.s_len := by
  unfold lzo_compress_buf
  match env.lzo with
  | .allocFail => rfl
  | .codecErr e => rfl
  | .ok dlen => dsimp only; split <;> rfl

theorem lzma_compress_buf_s_len (env : CodecEnv) (ct : CompSlot) :
    (lzma_compress_buf env ct).s_len = ct.s_len := by
  unfold lzma_compress_buf
  split
  · rfl
  · match env.lzma with
    | .allocFail => rfl
    | .codecErr oom =>
      dsimp only
      split
      · exact bzip2_compress_buf_s_len env ct
      · rfl
    | .ok dlen => dsimp only; split <;> rfl

theorem zpaq_compress_buf_s_len (env : CodecEnv) (ct ct' : CompSlot)
    (h : zpaq_compress_buf env ct = some ct') : ct'.s_len = ct.s_len := by
  unfold zpaq_compress_buf at h
  split at h
  · simp only [Option.some.injEq] at h
    subst h; rfl
  · match henv : env.zpaq with
    | .allocFail => rw [henv] at h; exact absurd h (by simp)
    | .codecErr e =>
      rw [henv] at h
      simp only [Option.some.injEq] at h
      subst h; rfl
    | .ok dlen =>
      rw [henv] at h
      simp only [Option.some.injEq] at h
      subst h
      split <;> rfl

/-- C3 as amended: a block is stored raw (`c_type = NONE`, `c_len = u_len`,
original bytes retained) whenever the LZ probe rejects it, the back end's
allocations or invocation fail, or the back end reports no strict size
reduction — except that an lzma out-of-memory failure retries the very
same block with bzip2 before deciding.  In all cases every record that a
worker writes satisfies `(c_type = NONE ∧ c_len = u_len ∧ payload raw) ∨
(c_type ≠ NONE ∧ c_len < u_len)`, and `s_len` is never altered. -/
theorem c3_store_raw_dichotomy (env : CodecEnv) (noCompress : Bool)
    (sel : Backend) (s_len : Nat) (ct : CompSlot)
    (h : compthread_comp env noCompress sel s_len = some ct) :
    slotDichotomy ct ∧ ct.s_len = s_len ∧
    (env.lzma = .codecErr true →
      lzma_compress_buf env (CompSlot.mk CTYPE_NONE s_len s_len true)
      = bzip2_compress_buf env (CompSlot.mk CTYPE_NONE s_len s_len true)) := by
  have hfresh : (CompSlot.mk CTYPE_NONE s_len s_len true).c_type = CTYPE_NONE ∧
      (CompSlot.mk CTYPE_NONE s_len s_len true).c_len
        = (CompSlot.mk CTYPE_NONE s_len s_len true).s_len ∧
      (CompSlot.mk CTYPE_NONE s_len s_len true).raw = true := ⟨rfl, rfl, rfl⟩
  have hoom : env.lzma = .codecErr true →
      lzma_compress_buf env (CompSlot.mk CTYPE_NONE s_len s_len true)
        = bzip2_compress_buf env (CompSlot.mk CTYPE_NONE s_len s_len true) := by
    intro hl
    unfold lzma_compress_buf bzip2_compress_buf
    rw [hl]
    split
    · rfl
    · rfl
  unfold compthread_comp at h
  split at h
  · simp only [Option.some.injEq] at h
    subst h
    exact ⟨Or.inl ⟨rfl, rfl, rfl⟩, rfl, hoom⟩
  · match sel with
    | .lzma =>
      simp only [Option.some.injEq] at h
      subst h
      exact ⟨lzma_compress_buf_dichotomy env _ hfresh,
        lzma_compress_buf_s_len env _, hoom⟩
    | .lzo =>
      simp only [Option.some.injEq] at h
      subst h
      exact ⟨lzo_compress_buf_dichotomy env _ hfresh,
        lzo_compress_buf_s_len env _, hoom⟩
    | .bzip2 =>
      simp only [Option.some.injEq] at h
      subst h
      exact ⟨bzip2_compress_buf_dichotomy env _ hfresh,
        bzip2_compress_buf_s_len env _, hoom⟩
    | .gzip =>
      simp only [Option.some.injEq] at h
      subst h
      exact ⟨gzip_compress_buf_dichotomy env _ hfresh,
        gzip_compress_buf_s_len env _, hoom⟩
    | .zpaq =>
      exact ⟨zpaq_compress_buf_dichotomy env _ _ hfresh h,
        zpaq_compress_buf_s_len env _ _ h, hoom⟩

theorem c3_store_raw_dichotomy_witness :
    compthread_comp c3_env false .bzip2 10
      = some { c_type := CTYPE_BZIP2, c_len := 5, s_len := 10, raw := false } ∧
    (slotDichotomy { c_type := CTYPE_BZIP2, c_len := 5, s_len := 10, raw := false } ∧
     (CompSlot.mk CTYPE_BZIP2 5 10 false).s_len = 10 ∧
     (c3_env.lzma = .codecErr true →
       lzma_compress_buf c3_env (CompSlot.mk CTYPE_NONE 10 10 true)
       = bzip2_compress_buf c3_env (CompSlot.mk CTYPE_NONE 10 10 true))) :=
  ⟨by decide,
   c3_store_raw_dichotomy c3_env false .bzip2 10
     { c_type := CTYPE_BZIP2, c_len := 5, s_len := 10, raw := false } (by decide)⟩

/-- C8 counterexample: when the `cthread` worker-slot array allocation
fails, `open_stream_out` aborts the process via `fatal` instead of
returning NULL to the caller as the claim states; likewise for the
per-stream buffer allocation. -/
theorem c8_counterexample :
    open_stream_out_alloc true true false true true = .fatal ∧
    open_stream_out_alloc true true true true false = .fatal ∧
    AllocOutcome.fatal ≠ AllocOutcome.null := by decide

theorem xorBytes_length (a b : List Nat) :
    (xorBytes a b).length = min a.length b.length := by
  simp [xorBytes]

theorem xorBytes_cancel : ∀ (a c : List Nat), a.length = c.length →
    xorBytes (xorBytes a c) c = a := by
  intro a
  induction a with
  | nil => intro c h; rfl
  | cons x xs ih =>
    intro c h
    cases c with
    | nil => simp at h
    | cons y ys =>
      simp only [xorBytes, List.zipWith_cons_cons] at ih ⊢
      rw [ih ys (by simpa using h)]
      congr 1
      simp [Nat.xor_assoc, Nat.xor_self, Nat.xor_zero]

theorem xorBytes_append (a1 a2 b1 b2 : List Nat) (h : a1.length = b1.length) :
    xorBytes (a1 ++ a2) (b1 ++ b2) = xorBytes a1 b1 ++ xorBytes a2 b2 :=
  List.zipWith_append _ _ _ _ _ h

theorem xorBytes_zero_left : ∀ (n : Nat) (b : List Nat),
    xorBytes (List.replicate n 0) b = b.take n := by
  intro n
  induction n with
  | zero => intro b; simp [xorBytes]
  | succ m ih =>
    intro b
    cases b with
    | nil => simp [xorBytes]
    | cons y ys =>
      simp only [List.replicate, xorBytes, List.zipWith_cons_cons, List.take]
      rw [← xorBytes, ih ys]
      simp [Nat.zero_xor]

theorem xorBytes_zero_right : ∀ (b : List Nat) (n : Nat),
    xorBytes b (List.replicate n 0) = b.take n := by
  intro b
  induction b with
  | nil => intro n; simp [xorBytes]
  | cons y ys ih =>
    intro n
    cases n with
    | zero => simp [xorBytes]
    | succ m =>
      simp only [List.replicate, xorBytes, List.zipWith_cons_cons, List.take]
      rw [← xorBytes, ih m]
      simp [Nat.xor_zero]

theorem toBlocks_flatten_aux : ∀ (n : Nat) (l : List Nat), l.length ≤ n →
    (toBlocks l).flatten = l := by
  intro n
  induction n with
  | zero =>
    intro l h
    have : l = [] := List.eq_nil_of_length_eq_zero (by omega)
    subst this
    rw [toBlocks]
    simp
  | succ m ih =>
    intro l h
    by_cases hnil : l = []
    · subst hnil
      rw [toBlocks]
      simp
    · rw [toBlocks, dif_neg hnil]
      have hp : 0 < l.length := List.length_pos.mpr hnil
      simp only [List.flatten_cons]
      rw [ih (l.drop 16) (by simp only [List.length_drop]; omega)]
      exact List.take_append_drop 16 l

theorem toBlocks_flatten (l : List Nat) : (toBlocks l).flatten = l :=
  toBlocks_flatten_aux l.length l (le_refl _)

theorem toBlocks_mem_length_aux : ∀ (n : Nat) (l : List Nat), l.length ≤ n →
    16 ∣ l.length → ∀ b ∈ toBlocks l, b.length = 16 := by
  intro n
  induction n with
  | zero =>
    intro l h _ b hb
    have : l = [] := List.eq_nil_of_length_eq_zero (by omega)
    subst this
    rw [toBlocks] at hb
    simp at hb
  | succ m ih =>
    intro l h hdvd b hb
    by_cases hnil : l = []
    · subst hnil
      rw [toBlocks] at hb
      simp at hb
    · rw [toBlocks, dif_neg hnil] at hb
      have hp : 0 < l.length := List.length_pos.mpr hnil
      have h16 : 16 ≤ l.length := by
        rcases hdvd with ⟨c, hc⟩
        rcases Nat.eq_zero_or_pos c with rfl | hcpos <;> omega
      rcases List.mem_cons.mp hb with rfl | hb
      · simp only [List.length_take]
        omega
      · refine ih (l.drop 16) (by simp only [List.length_drop]; omega) ?_ b hb
        simp only [List.length_drop]
        exact Nat.dvd_sub' hdvd (dvd_refl 16)

theorem toBlocks_mem_length (l : List Nat) (hdvd : 16 ∣ l.length) :
    ∀ b ∈ toBlocks l, b.length = 16 :=
  toBlocks_mem_length_aux l.length l (le_refl _) hdvd

theorem toBlocks_of_blocks : ∀ (cs : List (List Nat)),
    (∀ b ∈ cs, b.length = 16) → toBlocks cs.flatten = cs := by
  intro cs
  induction cs with
  | nil =>
    intro _
    rw [List.flatten_nil, toBlocks]
    simp
  | cons c cs ih =>
    intro h
    have hc : c.length = 16 := h c (List.mem_cons_self _ _)
    have hnonnil : (c :: cs).flatten ≠ [] := by
      simp only [List.flatten_cons, ne_eq, List.append_eq_nil]
      intro hcontra
      rw [hcontra.1] at hc
      simp at hc
    rw [toBlocks, dif_neg hnonnil]
    simp only [List.flatten_cons]
    rw [← hc, List.take_left, List.drop_left]
    rw [ih (fun b hb => h b (List.mem_cons_of_mem _ hb))]

theorem flatten_length_16 : ∀ (cs : List (List Nat)),
    (∀ b ∈ cs, b.length = 16) → cs.flatten.length = 16 * cs.length := by
  intro cs
  induction cs with
  | nil => intro _; simp
  | cons c cs ih =>
    intro h
    simp only [List.flatten_cons, List.length_append, List.length_cons]
    rw [h c (List.mem_cons_self _ _), ih (fun b hb => h b (List.mem_cons_of_mem _ hb))]
    ring

theorem cbcEnc_count (E : List Nat → List Nat) :
    ∀ (bs : List (List Nat)) (iv : List Nat),
      (cbcEnc E iv bs).1.length = bs.length := by
  intro bs
  induction bs with
  | nil => intro iv; rfl
  | cons b bs ih =>
    intro iv
    simp only [cbcEnc, List.length_cons]
    rw [ih]

theorem cbcEnc_blocks (E : List Nat → List Nat)
    (hE : ∀ b, b.length = 16 → (E b).length = 16) :
    ∀ (bs : List (List Nat)) (iv : List Nat), iv.length = 16 →
      (∀ b ∈ bs, b.length = 16) →
      (∀ c ∈ (cbcEnc E iv bs).1, c.length = 16) ∧
      (cbcEnc E iv bs).2.length = 16 := by
  intro bs
  induction bs with
  | nil => intro iv hiv _; exact ⟨by simp [cbcEnc], hiv⟩
  | cons b bs ih =>
    intro iv hiv hall
    have hb : b.length = 16 := hall b (List.mem_cons_self _ _)
    have hx : (xorBytes b iv).length = 16 := by
      simp [xorBytes_length, hb, hiv]
    have hc : (E (xorBytes b iv)).length = 16 := hE _ hx
    have hrec := ih (E (xorBytes b iv)) hc
      (fun x hx2 => hall x (List.mem_cons_of_mem _ hx2))
    refine ⟨?_, hrec.2⟩
    intro c hcmem
    simp only [cbcEnc] at hcmem
    rcases List.mem_cons.mp hcmem with rfl | hcmem
    · exact hc
    · exact hrec.1 c hcmem

theorem cbcEnc_append (E : List Nat → List Nat) :
    ∀ (as bs : List (List Nat)) (iv : List Nat),
      cbcEnc E iv (as ++ bs)
        = ((cbcEnc E iv as).1 ++ (cbcEnc E (cbcEnc E iv as).2 bs).1,
           (cbcEnc E (cbcEnc E iv as).2 bs).2) := by
  intro as
  induction as with
  | nil => intro bs iv; simp [cbcEnc]
  | cons a as ih =>
    intro bs iv
    simp only [List.cons_append, cbcEnc, List.append_eq]
    rw [ih]

theorem cbc_roundtrip (E D : List Nat → List Nat)
    (hE : ∀ b, b.length = 16 → (E b).length = 16)
    (hD : ∀ b, b.length = 16 → D (E b) = b) :
    ∀ (bs : List (List Nat)) (iv : List Nat), iv.length = 16 →
      (∀ b ∈ bs, b.length = 16) →
      cbcDec D iv (cbcEnc E iv bs).1 = (bs, (cbcEnc E iv bs).2) := by
  intro bs
  induction bs with
  | nil => intro iv _ _; rfl
  | cons b bs ih =>
    intro iv hiv hall
    have hb : b.length = 16 := hall b (List.mem_cons_self _ _)
    have hx : (xorBytes b iv).length = 16 := by
      simp [xorBytes_length, hb, hiv]
    have hc : (E (xorBytes b iv)).length = 16 := hE _ hx
    simp only [cbcEnc, cbcDec]
    rw [hD _ hx, xorBytes_cancel _ _ (by rw [hb, hiv]),
      ih (E (xorBytes b iv)) hc (fun x hx2 => hall x (List.mem_cons_of_mem _ hx2))]

theorem lrz_decrypt_cts_parts (D : List Nat → List Nat) (iv A T C : List Nat)
    (M : Nat) (hA : 16 ∣ A.length) (hT : T.length = 16) (hC : C.length = M)
    (hMlt : M < 16) (hM0 : M ≠ 0) :
    lrz_decrypt_cts D iv (A ++ T ++ C)
      = (cbcDec D iv (toBlocks A)).1.flatten
        ++ xorBytes (D (C.take M
              ++ (xorBytes (D T) (C ++ List.replicate (16 - M) 0)).drop M))
            (cbcDec D iv (toBlocks A)).2
        ++ (xorBytes (D T) (C ++ List.replicate (16 - M) 0)).take M := by
  obtain ⟨k, hk⟩ := hA
  have hL : (A ++ T ++ C).length = A.length + 16 + M := by
    simp [List.length_append, hT, hC]
    omega
  have hmod : (A ++ T ++ C).length % 16 = M := by rw [hL]; omega
  have e1 : (A ++ T ++ C).take A.length = A := by
    rw [List.append_assoc]; exact List.take_left _ _
  have e2 : (A ++ T ++ C).drop A.length = T ++ C := by
    rw [List.append_assoc]; exact List.drop_left _ _
  have e3 : (A ++ T ++ C).drop (A.length + 16) = C := by
    rw [show A.length + 16 = (A ++ T).length by simp [hT]]
    exact List.drop_left _ _
  have e4 : (T ++ C).take 16 = T := by
    rw [← hT]; exact List.take_left _ _
  simp only [lrz_decrypt_cts]
  rw [hmod, if_neg hM0]
  rw [show (A ++ T ++ C).length - M = A.length + 16 by rw [hL]; omega]
  rw [Nat.add_sub_cancel, e1, e2, e3, e4]

theorem lrz_cts_roundtrip (E D : List Nat → List Nat)
    (hE : ∀ b, b.length = 16 → (E b).length = 16)
    (hD : ∀ b, b.length = 16 → D (E b) = b)
    (iv : List Nat) (hiv : iv.length = 16)
    (buf : List Nat) (hlen : 16 ≤ buf.length) :
    (lrz_encrypt_cts E iv buf).length = buf.length ∧
    lrz_decrypt_cts D iv (lrz_encrypt_cts E iv buf) = buf := by
  by_cases hM : buf.length % 16 = 0
  · -- aligned buffer: plain CBC in both directions
    have hdvd : 16 ∣ buf.length := Nat.dvd_of_mod_eq_zero hM
    have hbs16 := toBlocks_mem_length buf hdvd
    have hencB := cbcEnc_blocks E hE (toBlocks buf) iv hiv hbs16
    have hct : lrz_encrypt_cts E iv buf = (cbcEnc E iv (toBlocks buf)).1.flatten := by
      simp only [lrz_encrypt_cts, hM, Nat.sub_zero, List.take_length, if_pos]
    have hflen : (cbcEnc E iv (toBlocks buf)).1.flatten.length = buf.length := by
      rw [flatten_length_16 _ hencB.1, cbcEnc_count]
      conv_rhs => rw [← toBlocks_flatten buf]
      rw [flatten_length_16 _ hbs16]
    refine ⟨by rw [hct]; exact hflen, ?_⟩
    rw [hct]
    have hM' : (cbcEnc E iv (toBlocks buf)).1.flatten.length % 16 = 0 := by
      rw [hflen]; exact hM
    simp only [lrz_decrypt_cts, hM', Nat.sub_zero, if_pos]
    rw [toBlocks_of_blocks _ hencB.1,
      cbc_roundtrip E D hE hD (toBlocks buf) iv hiv hbs16]
    exact toBlocks_flatten buf
  · -- ciphertext stealing for the trailing partial block
    have hMlt : buf.length % 16 < 16 := Nat.mod_lt _ (by norm_num)
    have hNdvd : 16 ∣ buf.length - buf.length % 16 :=
      ⟨buf.length / 16, by omega⟩
    have hN16 : 16 ≤ buf.length - buf.length % 16 := by omega
    have hmainlen : (buf.take (buf.length - buf.length % 16)).length
        = buf.length - buf.length % 16 := by
      rw [List.length_take]; omega
    have hbs16 : ∀ b ∈ toBlocks (buf.take (buf.length - buf.length % 16)),
        b.length = 16 := by
      apply toBlocks_mem_length
      rw [hmainlen]; exact hNdvd
    have hbsflat : (toBlocks (buf.take (buf.length - buf.length % 16))).flatten
        = buf.take (buf.length - buf.length % 16) := toBlocks_flatten _
    rcases List.eq_nil_or_concat
        (toBlocks (buf.take (buf.length - buf.length % 16))) with hnil | hsplit
    · exfalso
      have hme : buf.take (buf.length - buf.length % 16) = [] := by
        rw [← hbsflat, hnil]; rfl
      have := congrArg List.length hme
      rw [hmainlen] at this
      simp at this
      omega
    obtain ⟨bsInit, blast, hsplit⟩ := hsplit
    rw [List.concat_eq_append] at hsplit
    have hbsInit16 : ∀ b ∈ bsInit, b.length = 16 := fun b hb =>
      hbs16 b (hsplit ▸ List.mem_append_left _ hb)
    have hblast16 : blast.length = 16 :=
      hbs16 blast (hsplit ▸ List.mem_append_right _ (List.mem_singleton.mpr rfl))
    have hencInit := cbcEnc_blocks E hE bsInit iv hiv hbsInit16
    have hclast16 : (E (xorBytes blast (cbcEnc E iv bsInit).2)).length = 16 :=
      hE _ (by simp [xorBytes_length, hblast16, hencInit.2])
    have hencfull : cbcEnc E iv (bsInit ++ [blast])
        = ((cbcEnc E iv bsInit).1 ++ [E (xorBytes blast (cbcEnc E iv bsInit).2)],
           E (xorBytes blast (cbcEnc E iv bsInit).2)) := by
      rw [cbcEnc_append]
      simp [cbcEnc]
    have hcsInitFlatLen : (cbcEnc E iv bsInit).1.flatten.length = 16 * bsInit.length := by
      rw [flatten_length_16 _ hencInit.1, cbcEnc_count]
    have hNval : buf.length - buf.length % 16 = 16 * bsInit.length + 16 := by
      have h1 := congrArg List.length hbsflat
      rw [hmainlen, hsplit] at h1
      rw [← h1, flatten_length_16 _ (hsplit ▸ hbs16)]
      simp only [List.length_append, List.length_cons, List.length_nil]
      ring
    have htail_len : (buf.drop (buf.length - buf.length % 16)).length
        = buf.length % 16 := by
      rw [List.length_drop]; omega
    have hxarg_len : (buf.drop (buf.length - buf.length % 16)
        ++ List.replicate (16 - buf.length % 16) 0).length = 16 := by
      rw [List.length_append, htail_len, List.length_replicate]; omega
    have htmplen : (E (xorBytes (buf.drop (buf.length - buf.length % 16)
        ++ List.replicate (16 - buf.length % 16) 0)
        (E (xorBytes blast (cbcEnc E iv bsInit).2)))).length = 16 :=
      hE _ (by rw [xorBytes_length, hxarg_len, hclast16]; rfl)
    -- the ciphertext layout
    have hct : lrz_encrypt_cts E iv buf
        = (cbcEnc E iv bsInit).1.flatten
          ++ E (xorBytes (buf.drop (buf.length - buf.length % 16)
                ++ List.replicate (16 - buf.length % 16) 0)
              (E (xorBytes blast (cbcEnc E iv bsInit).2)))
          ++ (E (xorBytes blast (cbcEnc E iv bsInit).2)).take (buf.length % 16) := by
      simp only [lrz_encrypt_cts]
      rw [if_neg hM, hsplit, hencfull]
      simp only [List.flatten_append, List.flatten_cons, List.flatten_nil,
        List.append_nil]
      congr 1
      · congr 1
        rw [show buf.length - buf.length % 16 - 16
            = (cbcEnc E iv bsInit).1.flatten.length by rw [hcsInitFlatLen]; omega]
        exact List.take_left _ _
      · rw [show buf.length - buf.length % 16 - 16
            = (cbcEnc E iv bsInit).1.flatten.length by rw [hcsInitFlatLen]; omega]
        rw [List.drop_left]
    have hctlen : (lrz_encrypt_cts E iv buf).length = buf.length := by
      rw [hct]
      simp only [List.length_append, hcsInitFlatLen, htmplen, List.length_take,
        hclast16]
      omega
    refine ⟨hctlen, ?_⟩
    rw [hct]
    have hAdvd : 16 ∣ (cbcEnc E iv bsInit).1.flatten.length :=
      ⟨bsInit.length, hcsInitFlatLen⟩
    have hCtake : ((E (xorBytes blast (cbcEnc E iv bsInit).2)).take
        (buf.length % 16)).length = buf.length % 16 := by
      rw [List.length_take, hclast16]; omega
    rw [lrz_decrypt_cts_parts D iv _ _ _ _ hAdvd htmplen hCtake hMlt hM]
    rw [toBlocks_of_blocks _ hencInit.1,
      cbc_roundtrip E D hE hD bsInit iv hiv hbsInit16]
    have hxlen2 : (xorBytes (buf.drop (buf.length - buf.length % 16)
        ++ List.replicate (16 - buf.length % 16) 0)
        (E (xorBytes blast (cbcEnc E iv bsInit).2))).length = 16 := by
      rw [xorBytes_length, hxarg_len, hclast16]
      exact Nat.min_self 16
    rw [hD _ hxlen2]
    have hinner : xorBytes (buf.drop (buf.length - buf.length % 16)
          ++ List.replicate (16 - buf.length % 16) 0)
          (E (xorBytes blast (cbcEnc E iv bsInit).2))
        = xorBytes (buf.drop (buf.length - buf.length % 16))
            ((E (xorBytes blast (cbcEnc E iv bsInit).2)).take (buf.length % 16))
          ++ (E (xorBytes blast (cbcEnc E iv bsInit).2)).drop (buf.length % 16) := by
      conv_lhs =>
        rw [← List.take_append_drop (buf.length % 16)
          (E (xorBytes blast (cbcEnc E iv bsInit).2))]
      rw [xorBytes_append _ _ _ _
        (by rw [htail_len, List.length_take, hclast16]; omega)]
      congr 1
      rw [xorBytes_zero_left,
        List.take_of_length_le (by simp [hclast16])]
    have houter : xorBytes (xorBytes (buf.drop (buf.length - buf.length % 16))
            ((E (xorBytes blast (cbcEnc E iv bsInit).2)).take (buf.length % 16))
          ++ (E (xorBytes blast (cbcEnc E iv bsInit).2)).drop (buf.length % 16))
          ((E (xorBytes blast (cbcEnc E iv bsInit).2)).take (buf.length % 16)
            ++ List.replicate (16 - buf.length % 16) 0)
        = buf.drop (buf.length - buf.length % 16)
          ++ (E (xorBytes blast (cbcEnc E iv bsInit).2)).drop (buf.length % 16) := by
      rw [xorBytes_append _ _ _ _
        (by rw [xorBytes_length, htail_len, List.length_take, hclast16]; omega)]
      congr 1
      · exact xorBytes_cancel _ _
          (by rw [htail_len, List.length_take, hclast16]; omega)
      · rw [xorBytes_zero_right,
          List.take_of_length_le (by simp [hclast16])]
    rw [hinner, houter]
    have htake_take : ((E (xorBytes blast (cbcEnc E iv bsInit).2)).take
          (buf.length % 16)).take (buf.length % 16)
        = (E (xorBytes blast (cbcEnc E iv bsInit).2)).take (buf.length % 16) :=
      List.take_of_length_le (le_of_eq hCtake)
    have htdrop : (buf.drop (buf.length - buf.length % 16)
          ++ (E (xorBytes blast (cbcEnc E iv bsInit).2)).drop (buf.length % 16)).drop
          (buf.length % 16)
        = (E (xorBytes blast (cbcEnc E iv bsInit).2)).drop (buf.length % 16) := by
      have hdl := List.drop_left (buf.drop (buf.length - buf.length % 16))
        ((E (xorBytes blast (cbcEnc E iv bsInit).2)).drop (buf.length % 16))
      rwa [htail_len] at hdl
    have httake : (buf.drop (buf.length - buf.length % 16)
          ++ (E (xorBytes blast (cbcEnc E iv bsInit).2)).drop (buf.length % 16)).take
          (buf.length % 16)
        = buf.drop (buf.length - buf.length % 16) := by
      have htl := List.take_left (buf.drop (buf.length - buf.length % 16))
        ((E (xorBytes blast (cbcEnc E iv bsInit).2)).drop (buf.length % 16))
      rwa [htail_len] at htl
    rw [htake_take, htdrop, httake, List.take_append_drop]
    have hxb16 : (xorBytes blast (cbcEnc E iv bsInit).2).length = 16 := by
      simp [xorBytes_length, hblast16, hencInit.2]
    rw [hD _ hxb16, xorBytes_cancel _ _ (by rw [hblast16, hencInit.2])]
    have hmain : bsInit.flatten ++ blast = buf.take (buf.length - buf.length % 16) := by
      rw [← hbsflat, hsplit]
      simp [List.flatten_append]
    rw [hmain, List.take_append_drop]

/-- C9: with the same key material (`pass_hash`, archive `hash`) and the
same per-block salt, `lrz_decrypt` restores exactly what `lrz_encrypt`
produced on any buffer of at least 16 bytes, and both transforms leave
the buffer length unchanged — CBC with ciphertext stealing adds no
padding.  The AES block transforms under the derived key need only be
mutually inverse length-preserving maps on 16-byte blocks, and the
configured hash (`sha4`) must produce at least 16 bytes of IV material. -/
theorem c9_encryption_roundtrip (sha4 : List Nat → List Nat)
    (aesE aesD : List Nat → List Nat → List Nat)
    (pass_hash hash salt buf : List Nat)
    (hE : ∀ b, b.length = 16 →
      (aesE (lrz_key sha4 pass_hash hash salt) b).length = 16)
    (hD : ∀ b, b.length = 16 →
      aesD (lrz_key sha4 pass_hash hash salt)
        (aesE (lrz_key sha4 pass_hash hash salt) b) = b)
    (hsha : 16 ≤ (lrz_iv sha4 pass_hash hash salt).length)
    (hlen : 16 ≤ buf.length) :
    (lrz_encrypt sha4 aesE pass_hash hash salt buf).length = buf.length ∧
    lrz_decrypt sha4 aesD pass_hash hash salt
      (lrz_encrypt sha4 aesE pass_hash hash salt buf) = buf := by
  unfold lrz_encrypt lrz_decrypt
  exact lrz_cts_roundtrip _ _ hE hD _
    (by rw [List.length_take]; omega) buf hlen

theorem c9_encryption_roundtrip_witness :
    (∀ b : List Nat, b.length = 16 →
      ((fun (_ : List Nat) (b : List Nat) => b)
        (lrz_key (fun _ => List.replicate 64 7) [1] [2] [3]) b).length = 16) ∧
    (∀ b : List Nat, b.length = 16 →
      (fun (_ : List Nat) (b : List Nat) => b)
        (lrz_key (fun _ => List.replicate 64 7) [1] [2] [3])
        ((fun (_ : List Nat) (b : List Nat) => b)
          (lrz_key (fun _ => List.replicate 64 7) [1] [2] [3]) b) = b) ∧
    16 ≤ (lrz_iv (fun _ => List.replicate 64 7) [1] [2] [3]).length ∧
    16 ≤ (List.replicate 17 9).length ∧
    ((lrz_encrypt (fun _ => List.replicate 64 7) (fun _ b => b) [1] [2] [3]
        (List.replicate 17 9)).length = (List.replicate 17 9).length ∧
     lrz_decrypt (fun _ => List.replicate 64 7) (fun _ b => b) [1] [2] [3]
       (lrz_encrypt (fun _ => List.replicate 64 7) (fun _ b => b) [1] [2] [3]
         (List.replicate 17 9)) = List.replicate 17 9) :=
  ⟨fun _ h => h, fun _ _ => rfl, by simp [lrz_iv], by simp,
   c9_encryption_roundtrip (fun _ => List.replicate 64 7) (fun _ b => b)
     (fun _ b => b) [1] [2] [3] (List.replicate 17 9)
     (fun _ h => h) (fun _ _ => rfl) (by simp [lrz_iv]) (by simp)⟩

theorem sentBytes_length (v : Nat) : (sentBytes v).length = 25 := rfl

theorem recBytes_length (c : Nat) (p : List Nat) (u x : Nat) :
    (recBytes c p u x).length = 25 + p.length := by
  simp [recBytes, le64]
  omega

theorem storeAt_append (file bytes : List Nat) :
    storeAt file file.length bytes = file ++ bytes := by
  unfold storeAt
  rw [List.take_length, List.drop_eq_nil_of_le (by omega), List.append_nil]

theorem storeAt_length (file bytes : List Nat) (p : Nat)
    (h : p + bytes.length ≤ file.length) :
    (storeAt file p bytes).length = file.length := by
  unfold storeAt
  simp only [List.length_append, List.length_take, List.length_drop]
  omega

theorem readAt_storeAt_before (file bytes : List Nat) (p q len : Nat)
    (hp : p + bytes.length ≤ file.length) (hq : q + len ≤ p) :
    readAt (storeAt file p bytes) q len = readAt file q len := by
  unfold readAt
  rw [storeAt_length _ _ _ hp]
  split
  · congr 1
    unfold storeAt
    rw [List.append_assoc]
    rw [List.drop_append_of_le_length (by rw [List.length_take]; omega)]
    rw [List.take_append_of_le_length (by
      rw [List.length_drop, List.length_take]; omega)]
    rw [List.drop_take, List.take_take]
    congr 1
    omega
  · rfl

theorem readAt_storeAt_after (file bytes : List Nat) (p q len : Nat)
    (hp : p + bytes.length ≤ file.length) (hq : p + bytes.length ≤ q) :
    readAt (storeAt file p bytes) q len = readAt file q len := by
  unfold readAt
  rw [storeAt_length _ _ _ hp]
  split
  · congr 1
    unfold storeAt
    have hlen : (file.take p ++ bytes).length = p + bytes.length := by
      rw [List.length_append, List.length_take]; omega
    conv_lhs =>
      rw [show q = (file.take p ++ bytes).length + (q - (p + bytes.length)) by
        rw [hlen]; omega]
    rw [List.drop_append, List.drop_drop]
    congr 2
    omega
  · rfl

theorem readAt_storeAt_self (file bytes : List Nat) (p : Nat)
    (hp : p + bytes.length ≤ file.length) :
    readAt (storeAt file p bytes) p bytes.length = some bytes := by
  unfold readAt
  rw [storeAt_length _ _ _ hp, if_pos hp]
  unfold storeAt
  rw [List.append_assoc]
  congr 1
  have h1 : (file.take p ++ (bytes ++ file.drop (p + bytes.length))).drop p
      = bytes ++ file.drop (p + bytes.length) := by
    have hd := List.drop_left (file.take p) (bytes ++ file.drop (p + bytes.length))
    rwa [List.length_take, min_eq_left (by omega)] at hd
  rw [h1]
  exact List.take_left _ _

theorem readAt_append_left (file tail : List Nat) (q len : Nat)
    (h : q + len ≤ file.length) :
    readAt (file ++ tail) q len = readAt file q len := by
  unfold readAt
  rw [List.length_append, if_pos (by omega), if_pos h]
  congr 1
  rw [List.drop_append_of_le_length (by omega),
    List.take_append_of_le_length (by rw [List.length_drop]; omega)]

theorem readAt_append_right (file tail : List Nat) (a len : Nat)
    (h : a + len ≤ tail.length) :
    readAt (file ++ tail) (file.length + a) len = readAt tail a len := by
  unfold readAt
  rw [List.length_append, if_pos (by omega), if_pos h]
  congr 1
  rw [List.drop_append]

theorem readHeaderAt_here (file : List Nat) (p : Nat) (c a b x : Nat)
    (hslice : readAt file p 25 = some (c :: (le64 a ++ le64 b ++ le64 x))) :
    readHeaderAt false file p
      = some (c, a % 2 ^ 64, b % 2 ^ 64, x % 2 ^ 64) := by
  simp only [readHeaderAt, Bool.false_eq_true, if_false]
  norm_num
  rw [hslice]
  dsimp only
  have hd1 : (c :: (le64 a ++ le64 b ++ le64 x)).tail
      = le64 a ++ le64 b ++ le64 x := rfl
  have ht1 : (le64 a ++ le64 b ++ le64 x).take 8 = le64 a := by
    rw [List.take_append_of_le_length (by simp [le64]),
      List.take_append_of_le_length (by simp [le64])]
    exact List.take_of_length_le (by simp [le64])
  have hd9 : (c :: (le64 a ++ le64 b ++ le64 x)).drop 9
      = le64 b ++ le64 x := by
    show (le64 a ++ le64 b ++ le64 x).drop 8 = le64 b ++ le64 x
    rw [List.append_assoc]
    have hd := List.drop_left (le64 a) (le64 b ++ le64 x)
    rwa [le64_length] at hd
  have ht9 : (le64 b ++ le64 x).take 8 = le64 b := by
    rw [List.take_append_of_le_length (by simp [le64])]
    exact List.take_of_length_le (by simp [le64])
  have hd17 : (c :: (le64 a ++ le64 b ++ le64 x)).drop 17 = le64 x := by
    show ((le64 a ++ le64 b) ++ le64 x).drop 16 = le64 x
    have hd := List.drop_left (le64 a ++ le64 b) (le64 x)
    rwa [show (le64 a ++ le64 b).length = 16 by simp [le64]] at hd
  have ht17 : (le64 x).take 8 = le64 x :=
    List.take_of_length_le (by simp [le64])
  rw [hd1, ht1, hd9, ht9, hd17, ht17]
  simp only [List.headI, readLE_le64]
  norm_num

theorem recsEnd_ge : ∀ (recs : List CRec) (n0 : Nat), packed n0 recs →
    n0 ≤ recsEnd n0 recs := by
  intro recs
  induction recs with
  | nil => intro n0 _; exact le_refl _
  | cons r rest ih =>
    intro n0 hp
    obtain ⟨hoff, hrest⟩ := hp
    simp only [recsEnd]
    rw [hoff]
    have h := ih _ hrest
    omega

theorem packed_mono : ∀ (recs : List CRec) (n0 : Nat), packed n0 recs →
    ∀ r ∈ recs, n0 ≤ r.off ∧ r.off + 25 + r.payload.length ≤ recsEnd n0 recs := by
  intro recs
  induction recs with
  | nil => intro n0 _ r hr; simp at hr
  | cons r0 rest ih =>
    intro n0 hp r hr
    obtain ⟨hoff, hrest⟩ := hp
    rcases List.mem_cons.mp hr with rfl | hr
    · subst hoff
      simp only [recsEnd]
      have := recsEnd_ge rest _ hrest
      omega
    · have h2 := ih _ hrest r hr
      simp only [recsEnd]
      subst hoff
      omega

theorem packed_disjoint : ∀ (recs : List CRec) (n0 : Nat), packed n0 recs →
    ∀ r1 ∈ recs, ∀ r2 ∈ recs, r1.off ≠ r2.off →
    r1.off + 25 + r1.payload.length ≤ r2.off ∨
    r2.off + 25 + r2.payload.length ≤ r1.off := by
  intro recs
  induction recs with
  | nil => intro n0 _ r1 hr1; simp at hr1
  | cons r0 rest ih =>
    intro n0 hp r1 hr1 r2 hr2 hne
    obtain ⟨hoff, hrest⟩ := hp
    rcases List.mem_cons.mp hr1 with h1 | h1
    · rcases List.mem_cons.mp hr2 with h2 | h2
      · rw [h1, h2] at hne
        exact absurd rfl hne
      · left
        rw [h1]
        have := (packed_mono rest _ hrest r2 h2).1
        omega
    · rcases List.mem_cons.mp hr2 with h2 | h2
      · right
        rw [h2]
        have := (packed_mono rest _ hrest r1 h1).1
        omega
      · exact ih _ hrest r1 h1 r2 h2 hne

theorem packed_append_one : ∀ (recs : List CRec) (n0 : Nat) (r : CRec),
    packed n0 recs → r.off = recsEnd n0 recs →
    packed n0 (recs ++ [r]) ∧
    recsEnd n0 (recs ++ [r]) = r.off + 25 + r.payload.length := by
  intro recs
  induction recs with
  | nil =>
    intro n0 r _ hoff
    exact ⟨⟨hoff, trivial⟩, rfl⟩
  | cons r0 rest ih =>
    intro n0 r hp hoff
    obtain ⟨h0, hrest⟩ := hp
    simp only [recsEnd] at hoff
    have hih := ih _ r hrest (by rw [hoff, h0])
    refine ⟨⟨h0, ?_⟩, ?_⟩
    · subst h0
      exact hih.1
    · simp only [List.cons_append, recsEnd]
      rw [← h0] at hih
      exact hih.2

theorem streamChain_append (recs : List CRec) (r : CRec) (s : Nat) :
    streamChain (recs ++ [r]) s
      = streamChain recs s ++ (if r.stream = s then [r] else []) := by
  unfold streamChain
  rw [List.filter_append]
  congr 1
  simp only [List.filter]
  split <;> simp_all

theorem chainOK_congr (cd : Codec) (f1 f2 : List Nat) :
    ∀ ch : List CRec,
      (∀ r ∈ ch, readAt f2 r.off 25 = readAt f1 r.off 25 ∧
        readAt f2 (r.off + 25) r.payload.length
          = readAt f1 (r.off + 25) r.payload.length) →
      chainOK cd f1 ch → chainOK cd f2 ch := by
  intro ch
  induction ch with
  | nil => intro _ _; trivial
  | cons r rest ih =>
    intro h hok
    obtain ⟨h1, h2, h3, h4, h5, h6, h7, h8, h9⟩ := hok
    have hr := h r (List.mem_cons_self _ _)
    exact ⟨hr.1 ▸ h1, hr.2 ▸ h2, h3, h4, h5, h6, h7, h8,
      ih (fun x hx => h x (List.mem_cons_of_mem _ hx)) h9⟩

theorem readHeaderAt_eq_of_readAt (f1 f2 : List Nat) (p : Nat)
    (h : readAt f2 p 25 = readAt f1 p 25) :
    readHeaderAt false f2 p = readHeaderAt false f1 p := by
  simp only [readHeaderAt, Bool.false_eq_true, if_false]
  norm_num
  rw [h]

theorem readAt_storeAt_patch_hdr (file : List Nat) (off : Nat)
    (c a b x v : Nat)
    (hin : off + 25 ≤ file.length)
    (hold : readAt file off 25 = some (c :: (le64 a ++ le64 b ++ le64 x))) :
    readAt (storeAt file (off + 17) (le64 v)) off 25
      = some (c :: (le64 a ++ le64 b ++ le64 v)) := by
  have h17 : off + 17 + (le64 v).length ≤ file.length := by
    rw [le64_length]; omega
  unfold readAt at hold ⊢
  rw [storeAt_length _ _ _ h17, if_pos (by omega)]
  rw [if_pos (by omega)] at hold
  simp only [Option.some.injEq] at hold
  unfold storeAt
  rw [List.append_assoc]
  rw [List.drop_append_of_le_length (by rw [List.length_take]; omega)]
  rw [List.drop_take]
  have hslice17 : (file.drop off).take (off + 17 - off) = (file.drop off).take 17 := by
    congr 1
    omega
  rw [hslice17]
  have hlen17 : ((file.drop off).take 17).length = 17 := by
    rw [List.length_take, List.length_drop]
    omega
  rw [show (25:Nat) = ((file.drop off).take 17).length + 8 by rw [hlen17]]
  rw [List.take_append]
  have hv8 : (le64 v ++ file.drop (off + 17 + (le64 v).length)).take 8 = le64 v := by
    have ht := List.take_left (le64 v) (file.drop (off + 17 + (le64 v).length))
    rwa [le64_length] at ht
  rw [hv8]
  congr 1
  have h17b : (file.drop off).take 17 = ((file.drop off).take 25).take 17 := by
    rw [List.take_take]
    norm_num
  rw [h17b, hold]
  rfl

theorem packed_pairwise : ∀ (recs : List CRec) (n0 : Nat), packed n0 recs →
    List.Pairwise (fun a b => a.off + 25 + a.payload.length ≤ b.off) recs := by
  intro recs
  induction recs with
  | nil => intro n0 _; exact List.Pairwise.nil
  | cons r rest ih =>
    intro n0 hp
    obtain ⟨hoff, hrest⟩ := hp
    refine List.Pairwise.cons ?_ (ih _ hrest)
    intro y hy
    have := (packed_mono rest _ hrest y hy).1
    omega

theorem chainHeadOff_append (ch l : List CRec) (h : ch ≠ []) :
    chainHeadOff (ch ++ l) = chainHeadOff ch := by
  cases ch with
  | nil => exact absurd rfl h
  | cons r rest => rfl

theorem compressBlock_spec (cd : Codec) (data : List Nat)
    (htag : cd.tag ≠ CTYPE_NONE)
    (hrt : ∀ b c, cd.comp b = some c → c.length < b.length →
      cd.decomp c b.length = some b) :
    (compressBlock cd data).2.length ≤ data.length ∧
    decodeRec cd (compressBlock cd data).1 (compressBlock cd data).2
      data.length = some data := by
  unfold compressBlock
  split
  · refine ⟨le_refl _, ?_⟩
    unfold decodeRec
    rw [if_pos rfl]
  · match hc : cd.comp data with
    | none =>
      refine ⟨le_refl _, ?_⟩
      unfold decodeRec
      rw [if_pos rfl]
    | some c =>
      dsimp only
      split
      · refine ⟨le_refl _, ?_⟩
        unfold decodeRec
        rw [if_pos rfl]
      · rename_i hlt
        push_neg at hlt
        refine ⟨le_of_lt hlt, ?_⟩
        unfold decodeRec
        rw [if_neg htag, hrt data c hc hlt]
        simp

theorem flatten_replicate_sent (n : Nat) :
    ((List.replicate n (sentBytes 0)).flatten).length = 25 * n := by
  induction n with
  | zero => rfl
  | succ m ih =>
    simp only [List.replicate, List.flatten_cons, List.length_append,
      sentBytes_length, ih]
    ring

theorem sentinel_readAt_open : ∀ (n s : Nat), s < n →
    readAt ((List.replicate n (sentBytes 0)).flatten) (25 * s) 25
      = some (sentBytes 0) := by
  intro n
  induction n with
  | zero => intro s h; omega
  | succ m ih =>
    intro s hs
    simp only [List.replicate, List.flatten_cons]
    cases s with
    | zero =>
      rw [Nat.mul_zero]
      have h0 : readAt (sentBytes 0 ++ (List.replicate m (sentBytes 0)).flatten)
          0 25 = readAt (sentBytes 0) 0 25 :=
        readAt_append_left _ _ _ _ (by rw [sentBytes_length])
      rw [h0]
      unfold readAt
      rw [if_pos (by rw [sentBytes_length])]
      simp [sentBytes_length]
    | succ t =>
      have harith : 25 * (t + 1) = (sentBytes 0).length + 25 * t := by
        rw [sentBytes_length]; ring
      rw [harith]
      rw [readAt_append_right _ _ _ _
        (by rw [flatten_replicate_sent]; omega)]
      exact ih t (by omega)

theorem open_ss_getD (n B s : Nat) (hs : s < n) :
    (open_stream_out n B).ss.getD s ⟨[], 0⟩ = ⟨[], 25 * s + 17⟩ := by
  unfold open_stream_out
  rw [List.getD_eq_getElem?_getD]
  simp [List.getElem?_range, hs]

theorem open_WF (cd : Codec) (n B : Nat) (hn : 25 * n < 2 ^ 64) :
    WFstate cd n B (open_stream_out n B) [] := by
  refine ⟨by simp [open_stream_out], rfl, ?_, hn, trivial, rfl,
    by intro r hr; simp at hr, ?_⟩
  · show ((List.replicate n (sentBytes 0)).flatten).length = 25 * n
    exact flatten_replicate_sent n
  · intro s hs
    refine ⟨?_, trivial, ?_⟩
    · show readAt ((List.replicate n (sentBytes 0)).flatten) (25 * s) 25
        = some (sentBytes (chainHeadOff (streamChain [] s)))
      exact sentinel_readAt_open n s hs
    · rw [open_ss_getD n B s hs]
      rfl

theorem chainOK_snoc (cd : Codec) (f1 f2 : List Nat) (nr : CRec) :
    ∀ ch : List CRec,
      chainOK cd f1 ch →
      (∀ x ∈ ch, readAt f2 (x.off + 25) x.payload.length
        = readAt f1 (x.off + 25) x.payload.length) →
      (∀ x ∈ ch.dropLast, readAt f2 x.off 25 = readAt f1 x.off 25) →
      (∀ lst, ch.getLast? = some lst →
        readAt f2 lst.off 25 = some (lst.ctype ::
          (le64 lst.payload.length ++ le64 lst.ulen ++ le64 nr.off))) →
      chainOK cd f2 [nr] →
      chainOK cd f2 (ch ++ [nr]) := by
  intro ch
  induction ch with
  | nil => intro _ _ _ _ h5; simpa using h5
  | cons x rest ih =>
    intro hok hpay hkeep hlast hnr
    obtain ⟨h1, h2, h3, h4, h5, h6, h7, h8, h9⟩ := hok
    cases rest with
    | nil =>
      refine ⟨?_, ?_, h3, h4, h5, h6, h7, h8, by simpa using hnr⟩
      · have hl := hlast x rfl
        simp only [List.nil_append, List.cons_append, chainHeadOff]
        exact hl
      · rw [hpay x (List.mem_cons_self _ _), h2]
    | cons y rest2 =>
      refine ⟨?_, ?_, h3, h4, h5, h6, h7, h8, ?_⟩
      · have hk := hkeep x (by
          rw [List.dropLast_cons₂]
          exact List.mem_cons_self _ _)
        rw [hk, h1]
        rfl
      · rw [hpay x (List.mem_cons_self _ _), h2]
      · refine ih h9 (fun z hz => hpay z (List.mem_cons_of_mem _ hz))
          (fun z hz => hkeep z (by
            rw [List.dropLast_cons₂]
            exact List.mem_cons_of_mem _ hz)) (fun lst hl => hlast lst (by
            rw [List.getLast?_cons_cons]
            exact hl)) hnr

theorem getD_set_self (l : List WStream) (i : Nat) (v d : WStream)
    (h : i < l.length) : (l.set i v).getD i d = v := by
  rw [List.getD_eq_getElem?_getD, List.getElem?_set_self (by omega)]
  rfl

theorem getD_set_ne (l : List WStream) (i j : Nat) (v d : WStream)
    (h : i ≠ j) : (l.set i v).getD j d = l.getD j d := by
  rw [List.getD_eq_getElem?_getD, List.getElem?_set_ne h,
    List.getD_eq_getElem?_getD]

theorem readAt_prefix (t : List Nat) (len : Nat) (h : len ≤ t.length) :
    readAt t 0 len = some (t.take len) := by
  unfold readAt
  rw [if_pos (by omega)]
  rfl

theorem readAt_append_at (f t : List Nat) (len : Nat) (h : len ≤ t.length) :
    readAt (f ++ t) f.length len = readAt t 0 len := by
  have := readAt_append_right f t 0 len (by omega)
  simpa using this

theorem recBytes_eq_append (c : Nat) (p : List Nat) (u x : Nat) :
    recBytes c p u x = (c :: (le64 p.length ++ le64 u ++ le64 x)) ++ p := by
  simp [recBytes]

theorem hdr25_length (c u x : Nat) (p : List Nat) :
    (c :: (le64 p.length ++ le64 u ++ le64 x)).length = 25 := by
  simp [le64]

theorem chainOK_last (cd : Codec) (f : List Nat) :
    ∀ (init : List CRec) (lst : CRec), chainOK cd f (init ++ [lst]) →
      readAt f lst.off 25 = some (lst.ctype ::
        (le64 lst.payload.length ++ le64 lst.ulen ++ le64 0)) := by
  intro init
  induction init with
  | nil =>
    intro lst h
    exact h.1
  | cons a as ih =>
    intro lst h
    exact ih lst h.2.2.2.2.2.2.2.2

theorem chainOK_mem_sub (recs : List CRec) (s : Nat) :
    ∀ x ∈ streamChain recs s, x ∈ recs := by
  intro x hx
  exact List.mem_of_mem_filter hx

theorem streamChain_stream (recs : List CRec) (s : Nat) :
    ∀ x ∈ streamChain recs s, x.stream = s := by
  intro x hx
  have := List.of_mem_filter hx
  simpa using this

theorem streamChain_pairwise (recs : List CRec) (n0 s : Nat)
    (hp : packed n0 recs) :
    List.Pairwise (fun a b => a.off + 25 + a.payload.length ≤ b.off)
      (streamChain recs s) :=
  (packed_pairwise recs n0 hp).sublist (List.filter_sublist _)

theorem packed_off_inj : ∀ (recs : List CRec) (n0 : Nat), packed n0 recs →
    ∀ r1 ∈ recs, ∀ r2 ∈ recs, r1.off = r2.off → r1 = r2 := by
  intro recs
  induction recs with
  | nil => intro n0 _ r1 h1; exact absurd h1 (List.not_mem_nil r1)
  | cons r0 rest ih =>
    intro n0 hp r1 h1 r2 h2 heq
    obtain ⟨hoff, hrest⟩ := hp
    rcases List.mem_cons.mp h1 with h1 | h1
    · rcases List.mem_cons.mp h2 with h2 | h2
      · rw [h1, h2]
      · exfalso
        have hm := (packed_mono rest _ hrest r2 h2).1
        rw [h1] at heq
        omega
    · rcases List.mem_cons.mp h2 with h2 | h2
      · exfalso
        have hm := (packed_mono rest _ hrest r1 h1).1
        rw [h2] at heq
        omega
      · exact ih _ hrest r1 h1 r2 h2 heq

theorem readAt_flush_keep (file : List Nat) (lh : Nat) (bytes rb : List Nat)
    (q len : Nat)
    (hlh : lh + bytes.length ≤ file.length)
    (hq : q + len ≤ file.length)
    (hdis : q + len ≤ lh ∨ lh + bytes.length ≤ q) :
    readAt (storeAt file lh bytes ++ rb) q len = readAt file q len := by
  rw [readAt_append_left _ _ _ _ (by rw [storeAt_length _ _ _ hlh]; exact hq)]
  rcases hdis with h | h
  · exact readAt_storeAt_before _ _ _ _ _ hlh h
  · exact readAt_storeAt_after _ _ _ _ _ hlh h

theorem readAt_rec_hdr (f : List Nat) (P c : Nat) (p : List Nat) (u x : Nat)
    (hP : f.length = P) :
    readAt (f ++ recBytes c p u x) P 25
      = some (c :: (le64 p.length ++ le64 u ++ le64 x)) := by
  subst hP
  rw [readAt_append_at _ _ _ (by rw [recBytes_length]; omega),
    readAt_prefix _ _ (by rw [recBytes_length]; omega),
    recBytes_eq_append]
  congr 1

theorem readAt_rec_payload (f : List Nat) (P c : Nat) (p : List Nat) (u x : Nat)
    (hP : f.length = P) :
    readAt (f ++ recBytes c p u x) (P + 25) p.length = some p := by
  subst hP
  have h1 := readAt_append_right f (recBytes c p u x) 25 p.length
    (by rw [recBytes_length])
  rw [h1, recBytes_eq_append]
  have h2 := readAt_append_right (c :: (le64 p.length ++ le64 u ++ le64 x)) p 0
    p.length (by omega)
  rw [hdr25_length, Nat.add_zero] at h2
  rw [h2, readAt_prefix p p.length (le_refl _), List.take_length]

theorem storeAt_pos_append (file bytes : List Nat) (P : Nat)
    (hP : file.length = P) : storeAt file P bytes = file ++ bytes := by
  subst hP
  exact storeAt_append _ _

theorem flushW_WF (cd : Codec) (n B : Nat) (st : WState) (recs : List CRec)
    (s : Nat)
    (htag : cd.tag ≠ CTYPE_NONE)
    (hrt : ∀ b c, cd.comp b = some c → c.length < b.length →
      cd.decomp c b.length = some b)
    (hW : WFstate cd n B st recs) (hs : s < n)
    (hbuf : (st.ss.getD s ⟨[], 0⟩).buf ≠ [])
    (hbound : st.cur_pos + 25 + (st.ss.getD s ⟨[], 0⟩).buf.length < 2 ^ 64) :
    WFstate cd n B (flushW cd st s)
      (recs ++ [⟨s, st.cur_pos,
        (compressBlock cd (st.ss.getD s ⟨[], 0⟩).buf).1,
        (compressBlock cd (st.ss.getD s ⟨[], 0⟩).buf).2,
        (st.ss.getD s ⟨[], 0⟩).buf.length,
        (st.ss.getD s ⟨[], 0⟩).buf⟩]) ∧
    (flushW cd st s).cur_pos
      = st.cur_pos + 25
        + (compressBlock cd (st.ss.getD s ⟨[], 0⟩).buf).2.length := by
  obtain ⟨hlen_ss, hbufsize, hflen, hcur64, hpacked, hend, hstr_lt, hper⟩ := hW
  obtain ⟨hsent_s, hchain_s, hlh_s⟩ := hper s hs
  set str := st.ss.getD s ⟨[], 0⟩ with hstrdef
  set cp := compressBlock cd str.buf with hcpdef
  have hcp := compressBlock_spec cd str.buf htag hrt
  rw [← hcpdef] at hcp
  have hplen : cp.2.length ≤ str.buf.length := hcp.1
  have hdec : decodeRec cd cp.1 cp.2 str.buf.length = some str.buf := hcp.2
  have hbl1 : 1 ≤ str.buf.length := List.length_pos.mpr hbuf
  have h25n : 25 * n ≤ st.cur_pos := by
    have := recsEnd_ge recs _ hpacked
    omega
  have hmem : ∀ r ∈ recs, 25 * n ≤ r.off ∧
      r.off + 25 + r.payload.length ≤ st.cur_pos := by
    intro r hr
    have := packed_mono recs _ hpacked r hr
    omega
  obtain ⟨po, oc, oa, ob, hpo17, hpo25, hold, hcase⟩ :
      ∃ po oc oa ob, str.last_head = po + 17 ∧ po + 25 ≤ st.cur_pos ∧
        readAt st.file po 25 = some (oc :: (le64 oa ++ le64 ob ++ le64 0)) ∧
        ((streamChain recs s = [] ∧ po = 25 * s ∧ oc = CTYPE_NONE ∧
            oa = 0 ∧ ob = 0) ∨
         (∃ init lst, streamChain recs s = init ++ [lst] ∧ lst ∈ recs ∧
            po = lst.off ∧ oc = lst.ctype ∧ oa = lst.payload.length ∧
            ob = lst.ulen)) := by
    rcases List.eq_nil_or_concat (streamChain recs s) with hch | ⟨init, lst, hch⟩
    · refine ⟨25 * s, CTYPE_NONE, 0, 0, ?_, by omega, ?_,
        Or.inl ⟨hch, rfl, rfl, rfl, rfl⟩⟩
      · rw [hlh_s, hch]
        rfl
      · rw [hch] at hsent_s
        exact hsent_s
    · rw [List.concat_eq_append] at hch
      have hlst_mem : lst ∈ recs := chainOK_mem_sub recs s lst (by
        rw [hch]
        exact List.mem_append_right _ (List.mem_singleton.mpr rfl))
      refine ⟨lst.off, lst.ctype, lst.payload.length, lst.ulen, ?_, ?_, ?_,
        Or.inr ⟨init, lst, hch, hlst_mem, rfl, rfl, rfl, rfl⟩⟩
      · rw [hlh_s, hch]
        unfold lastHeadOf
        rw [List.getLast?_concat]
      · have := hmem lst hlst_mem
        omega
      · rw [hch] at hchain_s
        exact chainOK_last cd st.file init lst hchain_s
  have hfile1_len : (storeAt st.file str.last_head (le64 st.cur_pos)).length
      = st.cur_pos := by
    rw [storeAt_length _ _ _ (by rw [hpo17, le64_length]; omega)]
    exact hflen
  have hfile : (flushW cd st s).file
      = storeAt st.file str.last_head (le64 st.cur_pos)
        ++ recBytes cp.1 cp.2 str.buf.length 0 := by
    show storeAt (storeAt st.file str.last_head (le64 st.cur_pos)) st.cur_pos
        (recBytes cp.1 cp.2 str.buf.length 0) = _
    exact storeAt_pos_append _ _ _ hfile1_len
  have hT1 : ∀ q len, q + len ≤ st.cur_pos →
      (q + len ≤ po + 17 ∨ po + 25 ≤ q) →
      readAt (flushW cd st s).file q len = readAt st.file q len := by
    intro q len hq hdis2
    rw [hfile, hpo17]
    refine readAt_flush_keep st.file (po + 17) (le64 st.cur_pos) _ q len
      ?_ (by omega) ?_
    · rw [le64_length]
      omega
    · rw [le64_length]
      omega
  have hpatched : readAt (flushW cd st s).file po 25
      = some (oc :: (le64 oa ++ le64 ob ++ le64 st.cur_pos)) := by
    rw [hfile]
    rw [readAt_append_left _ _ _ _ (by rw [hfile1_len]; omega)]
    rw [hpo17]
    exact readAt_storeAt_patch_hdr st.file po oc oa ob 0 st.cur_pos
      (by omega) hold
  have hnew_hdr : readAt (flushW cd st s).file st.cur_pos 25
      = some (cp.1 :: (le64 cp.2.length ++ le64 str.buf.length ++ le64 0)) := by
    rw [hfile]
    exact readAt_rec_hdr _ _ _ _ _ _ hfile1_len
  have hnew_pay : readAt (flushW cd st s).file (st.cur_pos + 25) cp.2.length
      = some cp.2 := by
    rw [hfile]
    exact readAt_rec_payload _ _ _ _ _ _ hfile1_len
  have hnrOK : chainOK cd (flushW cd st s).file
      [⟨s, st.cur_pos, cp.1, cp.2, str.buf.length, str.buf⟩] := by
    refine ⟨hnew_hdr, hnew_pay, hdec, rfl, hbl1, hplen, ?_, ?_, trivial⟩
    · show cp.2.length < 2 ^ 64
      omega
    · show str.buf.length < 2 ^ 64
      omega
  have hpk := packed_append_one recs (25 * n)
    ⟨s, st.cur_pos, cp.1, cp.2, str.buf.length, str.buf⟩ hpacked hend.symm
  refine ⟨⟨?_, ?_, ?_, ?_, hpk.1, ?_, ?_, ?_⟩, rfl⟩
  · show (st.ss.set s ⟨[], st.cur_pos + 17⟩).length = n
    rw [List.length_set]
    exact hlen_ss
  · exact hbufsize
  · rw [hfile]
    show _ = st.cur_pos + 25 + cp.2.length
    rw [List.length_append, hfile1_len, recBytes_length]
    omega
  · show st.cur_pos + 25 + cp.2.length < 2 ^ 64
    omega
  · rw [hpk.2]
    rfl
  · intro r hr
    rcases List.mem_append.mp hr with h | h
    · exact hstr_lt r h
    · rw [List.mem_singleton.mp h]
      exact hs
  · intro t ht
    rw [streamChain_append]
    dsimp only
    by_cases hts : s = t
    · subst hts
      rw [if_pos rfl]
      obtain ⟨hsent_t, hchain_t, hlh_t⟩ := hper s ht
      refine ⟨?_, ?_, ?_⟩
      · rcases hcase with ⟨hch, hpo, hoc, hoa, hob⟩ | ⟨init, lst, hch, hlm, hpo, hoc, hoa, hob⟩
        · rw [hch, ← hpo]
          rw [hoc, hoa, hob] at hpatched
          exact hpatched
        · have hb := hmem lst hlm
          rw [hT1 (25 * s) 25 (by omega) (by omega)]
          rw [chainHeadOff_append _ _ (by rw [hch]; simp)]
          exact hsent_t
      · refine chainOK_snoc cd st.file _ _ _ hchain_t ?_ ?_ ?_ hnrOK
        · intro x hx
          have hxm := chainOK_mem_sub recs s x hx
          have hb := hmem x hxm
          rcases hcase with ⟨hch, hpo, _, _, _⟩ | ⟨init, lst, hch, hlm, hpo, _, _, _⟩
          · rw [hch] at hx
            exact absurd hx (List.not_mem_nil x)
          · by_cases hoe : x.off = lst.off
            · refine hT1 (x.off + 25) x.payload.length (by omega) ?_
              right
              omega
            · have hbl := hmem lst hlm
              rcases packed_disjoint recs _ hpacked x hxm lst hlm hoe with h | h
              · exact hT1 (x.off + 25) x.payload.length (by omega) (by omega)
              · exact hT1 (x.off + 25) x.payload.length (by omega) (by omega)
        · intro x hx
          rcases hcase with ⟨hch, hpo, _, _, _⟩ | ⟨init, lst, hch, hlm, hpo, _, _, _⟩
          · rw [hch] at hx
            exact absurd hx (List.not_mem_nil x)
          · rw [hch, List.dropLast_concat] at hx
            have hxm : x ∈ streamChain recs s := by
              rw [hch]
              exact List.mem_append_left _ hx
            have hxm2 := chainOK_mem_sub recs s x hxm
            have hb := hmem x hxm2
            have hpw := streamChain_pairwise recs (25 * n) s hpacked
            rw [hch] at hpw
            have hrel := (List.pairwise_append.mp hpw).2.2 x hx lst
              (List.mem_singleton.mpr rfl)
            exact hT1 x.off 25 (by omega) (by omega)
        · intro lst' hl
          rcases hcase with ⟨hch, hpo, _, _, _⟩ | ⟨init, lst, hch, hlm, hpo, hoc, hoa, hob⟩
          · rw [hch] at hl
            exact absurd hl (by simp)
          · rw [hch, List.getLast?_concat] at hl
            have heq : lst' = lst := by
              injection hl with h
              exact h.symm
            subst heq
            rw [hoc, hoa, hob, hpo] at hpatched
            exact hpatched
      · show ((st.ss.set s ⟨[], st.cur_pos + 17⟩).getD s ⟨[], 0⟩).last_head = _
        rw [getD_set_self st.ss s _ _ (by omega)]
        show st.cur_pos + 17 = _
        unfold lastHeadOf
        rw [List.getLast?_concat]
    · rw [if_neg hts, List.append_nil]
      obtain ⟨hsent_t, hchain_t, hlh_t⟩ := hper t ht
      refine ⟨?_, ?_, ?_⟩
      · rw [hT1 (25 * t) 25 (by omega) ?_]
        · exact hsent_t
        · rcases hcase with ⟨hch, hpo, _, _, _⟩ | ⟨init, lst, hch, hlm, hpo, _, _, _⟩
          · omega
          · have hb := hmem lst hlm
            omega
      · refine chainOK_congr cd st.file _ _ ?_ hchain_t
        intro r hr
        have hrm := chainOK_mem_sub recs t r hr
        have hb := hmem r hrm
        have hro : r.off + 25 + r.payload.length ≤ po ∨ po + 25 ≤ r.off := by
          rcases hcase with ⟨hch, hpo, _, _, _⟩ | ⟨init, lst, hch, hlm, hpo, _, _, _⟩
          · right
            omega
          · by_cases hoe : r.off = lst.off
            · exfalso
              have hre : r = lst := packed_off_inj recs _ hpacked r hrm lst hlm hoe
              have hrs : r.stream = t := streamChain_stream recs t r hr
              have hls : lst.stream = s := streamChain_stream recs s lst (by
                rw [hch]
                exact List.mem_append_right _ (List.mem_singleton.mpr rfl))
              rw [hre, hls] at hrs
              exact hts hrs
            · rcases packed_disjoint recs _ hpacked r hrm lst hlm hoe with h | h
              · left
                omega
              · right
                omega
        constructor
        · exact hT1 r.off 25 (by omega) (by omega)
        · exact hT1 (r.off + 25) r.payload.length (by omega) (by omega)
      · show ((st.ss.set s ⟨[], st.cur_pos + 17⟩).getD t ⟨[], 0⟩).last_head = _
        rw [getD_set_ne st.ss s t _ _ hts]
        exact hlh_t

theorem totalBuf_set : ∀ (ss : List WStream) (i : Nat) (v : WStream),
    i < ss.length →
    ((ss.set i v).map (fun str => str.buf.length)).sum
        + (ss.getD i ⟨[], 0⟩).buf.length
      = (ss.map (fun str => str.buf.length)).sum + v.buf.length := by
  intro ss
  induction ss with
  | nil => intro i v h; simp at h
  | cons x xs ih =>
    intro i v h
    cases i with
    | zero =>
      simp only [List.set_cons_zero, List.map_cons, List.sum_cons,
        List.getD_cons_zero]
      omega
    | succ j =>
      simp only [List.set_cons_succ, List.map_cons, List.sum_cons,
        List.getD_cons_succ]
      have := ih j v (by simp at h; omega)
      omega

theorem getD_le_totalBuf : ∀ (ss : List WStream) (i : Nat), i < ss.length →
    (ss.getD i ⟨[], 0⟩).buf.length
      ≤ (ss.map (fun str => str.buf.length)).sum := by
  intro ss
  induction ss with
  | nil => intro i h; simp at h
  | cons x xs ih =>
    intro i h
    cases i with
    | zero =>
      simp only [List.getD_cons_zero, List.map_cons, List.sum_cons]
      omega
    | succ j =>
      simp only [List.getD_cons_succ, List.map_cons, List.sum_cons]
      have := ih j (by simp at h; omega)
      omega

theorem WFstate_set_buf (cd : Codec) (n B : Nat) (st : WState)
    (recs : List CRec) (s : Nat) (nb : List Nat)
    (hW : WFstate cd n B st recs) (hs : s < n) :
    WFstate cd n B
      { st with ss := st.ss.set s ⟨nb, (st.ss.getD s ⟨[], 0⟩).last_head⟩ }
      recs := by
  obtain ⟨h1, h2, h3, h4, h5, h6, h7, h8⟩ := hW
  refine ⟨?_, h2, h3, h4, h5, h6, h7, ?_⟩
  · show (st.ss.set s _).length = n
    rw [List.length_set]
    exact h1
  · intro t ht
    obtain ⟨ha, hb, hc⟩ := h8 t ht
    refine ⟨ha, hb, ?_⟩
    show ((st.ss.set s _).getD t ⟨[], 0⟩).last_head = _
    by_cases hts : s = t
    · subst hts
      rw [getD_set_self st.ss s _ _ (by omega)]
      exact hc
    · rw [getD_set_ne st.ss s t _ _ hts]
      exact hc

theorem dataOf_append_self (recs : List CRec) (r : CRec) :
    dataOf (recs ++ [r]) r.stream = dataOf recs r.stream ++ r.data := by
  unfold dataOf
  rw [streamChain_append, if_pos rfl, List.map_append, List.flatten_append]
  simp

theorem dataOf_append_other (recs : List CRec) (r : CRec) (t : Nat)
    (h : ¬ r.stream = t) :
    dataOf (recs ++ [r]) t = dataOf recs t := by
  unfold dataOf
  rw [streamChain_append, if_neg h, List.append_nil]

theorem flushW_getD_self (cd : Codec) (st : WState) (s : Nat)
    (hs : s < st.ss.length) :
    (flushW cd st s).ss.getD s ⟨[], 0⟩ = ⟨[], st.cur_pos + 17⟩ := by
  show (st.ss.set s _).getD s ⟨[], 0⟩ = _
  rw [getD_set_self st.ss s _ _ hs]

theorem flushW_getD_ne (cd : Codec) (st : WState) (s t : Nat)
    (h : ¬ s = t) :
    (flushW cd st s).ss.getD t ⟨[], 0⟩ = st.ss.getD t ⟨[], 0⟩ := by
  show (st.ss.set s _).getD t ⟨[], 0⟩ = _
  rw [getD_set_ne st.ss s t _ _ h]

theorem flushW_totalBuf (cd : Codec) (st : WState) (s : Nat)
    (hs : s < st.ss.length) :
    totalBuf (flushW cd st s) + (st.ss.getD s ⟨[], 0⟩).buf.length
      = totalBuf st := by
  have h := totalBuf_set st.ss s ⟨[], st.cur_pos + 17⟩ hs
  show ((st.ss.set s _).map (fun str => str.buf.length)).sum + _ = _
  rw [h]
  simp [totalBuf]

theorem wsGo_zero (cd : Codec) (st : WState) (s : Nat) (p : List Nat) :
    wsGo cd 0 st s p = st := rfl

theorem wsGo_succ_nil (cd : Codec) (f : Nat) (st : WState) (s : Nat)
    (p : List Nat) (hp : p.isEmpty = true) :
    wsGo cd (f + 1) st s p = st := by
  rw [wsGo, if_pos hp]

theorem wsGo_succ_cons (cd : Codec) (f : Nat) (st : WState) (s : Nat)
    (p : List Nat) (hp : p.isEmpty = false) :
    wsGo cd (f + 1) st s p
      = wsGo cd f
          (if ((st.ss.getD s ⟨[], 0⟩).buf
              ++ p.take (min (st.bufsize - (st.ss.getD s ⟨[], 0⟩).buf.length)
                p.length)).length = st.bufsize
           then flushW cd (WState.mk st.file st.cur_pos st.bufsize
              (st.ss.set s (WStream.mk
                ((st.ss.getD s ⟨[], 0⟩).buf
                  ++ p.take (min (st.bufsize
                    - (st.ss.getD s ⟨[], 0⟩).buf.length) p.length))
                (st.ss.getD s ⟨[], 0⟩).last_head))) s
           else WState.mk st.file st.cur_pos st.bufsize
              (st.ss.set s (WStream.mk
                ((st.ss.getD s ⟨[], 0⟩).buf
                  ++ p.take (min (st.bufsize
                    - (st.ss.getD s ⟨[], 0⟩).buf.length) p.length))
                (st.ss.getD s ⟨[], 0⟩).last_head))) s
          (p.drop (min (st.bufsize - (st.ss.getD s ⟨[], 0⟩).buf.length)
            p.length)) := by
  rw [wsGo, if_neg (by rw [hp]; exact Bool.false_ne_true)]

theorem wsGo_WF (cd : Codec) (n B bound : Nat) (s : Nat)
    (htag : cd.tag ≠ CTYPE_NONE)
    (hrt : ∀ b c, cd.comp b = some c → c.length < b.length →
      cd.decomp c b.length = some b)
    (hs : s < n) (hbd : bound < 2 ^ 64) :
    ∀ (fuel : Nat) (st : WState) (recs : List CRec) (p : List Nat),
      p.length ≤ fuel →
      WFstate cd n B st recs →
      (∀ t, t < n → (st.ss.getD t ⟨[], 0⟩).buf.length < B) →
      (∀ r ∈ recs, r.ulen = B) →
      st.cur_pos + 26 * (totalBuf st + p.length) ≤ bound →
      ∃ recs',
        WFstate cd n B (wsGo cd fuel st s p) recs' ∧
        (∀ t, t < n →
          ((wsGo cd fuel st s p).ss.getD t ⟨[], 0⟩).buf.length < B) ∧
        (∀ r ∈ recs', r.ulen = B) ∧
        (wsGo cd fuel st s p).cur_pos + 26 * totalBuf (wsGo cd fuel st s p)
          ≤ st.cur_pos + 26 * (totalBuf st + p.length) ∧
        dataOf recs' s ++ ((wsGo cd fuel st s p).ss.getD s ⟨[], 0⟩).buf
          = dataOf recs s ++ (st.ss.getD s ⟨[], 0⟩).buf ++ p ∧
        (∀ t, ¬ t = s →
          (wsGo cd fuel st s p).ss.getD t ⟨[], 0⟩ = st.ss.getD t ⟨[], 0⟩ ∧
          dataOf recs' t = dataOf recs t) := by
  intro fuel
  induction fuel with
  | zero =>
    intro st recs p hfu hWF hlt hfull hbud
    have hp : p = [] := List.length_eq_zero.mp (by omega)
    subst hp
    rw [wsGo_zero]
    exact ⟨recs, hWF, hlt, hfull, by omega, by rw [List.append_nil],
      fun t _ => ⟨rfl, rfl⟩⟩
  | succ f ih =>
    intro st recs p hfu hWF hlt hfull hbud
    cases hpb : p.isEmpty with
    | true =>
      have hp : p = [] := by
        cases p
        · rfl
        · simp [List.isEmpty] at hpb
      subst hp
      rw [wsGo_succ_nil cd f st s [] rfl]
      exact ⟨recs, hWF, hlt, hfull, by omega, by rw [List.append_nil],
        fun t _ => ⟨rfl, rfl⟩⟩
    | false =>
      have hpne : 1 ≤ p.length := by
        cases p
        · simp [List.isEmpty] at hpb
        · simp
      rw [wsGo_succ_cons cd f st s p hpb]
      have hbufsize : st.bufsize = B := hWF.2.1
      have hlen_ss : st.ss.length = n := hWF.1
      have hlt_s := hlt s hs
      set str := st.ss.getD s ⟨[], 0⟩ with hstrdef
      set k := min (st.bufsize - str.buf.length) p.length with hkdef
      set stA := WState.mk st.file st.cur_pos st.bufsize
        (st.ss.set s (WStream.mk (str.buf ++ p.take k) str.last_head))
        with hstAdef
      have hk1 : 1 ≤ k := by
        rw [hkdef, hbufsize]
        omega
      have hkle : k ≤ p.length := min_le_right _ _
      have hkB : str.buf.length + k ≤ B := by
        rw [hkdef, hbufsize]
        omega
      have htake : (p.take k).length = k := by
        rw [List.length_take]
        omega
      have hbufA : (str.buf ++ p.take k).length = str.buf.length + k := by
        rw [List.length_append, htake]
      have hstA_WF : WFstate cd n B stA recs := by
        have h := WFstate_set_buf cd n B st recs s (str.buf ++ p.take k) hWF hs
        exact h
      have hgetA_self : stA.ss.getD s ⟨[], 0⟩
          = WStream.mk (str.buf ++ p.take k) str.last_head := by
        show (st.ss.set s _).getD s ⟨[], 0⟩ = _
        rw [getD_set_self st.ss s _ _ (by omega)]
      have hgetA_ne : ∀ t, ¬ s = t →
          stA.ss.getD t ⟨[], 0⟩ = st.ss.getD t ⟨[], 0⟩ := by
        intro t hts
        show (st.ss.set s _).getD t ⟨[], 0⟩ = _
        rw [getD_set_ne st.ss s t _ _ hts]
      have htotA : totalBuf stA + str.buf.length = totalBuf st
          + (str.buf.length + k) := by
        have h := totalBuf_set st.ss s
          (WStream.mk (str.buf ++ p.take k) str.last_head) (by omega)
        show ((st.ss.set s _).map (fun str => str.buf.length)).sum + _ = _
        rw [h]
        show (st.ss.map (fun str => str.buf.length)).sum
            + (str.buf ++ p.take k).length = _
        rw [hbufA]
        rfl
      have hbuf_le_tot : str.buf.length ≤ totalBuf st :=
        getD_le_totalBuf st.ss s (by omega)
      have hdropfu : (p.drop k).length ≤ f := by
        rw [List.length_drop]
        omega
      by_cases hflu : (str.buf ++ p.take k).length = st.bufsize
      · rw [if_pos hflu]
        have hBfull : str.buf.length + k = B := by
          rw [← hbufA, hflu, hbufsize]
        have hB1 : 1 ≤ B := by omega
        have hbufA_ne : (stA.ss.getD s ⟨[], 0⟩).buf ≠ [] := by
          rw [hgetA_self]
          show str.buf ++ p.take k ≠ []
          intro hnil
          have := congrArg List.length hnil
          rw [hbufA] at this
          simp at this
          omega
        have hboundA : stA.cur_pos + 25
            + (stA.ss.getD s ⟨[], 0⟩).buf.length < 2 ^ 64 := by
          rw [hgetA_self]
          show st.cur_pos + 25 + (str.buf ++ p.take k).length < 2 ^ 64
          rw [hbufA]
          omega
        obtain ⟨hFl, hFcur⟩ := flushW_WF cd n B stA recs s htag hrt hstA_WF hs
          hbufA_ne hboundA
        have hcpA := compressBlock_spec cd
          (stA.ss.getD s ⟨[], 0⟩).buf htag hrt
        have hcpA_le : (compressBlock cd (stA.ss.getD s ⟨[], 0⟩).buf).2.length
            ≤ str.buf.length + k := by
          have h := hcpA.1
          rw [hgetA_self] at h ⊢
          show (compressBlock cd (str.buf ++ p.take k)).2.length ≤ _
          calc (compressBlock cd (str.buf ++ p.take k)).2.length
              ≤ (str.buf ++ p.take k).length := by
                have h2 := compressBlock_spec cd (str.buf ++ p.take k) htag hrt
                exact h2.1
            _ = str.buf.length + k := hbufA
        have hFtot : totalBuf (flushW cd stA s) + (str.buf.length + k)
            = totalBuf stA := by
          have h := flushW_totalBuf cd stA s (by
            show s < (st.ss.set s _).length
            rw [List.length_set]
            omega)
          rw [hgetA_self] at h
          dsimp only at h
          rw [hbufA] at h
          exact h
        have hbudA : (flushW cd stA s).cur_pos
            + 26 * (totalBuf (flushW cd stA s) + (p.drop k).length)
            ≤ bound := by
          rw [hFcur, List.length_drop]
          have hA : stA.cur_pos = st.cur_pos := rfl
          rw [hA]
          omega
        have hltA : ∀ t, t < n →
            (((flushW cd stA s).ss.getD t ⟨[], 0⟩)).buf.length < B := by
          intro t ht
          by_cases hts : s = t
          · subst hts
            rw [flushW_getD_self cd stA s (by
              show s < (st.ss.set s _).length
              rw [List.length_set]
              omega)]
            show ([] : List Nat).length < B
            simp
            omega
          · rw [flushW_getD_ne cd stA s t hts, hgetA_ne t hts]
            exact hlt t ht
        have hfullA : ∀ r ∈ recs ++ [(⟨s, stA.cur_pos,
            (compressBlock cd (stA.ss.getD s ⟨[], 0⟩).buf).1,
            (compressBlock cd (stA.ss.getD s ⟨[], 0⟩).buf).2,
            (stA.ss.getD s ⟨[], 0⟩).buf.length,
            (stA.ss.getD s ⟨[], 0⟩).buf⟩ : CRec)], r.ulen = B := by
          intro r hr
          rcases List.mem_append.mp hr with h | h
          · exact hfull r h
          · rw [List.mem_singleton.mp h]
            show (stA.ss.getD s ⟨[], 0⟩).buf.length = B
            rw [hgetA_self]
            show (str.buf ++ p.take k).length = B
            rw [hbufA]
            exact hBfull
        obtain ⟨recs', hW', hlt', hfull', hbud', hdata', hoth'⟩ :=
          ih (flushW cd stA s) _ (p.drop k) hdropfu hFl hltA hfullA hbudA
        refine ⟨recs', hW', hlt', hfull', ?_, ?_, ?_⟩
        · have hA : stA.cur_pos = st.cur_pos := rfl
          rw [hFcur, hA, List.length_drop] at hbud'
          omega
        · rw [hdata']
          have hdOf : dataOf (recs ++ [(⟨s, stA.cur_pos,
              (compressBlock cd (stA.ss.getD s ⟨[], 0⟩).buf).1,
              (compressBlock cd (stA.ss.getD s ⟨[], 0⟩).buf).2,
              (stA.ss.getD s ⟨[], 0⟩).buf.length,
              (stA.ss.getD s ⟨[], 0⟩).buf⟩ : CRec)]) s
              = dataOf recs s ++ (stA.ss.getD s ⟨[], 0⟩).buf := by
            exact dataOf_append_self recs _
          rw [hdOf, flushW_getD_self cd stA s (by
            show s < (st.ss.set s _).length
            rw [List.length_set]
            omega)]
          rw [hgetA_self]
          show dataOf recs s ++ (str.buf ++ p.take k) ++ [] 
              ++ p.drop k = dataOf recs s ++ str.buf ++ p
          rw [List.append_nil, List.append_assoc, List.append_assoc,
            List.take_append_drop]
          rw [← List.append_assoc]
        · intro t hts
          obtain ⟨hg, hd⟩ := hoth' t hts
          constructor
          · rw [hg, flushW_getD_ne cd stA s t (fun h => hts h.symm),
              hgetA_ne t (fun h => hts h.symm)]
          · rw [hd, dataOf_append_other recs _ t (by
              show ¬ s = t
              exact fun h => hts h.symm)]
      · rw [if_neg hflu]
        have hltA2 : ∀ t, t < n →
            ((stA.ss.getD t ⟨[], 0⟩)).buf.length < B := by
          intro t ht
          by_cases hts : s = t
          · subst hts
            rw [hgetA_self]
            show (str.buf ++ p.take k).length < B
            rw [hbufA]
            have : ¬ (str.buf.length + k = B) := by
              intro h
              apply hflu
              rw [hbufA, h, hbufsize]
            omega
          · rw [hgetA_ne t hts]
            exact hlt t ht
        have hbudA2 : stA.cur_pos
            + 26 * (totalBuf stA + (p.drop k).length) ≤ bound := by
          have hA : stA.cur_pos = st.cur_pos := rfl
          rw [hA, List.length_drop]
          omega
        obtain ⟨recs', hW', hlt', hfull', hbud', hdata', hoth'⟩ :=
          ih stA recs (p.drop k) hdropfu hstA_WF hltA2 hfull hbudA2
        refine ⟨recs', hW', hlt', hfull', ?_, ?_, ?_⟩
        · have hA : stA.cur_pos = st.cur_pos := rfl
          rw [hA, List.length_drop] at hbud'
          omega
        · rw [hdata', hgetA_self]
          show dataOf recs s ++ (str.buf ++ p.take k) ++ p.drop k
              = dataOf recs s ++ str.buf ++ p
          rw [List.append_assoc, List.append_assoc, List.take_append_drop,
            ← List.append_assoc]
        · intro t hts
          obtain ⟨hg, hd⟩ := hoth' t hts
          exact ⟨by rw [hg, hgetA_ne t (fun h => hts h.symm)], hd⟩

theorem scriptBytes_cons (s0 : Nat) (p : List Nat)
    (rest : List (Nat × List Nat)) :
    scriptBytes ((s0, p) :: rest) = p.length + scriptBytes rest := by
  simp [scriptBytes]

theorem fedBytes_cons_self (t : Nat) (p : List Nat)
    (rest : List (Nat × List Nat)) :
    fedBytes ((t, p) :: rest) t = p ++ fedBytes rest t := by
  simp [fedBytes]

theorem fedBytes_cons_other (s0 t : Nat) (p : List Nat)
    (rest : List (Nat × List Nat)) (h : ¬ s0 = t) :
    fedBytes ((s0, p) :: rest) t = fedBytes rest t := by
  have hb : (s0 == t) = false := by
    simp
    exact h
  simp [fedBytes, List.filter, hb]

theorem runScript_WF (cd : Codec) (n B bound : Nat)
    (htag : cd.tag ≠ CTYPE_NONE)
    (hrt : ∀ b c, cd.comp b = some c → c.length < b.length →
      cd.decomp c b.length = some b)
    (hbd : bound < 2 ^ 64) :
    ∀ (script : List (Nat × List Nat)) (st : WState) (recs : List CRec),
      (∀ e ∈ script, e.1 < n) →
      WFstate cd n B st recs →
      (∀ t, t < n → (st.ss.getD t ⟨[], 0⟩).buf.length < B) →
      (∀ r ∈ recs, r.ulen = B) →
      st.cur_pos + 26 * (totalBuf st + scriptBytes script) ≤ bound →
      ∃ recs',
        WFstate cd n B (runScript cd st script) recs' ∧
        (∀ t, t < n →
          ((runScript cd st script).ss.getD t ⟨[], 0⟩).buf.length < B) ∧
        (∀ r ∈ recs', r.ulen = B) ∧
        (runScript cd st script).cur_pos
            + 26 * totalBuf (runScript cd st script)
          ≤ st.cur_pos + 26 * (totalBuf st + scriptBytes script) ∧
        (∀ t, t < n →
          dataOf recs' t ++ ((runScript cd st script).ss.getD t ⟨[], 0⟩).buf
            = dataOf recs t ++ (st.ss.getD t ⟨[], 0⟩).buf
              ++ fedBytes script t) := by
  intro script
  induction script with
  | nil =>
    intro st recs hv hWF hlt hfull hbud
    refine ⟨recs, hWF, hlt, hfull, ?_, ?_⟩
    · show st.cur_pos + 26 * totalBuf st
        ≤ st.cur_pos + 26 * (totalBuf st + scriptBytes [])
      omega
    intro t ht
    show dataOf recs t ++ (st.ss.getD t ⟨[], 0⟩).buf
      = dataOf recs t ++ (st.ss.getD t ⟨[], 0⟩).buf ++ fedBytes [] t
    rw [show fedBytes [] t = [] from rfl, List.append_nil]
  | cons e rest ih =>
    intro st recs hv hWF hlt hfull hbud
    obtain ⟨s0, p⟩ := e
    have hs0 : s0 < n := hv (s0, p) (List.mem_cons_self _ _)
    have hsb := scriptBytes_cons s0 p rest
    obtain ⟨recs1, hW1, hlt1, hfull1, hbud1, hdata1, hoth1⟩ :=
      wsGo_WF cd n B bound s0 htag hrt hs0 hbd p.length st recs p
        (le_refl _) hWF hlt hfull (by omega)
    have hrun : runScript cd st ((s0, p) :: rest)
        = runScript cd (wsGo cd p.length st s0 p) rest := rfl
    rw [hrun]
    obtain ⟨recs2, hW2, hlt2, hfull2, hbud2, hdata2⟩ :=
      ih (wsGo cd p.length st s0 p) recs1 (fun e he => hv e
        (List.mem_cons_of_mem _ he)) hW1 hlt1 hfull1 (by omega)
    refine ⟨recs2, hW2, hlt2, hfull2, by omega, ?_⟩
    intro t ht
    have h2 := hdata2 t ht
    by_cases hts : s0 = t
    · subst hts
      rw [h2, hdata1, fedBytes_cons_self, ← List.append_assoc]
    · obtain ⟨hg, hd⟩ := hoth1 t (fun h => hts h.symm)
      rw [h2, hg, hd, fedBytes_cons_other s0 t p rest hts]

theorem dataOf_congr (recs1 recs2 : List CRec) (t : Nat)
    (h : streamChain recs1 t = streamChain recs2 t) :
    dataOf recs1 t = dataOf recs2 t := by
  unfold dataOf
  rw [h]

theorem isEmpty_true_iff (l : List Nat) : l.isEmpty = true ↔ l = [] := by
  cases l <;> simp [List.isEmpty]

theorem closeFold_WF (cd : Codec) (n B bound : Nat)
    (htag : cd.tag ≠ CTYPE_NONE)
    (hrt : ∀ b c, cd.comp b = some c → c.length < b.length →
      cd.decomp c b.length = some b)
    (hbd : bound < 2 ^ 64) :
    ∀ (l : List Nat) (st : WState) (recs : List CRec),
      (∀ i ∈ l, i < n) →
      l.Nodup →
      WFstate cd n B st recs →
      (∀ t, t < n → (st.ss.getD t ⟨[], 0⟩).buf.length < B) →
      st.cur_pos + 26 * totalBuf st ≤ bound →
      ∃ recs',
        WFstate cd n B
          (l.foldl (fun acc i =>
            if (acc.ss.getD i ⟨[], 0⟩).buf.isEmpty then acc
            else flushW cd acc i) st) recs' ∧
        (l.foldl (fun acc i =>
            if (acc.ss.getD i ⟨[], 0⟩).buf.isEmpty then acc
            else flushW cd acc i) st).cur_pos
            + 26 * totalBuf (l.foldl (fun acc i =>
              if (acc.ss.getD i ⟨[], 0⟩).buf.isEmpty then acc
              else flushW cd acc i) st)
          ≤ st.cur_pos + 26 * totalBuf st ∧
        (∀ t, t ∈ l →
          ((l.foldl (fun acc i =>
            if (acc.ss.getD i ⟨[], 0⟩).buf.isEmpty then acc
            else flushW cd acc i) st).ss.getD t ⟨[], 0⟩).buf = []) ∧
        (∀ t, ¬ t ∈ l →
          (l.foldl (fun acc i =>
            if (acc.ss.getD i ⟨[], 0⟩).buf.isEmpty then acc
            else flushW cd acc i) st).ss.getD t ⟨[], 0⟩
              = st.ss.getD t ⟨[], 0⟩ ∧
          streamChain recs' t = streamChain recs t) ∧
        (∀ t, t ∈ l →
          dataOf recs' t = dataOf recs t ++ (st.ss.getD t ⟨[], 0⟩).buf) ∧
        (∀ t, t ∈ l →
          streamChain recs' t = streamChain recs t ∨
          ∃ r, streamChain recs' t = streamChain recs t ++ [r] ∧
            r.ulen = (st.ss.getD t ⟨[], 0⟩).buf.length ∧
            r.data = (st.ss.getD t ⟨[], 0⟩).buf) := by
  intro l
  induction l with
  | nil =>
    intro st recs _ _ hWF hlt hbud
    exact ⟨recs, hWF, le_refl _, fun t ht => absurd ht (List.not_mem_nil t),
      fun t _ => ⟨rfl, rfl⟩, fun t ht => absurd ht (List.not_mem_nil t),
      fun t ht => absurd ht (List.not_mem_nil t)⟩
  | cons i rest ih =>
    intro st recs hv hnd hWF hlt hbud
    have hi : i < n := hv i (List.mem_cons_self _ _)
    have hvr : ∀ j ∈ rest, j < n := fun j hj => hv j (List.mem_cons_of_mem _ hj)
    have hir : ¬ i ∈ rest := (List.nodup_cons.mp hnd).1
    have hndr : rest.Nodup := (List.nodup_cons.mp hnd).2
    rw [List.foldl_cons]
    by_cases hie : (st.ss.getD i ⟨[], 0⟩).buf.isEmpty
    · rw [if_pos hie]
      have hbe : (st.ss.getD i ⟨[], 0⟩).buf = [] := (isEmpty_true_iff _).mp hie
      obtain ⟨recs', h1, h2, h3, h4, h5, h6⟩ := ih st recs hvr hndr hWF hlt hbud
      refine ⟨recs', h1, h2, ?_, ?_, ?_, ?_⟩
      · intro t ht
        rcases List.mem_cons.mp ht with h | h
        · subst h
          rw [(h4 t hir).1, hbe]
        · exact h3 t h
      · intro t ht
        exact h4 t (fun hmem => ht (List.mem_cons_of_mem _ hmem))
      · intro t ht
        rcases List.mem_cons.mp ht with h | h
        · subst h
          rw [dataOf_congr recs' recs t (h4 t hir).2, hbe, List.append_nil]
        · exact h5 t h
      · intro t ht
        rcases List.mem_cons.mp ht with h | h
        · subst h
          exact Or.inl (h4 t hir).2
        · exact h6 t h
    · rw [if_neg hie]
      have hbne : (st.ss.getD i ⟨[], 0⟩).buf ≠ [] := by
        intro h
        exact hie ((isEmpty_true_iff _).mpr h)
      have hb1 : 1 ≤ (st.ss.getD i ⟨[], 0⟩).buf.length :=
        List.length_pos.mpr hbne
      have hbtot : (st.ss.getD i ⟨[], 0⟩).buf.length ≤ totalBuf st :=
        getD_le_totalBuf st.ss i (by have := hWF.1; omega)
      have hbound2 : st.cur_pos + 25
          + (st.ss.getD i ⟨[], 0⟩).buf.length < 2 ^ 64 := by
        omega
      obtain ⟨hFl, hFcur⟩ := flushW_WF cd n B st recs i htag hrt hWF hi
        hbne hbound2
      have hcp := compressBlock_spec cd (st.ss.getD i ⟨[], 0⟩).buf htag hrt
      have hFtot : totalBuf (flushW cd st i)
            + (st.ss.getD i ⟨[], 0⟩).buf.length = totalBuf st :=
        flushW_totalBuf cd st i (by have := hWF.1; omega)
      have hlt1 : ∀ t, t < n →
          ((flushW cd st i).ss.getD t ⟨[], 0⟩).buf.length < B := by
        intro t ht
        by_cases hts : i = t
        · subst hts
          rw [flushW_getD_self cd st i (by have := hWF.1; omega)]
          show ([] : List Nat).length < B
          have := hlt i hi
          simp
          omega
        · rw [flushW_getD_ne cd st i t hts]
          exact hlt t ht
      have hbud1 : (flushW cd st i).cur_pos + 26 * totalBuf (flushW cd st i)
          ≤ bound := by
        rw [hFcur]
        omega
      obtain ⟨recs', h1, h2, h3, h4, h5, h6⟩ :=
        ih (flushW cd st i) _ hvr hndr hFl hlt1 hbud1
      have hchups : ∀ t, ¬ i = t →
          streamChain (recs ++ [(⟨i, st.cur_pos,
            (compressBlock cd (st.ss.getD i ⟨[], 0⟩).buf).1,
            (compressBlock cd (st.ss.getD i ⟨[], 0⟩).buf).2,
            (st.ss.getD i ⟨[], 0⟩).buf.length,
            (st.ss.getD i ⟨[], 0⟩).buf⟩ : CRec)]) t = streamChain recs t := by
        intro t hts
        rw [streamChain_append]
        dsimp only
        rw [if_neg hts, List.append_nil]
      refine ⟨recs', h1, ?_, ?_, ?_, ?_, ?_⟩
      · rw [hFcur] at h2
        omega
      · intro t ht
        rcases List.mem_cons.mp ht with h | h
        · subst h
          rw [(h4 t hir).1,
            flushW_getD_self cd st t (by have := hWF.1; omega)]
        · exact h3 t h
      · intro t ht
        have htr : ¬ t ∈ rest := fun hmem => ht (List.mem_cons_of_mem _ hmem)
        have hti : ¬ i = t := fun h => ht (h ▸ List.mem_cons_self _ _)
        refine ⟨?_, ?_⟩
        · rw [(h4 t htr).1, flushW_getD_ne cd st i t hti]
        · rw [(h4 t htr).2, hchups t hti]
      · intro t ht
        rcases List.mem_cons.mp ht with h | h
        · subst h
          rw [dataOf_congr recs' _ t (h4 t hir).2]
          have hself := dataOf_append_self recs (⟨t, st.cur_pos,
            (compressBlock cd (st.ss.getD t ⟨[], 0⟩).buf).1,
            (compressBlock cd (st.ss.getD t ⟨[], 0⟩).buf).2,
            (st.ss.getD t ⟨[], 0⟩).buf.length,
            (st.ss.getD t ⟨[], 0⟩).buf⟩ : CRec)
          exact hself
        · have hti : ¬ i = t := fun he => hir (he ▸ h)
          rw [h5 t h, flushW_getD_ne cd st i t hti,
            dataOf_append_other recs _ t hti]
      · intro t ht
        rcases List.mem_cons.mp ht with h | h
        · subst h
          right
          refine ⟨⟨t, st.cur_pos,
            (compressBlock cd (st.ss.getD t ⟨[], 0⟩).buf).1,
            (compressBlock cd (st.ss.getD t ⟨[], 0⟩).buf).2,
            (st.ss.getD t ⟨[], 0⟩).buf.length,
            (st.ss.getD t ⟨[], 0⟩).buf⟩, ?_, rfl, rfl⟩
          rw [(h4 t hir).2, streamChain_append]
          dsimp only
          rw [if_pos rfl]
        · have hti : ¬ i = t := fun he => hir (he ▸ h)
          rcases h6 t h with hc | ⟨r, hc, hu, hd⟩
          · left
            rw [hc, hchups t hti]
          · right
            refine ⟨r, ?_, ?_, ?_⟩
            · rw [hc, hchups t hti]
            · rw [hu, flushW_getD_ne cd st i t hti]
            · rw [hd, flushW_getD_ne cd st i t hti]

theorem totalBuf_open (n B : Nat) : totalBuf (open_stream_out n B) = 0 := by
  unfold totalBuf open_stream_out
  rw [List.map_map]
  have h : ((fun str => str.buf.length) ∘
      (fun i => (⟨[], 25 * i + 17⟩ : WStream))) = fun _ => 0 := rfl
  rw [h]
  induction n with
  | zero => rfl
  | succ m ihm =>
    rw [List.range_succ, List.map_append, List.sum_append, ihm]
    rfl

theorem writer_final (cd : Codec) (n B bound : Nat)
    (htag : cd.tag ≠ CTYPE_NONE)
    (hrt : ∀ b c, cd.comp b = some c → c.length < b.length →
      cd.decomp c b.length = some b)
    (hB : 1 ≤ B) (hbd : bound < 2 ^ 64)
    (script : List (Nat × List Nat))
    (hv : ∀ e ∈ script, e.1 < n)
    (hstart : 25 * n + 26 * scriptBytes script ≤ bound) :
    ∃ recsM recsC,
      WFstate cd n B (runScript cd (open_stream_out n B) script) recsM ∧
      (∀ t, t < n →
        ((runScript cd (open_stream_out n B) script).ss.getD t
          ⟨[], 0⟩).buf.length < B) ∧
      (∀ r ∈ recsM, r.ulen = B) ∧
      WFstate cd n B
        (close_stream_out cd (runScript cd (open_stream_out n B) script))
        recsC ∧
      (∀ t, t < n → dataOf recsC t = fedBytes script t) ∧
      (∀ t, t < n →
        streamChain recsC t = streamChain recsM t ∨
        ∃ r, streamChain recsC t = streamChain recsM t ++ [r] ∧
          r.ulen = ((runScript cd (open_stream_out n B) script).ss.getD t
            ⟨[], 0⟩).buf.length) := by
  have h25n : 25 * n < 2 ^ 64 := by omega
  have hop := open_WF cd n B h25n
  have hlt0 : ∀ t, t < n →
      ((open_stream_out n B).ss.getD t ⟨[], 0⟩).buf.length < B := by
    intro t ht
    rw [open_ss_getD n B t ht]
    show ([] : List Nat).length < B
    simp
    omega
  have hbud0 : (open_stream_out n B).cur_pos
      + 26 * (totalBuf (open_stream_out n B) + scriptBytes script)
      ≤ bound := by
    show 25 * n + 26 * (totalBuf (open_stream_out n B) + scriptBytes script)
      ≤ bound
    rw [totalBuf_open]
    omega
  obtain ⟨recsM, hWM, hltM, hfullM, hbudM, hdataM⟩ :=
    runScript_WF cd n B bound htag hrt hbd script (open_stream_out n B) []
      hv hop hlt0 (fun r hr => absurd hr (List.not_mem_nil r)) hbud0
  have hdataM2 : ∀ t, t < n →
      dataOf recsM t
          ++ ((runScript cd (open_stream_out n B) script).ss.getD t
            ⟨[], 0⟩).buf
        = fedBytes script t := by
    intro t ht
    have h := hdataM t ht
    rw [open_ss_getD n B t ht] at h
    show dataOf recsM t ++ _ = _
    rw [h]
    show dataOf ([] : List CRec) t ++ ([] : List Nat).tail.tail ++ _ = _
    all_goals rfl
  have hbudM2 : (runScript cd (open_stream_out n B) script).cur_pos
      + 26 * totalBuf (runScript cd (open_stream_out n B) script)
      ≤ bound := by
    have h1 : (open_stream_out n B).cur_pos = 25 * n := rfl
    rw [h1, totalBuf_open] at hbudM
    omega
  have hclose : close_stream_out cd
        (runScript cd (open_stream_out n B) script)
      = (List.range n).foldl (fun acc i =>
          if (acc.ss.getD i ⟨[], 0⟩).buf.isEmpty then acc
          else flushW cd acc i)
        (runScript cd (open_stream_out n B) script) := by
    unfold close_stream_out
    rw [hWM.1]
  obtain ⟨recsC, hc1, hc2, hc3, hc4, hc5, hc6⟩ :=
    closeFold_WF cd n B bound htag hrt hbd (List.range n)
      (runScript cd (open_stream_out n B) script) recsM
      (fun i hi => List.mem_range.mp hi) (List.nodup_range n)
      hWM hltM hbudM2
  refine ⟨recsM, recsC, hWM, hltM, hfullM, ?_, ?_, ?_⟩
  · rw [hclose]
    exact hc1
  · intro t ht
    rw [hc5 t (List.mem_range.mpr ht)]
    exact hdataM2 t ht
  · intro t ht
    rcases hc6 t (List.mem_range.mpr ht) with h | ⟨r, hch, hu, _⟩
    · exact Or.inl h
    · exact Or.inr ⟨r, hch, hu⟩

theorem chainOK_chainNextOK (cd : Codec) (file : List Nat) :
    ∀ ch, chainOK cd file ch → (∀ r ∈ ch, r.off < 2 ^ 64) →
      chainNextOK file ch := by
  intro ch
  induction ch with
  | nil => intro _ _; trivial
  | cons r rest ih =>
    intro hok hoff
    obtain ⟨h1, h2, h3, h4, h5, h6, h7, h8, h9⟩ := hok
    refine ⟨?_, ih h9 (fun x hx => hoff x (List.mem_cons_of_mem _ hx))⟩
    have hh := readHeaderAt_here file r.off r.ctype r.payload.length r.ulen
      (chainHeadOff rest) h1
    rw [hh]
    have hcho : chainHeadOff rest < 2 ^ 64 := by
      cases rest with
      | nil => show (0 : Nat) < 2 ^ 64; norm_num
      | cons y ys =>
        show y.off < 2 ^ 64
        exact hoff y (List.mem_cons_of_mem _ (List.mem_cons_self _ _))
    rw [Nat.mod_eq_of_lt h7, Nat.mod_eq_of_lt h8, Nat.mod_eq_of_lt hcho]

theorem chainOK_mem_ulen (cd : Codec) (file : List Nat) :
    ∀ ch, chainOK cd file ch → ∀ r ∈ ch, 1 ≤ r.ulen := by
  intro ch
  induction ch with
  | nil => intro _ r hr; exact absurd hr (List.not_mem_nil r)
  | cons x rest ih =>
    intro hok r hr
    obtain ⟨_, _, _, _, h5, _, _, _, h9⟩ := hok
    rcases List.mem_cons.mp hr with h | h
    · rw [h]; exact h5
    · exact ih h9 r h

theorem getLast?_mem_CRec (l : List CRec) (a : CRec)
    (h : l.getLast? = some a) : a ∈ l := by
  have hm := List.mem_getLast?_eq_getLast (x := a) (l := l)
    (by rw [h]; exact Option.mem_some_iff.mpr rfl)
  obtain ⟨hne, rfl⟩ := hm
  exact List.getLast_mem hne

/-- C8 as amended: in `open_stream_out`'s allocation ladder, the `sinfo`
malloc, the `threads` calloc and the `sinfo->s` calloc report failure by
returning NULL, while the `cthread` calloc and the per-stream buffer
mallocs abort via `fatal` (not NULL); and `write_stream` has no failure
path at all — its only return statement is `return 0`, so it never
returns -1. -/
theorem c8_resource_reporting :
    (∀ a b c d e : Bool,
      open_stream_out_alloc a b c d e = AllocOutcome.null
        ↔ (a = false ∨ (a = true ∧ b = false) ∨
           (a = true ∧ b = true ∧ c = true ∧ d = false))) ∧
    (∀ (cd : Codec) (st : WState) (s : Nat) (p : List Nat),
      (write_stream cd st s p).1 = 0) :=
  ⟨by decide, fun _ _ _ _ => rfl⟩

/-- C2: the chain-link invariant.  Along any producer run
(`open_stream_out`, arbitrary `write_stream` calls, `close_stream_out`):
the per-stream write heads start at `25*i + 17` when the sentinels are
written; at every intermediate state there is a record list `recs` laid
out back to back such that each stream's sentinel header parses with
`next` = offset of the stream's first record (0 if none), each record's
header parses with `next` = the next same-stream record's offset (0 for
the last, whose `next` is still the original 0 it was written with), and
each stream's `last_head` equals its last record's offset + 17 (its
sentinel's offset + 17 if it has none) — i.e. `next` fields are patched
exactly when a successor is appended, with that successor's absolute
offset; and the same holds after `close_stream_out`. -/
theorem c2_chain_links (cd : Codec) (n B bound : Nat)
    (htag : cd.tag ≠ CTYPE_NONE)
    (hrt : ∀ b c, cd.comp b = some c → c.length < b.length →
      cd.decomp c b.length = some b)
    (hB : 1 ≤ B) (hbd : bound < 2 ^ 64)
    (script : List (Nat × List Nat))
    (hv : ∀ e ∈ script, e.1 < n)
    (hstart : 25 * n + 26 * scriptBytes script ≤ bound) :
    (∀ i, i < n →
      (open_stream_out n B).ss.getD i ⟨[], 0⟩ = ⟨[], 25 * i + 17⟩) ∧
    (∃ recs,
      WFstate cd n B (runScript cd (open_stream_out n B) script) recs ∧
      ∀ s, s < n →
        chainNextOK (runScript cd (open_stream_out n B) script).file
          (streamChain recs s) ∧
        readHeaderAt false (runScript cd (open_stream_out n B) script).file
          (25 * s)
          = some (CTYPE_NONE, 0, 0, chainHeadOff (streamChain recs s)) ∧
        ((runScript cd (open_stream_out n B) script).ss.getD s
          ⟨[], 0⟩).last_head = lastHeadOf s (streamChain recs s)) ∧
    (∃ recs,
      WFstate cd n B
        (close_stream_out cd (runScript cd (open_stream_out n B) script))
        recs ∧
      ∀ s, s < n →
        chainNextOK
          (close_stream_out cd
            (runScript cd (open_stream_out n B) script)).file
          (streamChain recs s)) := by
  obtain ⟨recsM, recsC, hWM, hltM, hfullM, hWC, hdataC, hshape⟩ :=
    writer_final cd n B bound htag hrt hB hbd script hv hstart
  have hparse : ∀ (st : WState) (recs : List CRec),
      WFstate cd n B st recs → ∀ s, s < n →
      chainNextOK st.file (streamChain recs s) ∧
      readHeaderAt false st.file (25 * s)
        = some (CTYPE_NONE, 0, 0, chainHeadOff (streamChain recs s)) ∧
      (st.ss.getD s ⟨[], 0⟩).last_head = lastHeadOf s (streamChain recs s) := by
    intro st recs hW s hsn
    obtain ⟨hlen, hbs, hfl, hcur, hpk, hend, hstl, hper⟩ := hW
    obtain ⟨hsent, hchain, hlh⟩ := hper s hsn
    have hoffs : ∀ r ∈ streamChain recs s, r.off < 2 ^ 64 := by
      intro r hr
      have hm := packed_mono recs _ hpk r (chainOK_mem_sub recs s r hr)
      omega
    refine ⟨chainOK_chainNextOK cd st.file _ hchain hoffs, ?_, hlh⟩
    have hh := readHeaderAt_here st.file (25 * s) CTYPE_NONE 0 0
      (chainHeadOff (streamChain recs s)) hsent
    rw [hh]
    have hcho : chainHeadOff (streamChain recs s) < 2 ^ 64 := by
      cases hch : streamChain recs s with
      | nil => show (0 : Nat) < 2 ^ 64; norm_num
      | cons y ys =>
        show y.off < 2 ^ 64
        exact hoffs y (by rw [hch]; exact List.mem_cons_self _ _)
    rw [Nat.mod_eq_of_lt hcho]
    norm_num
  refine ⟨?_, ⟨recsM, hWM, hparse _ recsM hWM⟩,
    ⟨recsC, hWC, fun s hsn => (hparse _ recsC hWC s hsn).1⟩⟩
  intro i hi
  exact open_ss_getD n B i hi

/-- C10: after any sequence of `write_stream` calls every stream's
pending buffer holds strictly fewer than `bufsize` bytes (it is flushed
to a worker the moment it reaches `bufsize`); consequently in the closed
archive every record of a stream except the last carries
`u_len = bufsize`, and the last record carries `0 < u_len ≤ bufsize`. -/
theorem c10_block_size (cd : Codec) (n B bound : Nat)
    (htag : cd.tag ≠ CTYPE_NONE)
    (hrt : ∀ b c, cd.comp b = some c → c.length < b.length →
      cd.decomp c b.length = some b)
    (hB : 1 ≤ B) (hbd : bound < 2 ^ 64)
    (script : List (Nat × List Nat))
    (hv : ∀ e ∈ script, e.1 < n)
    (hstart : 25 * n + 26 * scriptBytes script ≤ bound) :
    (∀ t, t < n →
      ((runScript cd (open_stream_out n B) script).ss.getD t
        ⟨[], 0⟩).buf.length < B) ∧
    ∃ recsC,
      WFstate cd n B
        (close_stream_out cd (runScript cd (open_stream_out n B) script))
        recsC ∧
      ∀ s, s < n →
        (∀ r ∈ (streamChain recsC s).dropLast, r.ulen = B) ∧
        (∀ r, (streamChain recsC s).getLast? = some r →
          0 < r.ulen ∧ r.ulen ≤ B) := by
  obtain ⟨recsM, recsC, hWM, hltM, hfullM, hWC, hdataC, hshape⟩ :=
    writer_final cd n B bound htag hrt hB hbd script hv hstart
  refine ⟨hltM, recsC, hWC, ?_⟩
  intro s hsn
  have hchainC := ((hWC.2.2.2.2.2.2.2) s hsn).2.1
  have hfullC : ∀ r ∈ streamChain recsM s, r.ulen = B := by
    intro r hr
    exact hfullM r (chainOK_mem_sub recsM s r hr)
  have hulen1 : ∀ r ∈ streamChain recsC s, 1 ≤ r.ulen :=
    chainOK_mem_ulen cd _ _ hchainC
  rcases hshape s hsn with hc | ⟨r0, hc, hu⟩
  · refine ⟨?_, ?_⟩
    · intro r hr
      rw [hc] at hr
      exact hfullC r ((List.dropLast_sublist _).subset hr)
    · intro r hr
      rw [hc] at hr
      have hm := getLast?_mem_CRec _ _ hr
      have := hfullC r hm
      omega
  · refine ⟨?_, ?_⟩
    · intro r hr
      rw [hc, List.dropLast_concat] at hr
      exact hfullC r hr
    · intro r hr
      rw [hc, List.getLast?_concat] at hr
      have hre : r = r0 := by
        injection hr with h
        exact h.symm
      subst hre
      have hmem : r ∈ streamChain recsC s := by
        rw [hc]
        exact List.mem_append_right _ (List.mem_singleton.mpr rfl)
      have h1 := hulen1 r hmem
      have h2 := hltM s hsn
      omega

theorem c2_chain_links_witness :
    (rawCodec.tag ≠ CTYPE_NONE) ∧
    (∀ b c : List Nat, rawCodec.comp b = some c → c.length < b.length →
      rawCodec.decomp c b.length = some b) ∧
    (1 ≤ 1) ∧ ((51 : Nat) < 2 ^ 64) ∧
    (∀ e ∈ [((0 : Nat), [(7 : Nat)])], e.1 < 1) ∧
    (25 * 1 + 26 * scriptBytes [(0, [7])] ≤ 51) ∧
    ((∀ i, i < 1 →
      (open_stream_out 1 1).ss.getD i ⟨[], 0⟩ = ⟨[], 25 * i + 17⟩) ∧
    (∃ recs,
      WFstate rawCodec 1 1 (runScript rawCodec (open_stream_out 1 1)
        [(0, [7])]) recs ∧
      ∀ s, s < 1 →
        chainNextOK (runScript rawCodec (open_stream_out 1 1)
          [(0, [7])]).file (streamChain recs s) ∧
        readHeaderAt false (runScript rawCodec (open_stream_out 1 1)
          [(0, [7])]).file (25 * s)
          = some (CTYPE_NONE, 0, 0, chainHeadOff (streamChain recs s)) ∧
        ((runScript rawCodec (open_stream_out 1 1) [(0, [7])]).ss.getD s
          ⟨[], 0⟩).last_head = lastHeadOf s (streamChain recs s)) ∧
    (∃ recs,
      WFstate rawCodec 1 1
        (close_stream_out rawCodec (runScript rawCodec
          (open_stream_out 1 1) [(0, [7])])) recs ∧
      ∀ s, s < 1 →
        chainNextOK
          (close_stream_out rawCodec (runScript rawCodec
            (open_stream_out 1 1) [(0, [7])])).file
          (streamChain recs s))) :=
  ⟨by decide, fun b c h => by simp [rawCodec] at h, le_refl 1, by norm_num,
   fun e he => by rcases List.mem_singleton.mp he with rfl; decide,
   by decide,
   c2_chain_links rawCodec 1 1 51 (by decide)
     (fun b c h => by simp [rawCodec] at h) (le_refl 1) (by norm_num)
     [(0, [7])]
     (fun e he => by rcases List.mem_singleton.mp he with rfl; decide)
     (by decide)⟩

theorem c10_block_size_witness :
    (rawCodec.tag ≠ CTYPE_NONE) ∧
    (∀ b c : List Nat, rawCodec.comp b = some c → c.length < b.length →
      rawCodec.decomp c b.length = some b) ∧
    (1 ≤ 2) ∧ ((103 : Nat) < 2 ^ 64) ∧
    (∀ e ∈ [((0 : Nat), [(7 : Nat), 9, 11])], e.1 < 1) ∧
    (25 * 1 + 26 * scriptBytes [(0, [7, 9, 11])] ≤ 103) ∧
    ((∀ t, t < 1 →
      ((runScript rawCodec (open_stream_out 1 2) [(0, [7, 9, 11])]).ss.getD t
        ⟨[], 0⟩).buf.length < 2) ∧
    ∃ recsC,
      WFstate rawCodec 1 2
        (close_stream_out rawCodec (runScript rawCodec (open_stream_out 1 2)
          [(0, [7, 9, 11])])) recsC ∧
      ∀ s, s < 1 →
        (∀ r ∈ (streamChain recsC s).dropLast, r.ulen = 2) ∧
        (∀ r, (streamChain recsC s).getLast? = some r →
          0 < r.ulen ∧ r.ulen ≤ 2)) :=
  ⟨by decide, fun b c h => by simp [rawCodec] at h, by norm_num, by norm_num,
   fun e he => by rcases List.mem_singleton.mp he with rfl; decide,
   by decide,
   c10_block_size rawCodec 1 2 103 (by decide)
     (fun b c h => by simp [rawCodec] at h) (by norm_num) (by norm_num)
     [(0, [7, 9, 11])]
     (fun e he => by rcases List.mem_singleton.mp he with rfl; decide)
     (by decide)⟩

theorem headsList_length (hh : Nat → Nat) :
    ∀ (k j : Nat), (headsList hh j k).length = k := by
  intro k
  induction k with
  | zero => intro j; rfl
  | succ m ih =>
    intro j
    show (hh j :: headsList hh (j+1) m).length = m + 1
    rw [List.length_cons, ih]

theorem headsList_getD (hh : Nat → Nat) :
    ∀ (k j s : Nat), s < k → (headsList hh j k).getD s 0 = hh (j + s) := by
  intro k
  induction k with
  | zero => intro j s h; omega
  | succ m ih =>
    intro j s h
    cases s with
    | zero =>
      show (hh j :: headsList hh (j+1) m).getD 0 0 = hh (j + 0)
      rw [List.getD_cons_zero, Nat.add_zero]
    | succ t =>
      show (hh j :: headsList hh (j+1) m).getD (t+1) 0 = hh (j + (t + 1))
      rw [List.getD_cons_succ, ih (j+1) t (by omega)]
      congr 1
      omega

theorem sentinel_loop_ok (file : List Nat) (hh : Nat → Nat) :
    ∀ (k fuel j ip : Nat) (first : Bool),
      k ≤ fuel →
      (∀ i, i < k → readAt file (25 * (j + i)) 25
          = some (sentBytes (hh (j + i))) ∧ hh (j + i) < 2 ^ 64) →
      (first = true → 0 < k → hh j ≠ 0) →
      sentinel_loop false file fuel first k (25 * j) ip
        = some (ip, headsList hh j k) := by
  intro k
  induction k with
  | zero =>
    intro fuel j ip first _ _ _
    cases fuel <;> rfl
  | succ m ih =>
    intro fuel j ip first hfu hsen hfirst
    cases fuel with
    | zero => omega
    | succ f =>
      have hs0 := hsen 0 (by omega)
      rw [Nat.add_zero] at hs0
      have hslice : readAt file (25 * j) 25
          = some (CTYPE_NONE :: (le64 0 ++ le64 0 ++ le64 (hh j))) := hs0.1
      have hhdr := readHeaderAt_here file (25 * j) CTYPE_NONE 0 0 (hh j) hslice
      rw [Nat.zero_mod, Nat.mod_eq_of_lt hs0.2] at hhdr
      show sentinel_loop false file (f+1) first (m+1) (25 * j) ip = _
      rw [sentinel_loop, hhdr]
      dsimp only
      rw [if_neg (fun hcond => (hfirst hcond.1 (by omega)) hcond.2.2.2.2)]
      rw [if_neg (fun h => h rfl), if_neg (fun h => h rfl),
        if_neg (fun h => h rfl)]
      have hstep : 25 * j + hdrLen false = 25 * (j + 1) := by
        show 25 * j + 25 = 25 * (j + 1)
        ring
      rw [hstep]
      rw [ih f (j+1) ip false (by omega) (by
        intro i hi
        have h := hsen (i+1) (by omega)
        rwa [show j + (i+1) = j + 1 + i by omega] at h)
        (fun h _ => absurd h Bool.false_ne_true)]
      rfl

theorem readRecordAt_of_chainOK (cd : Codec) (file : List Nat) (r : CRec)
    (rest : List CRec)
    (hok : chainOK cd file (r :: rest))
    (hoff : ∀ x ∈ r :: rest, 0 < x.off ∧ x.off < 2 ^ 64) :
    readRecordAt file r.off
      = some (r.ctype, r.payload.length, r.ulen, chainHeadOff rest,
        r.payload) := by
  obtain ⟨h1, h2, h3, h4, h5, h6, h7, h8, h9⟩ := hok
  have hcho : chainHeadOff rest < 2 ^ 64 := by
    cases rest with
    | nil => show (0 : Nat) < 2 ^ 64; norm_num
    | cons y ys =>
      show y.off < 2 ^ 64
      exact (hoff y (List.mem_cons_of_mem _ (List.mem_cons_self _ _))).2
  have hhdr := readHeaderAt_here file r.off r.ctype r.payload.length r.ulen
    (chainHeadOff rest) h1
  rw [Nat.mod_eq_of_lt h7, Nat.mod_eq_of_lt h8, Nat.mod_eq_of_lt hcho] at hhdr
  unfold readRecordAt
  rw [hhdr]
  dsimp only
  rw [h2]

theorem fillLoop_ok (cd : Codec) (file : List Nat) (W : Nat) :
    ∀ (fuel : Nat) (str : RStream) (ch : List CRec),
      rsChainInv cd file str ch →
      str.pending.length < W →
      W + 1 ≤ str.pending.length + fuel →
      ∃ str' k,
        fillLoop cd file 0 W fuel str = some str' ∧
        str'.buf = str.buf ∧ str'.bufp = str.bufp ∧
        str'.pending = str.pending ++ (ch.take k).map (fun r => r.data) ∧
        rsChainInv cd file str' (ch.drop k) ∧
        str'.pending.length ≤ W ∧
        (str.eos = false → 1 ≤ k) := by
  intro fuel
  induction fuel with
  | zero =>
    intro str ch _ hpend hfu
    omega
  | succ f ih =>
    intro str ch hinv hpend hfu
    obtain ⟨hok, hoff, heosf, heost, hpne⟩ := hinv
    cases heos : str.eos with
    | true =>
      refine ⟨str, 0, ?_, rfl, rfl, by rw [List.take_zero]; simp, ?_, by omega,
        by intro h; exact absurd h (by simp)⟩
      · show fillLoop cd file 0 W (f+1) str = some str
        rw [fillLoop, if_pos heos]
      · rw [List.drop_zero]
        exact ⟨hok, hoff, heosf, heost, hpne⟩
    | false =>
      obtain ⟨hlh, hchne⟩ := heosf heos
      cases hch : ch with
      | nil => exact absurd hch hchne
      | cons r rest =>
        subst hch
        have hread := readRecordAt_of_chainOK cd file r rest hok hoff
        have hdec : decodeRec cd r.ctype r.payload r.ulen = some r.data :=
          hok.2.2.1
        have hdne : r.data ≠ [] := by
          have h4 : r.ulen = r.data.length := hok.2.2.2.1
          have h5 : 1 ≤ r.ulen := hok.2.2.2.2.1
          intro hnil
          rw [hnil] at h4
          simp at h4
          omega
        have hstep : fillLoop cd file 0 W (f+1) str
            = (if (str.pending ++ [r.data]).length < W
               then fillLoop cd file 0 W f
                 ⟨chainHeadOff rest, decide (chainHeadOff rest = 0),
                  str.pending ++ [r.data], str.buf, str.bufp⟩
               else some ⟨chainHeadOff rest, decide (chainHeadOff rest = 0),
                  str.pending ++ [r.data], str.buf, str.bufp⟩) := by
          rw [fillLoop, if_neg (by rw [heos]; exact Bool.false_ne_true)]
          rw [Nat.zero_add, hlh]
          show (match readRecordAt file (chainHeadOff (r :: rest)) with
            | none => none
            | some (c, _, ul, nx, payload) => _) = _
          rw [show chainHeadOff (r :: rest) = r.off from rfl, hread]
          dsimp only
          rw [hdec]
        have hinv' : rsChainInv cd file
            ⟨chainHeadOff rest, decide (chainHeadOff rest = 0),
             str.pending ++ [r.data], str.buf, str.bufp⟩ rest := by
          refine ⟨hok.2.2.2.2.2.2.2.2, fun x hx => hoff x
            (List.mem_cons_of_mem _ hx), ?_, ?_, ?_⟩
          · intro hne
            simp only [decide_eq_false_iff_not] at hne
            refine ⟨rfl, ?_⟩
            intro hnil
            apply hne
            rw [hnil]
            rfl
          · intro hte
            simp only [decide_eq_true_eq] at hte
            cases rest with
            | nil => rfl
            | cons y ys =>
              exfalso
              have := (hoff y (List.mem_cons_of_mem _
                (List.mem_cons_self _ _))).1
              show False
              rw [show chainHeadOff (y :: ys) = y.off from rfl] at hte
              omega
          · intro d hd
            rcases List.mem_append.mp hd with h | h
            · exact hpne d h
            · rw [List.mem_singleton.mp h]
              exact hdne
        rw [hstep]
        by_cases hlt : (str.pending ++ [r.data]).length < W
        · rw [if_pos hlt]
          obtain ⟨str'', k', hfl, hbuf, hbufp, hpend'', hinv'', hle, hek⟩ :=
            ih ⟨chainHeadOff rest, decide (chainHeadOff rest = 0),
              str.pending ++ [r.data], str.buf, str.bufp⟩ rest hinv'
              hlt (by
                show W + 1 ≤ (str.pending ++ [r.data]).length + f
                rw [List.length_append]
                simp only [List.length_cons, List.length_nil]
                omega)
          refine ⟨str'', k' + 1, hfl, hbuf, hbufp, ?_, ?_, hle, fun _ => by omega⟩
          · rw [hpend'']
            show str.pending ++ [r.data]
                ++ (rest.take k').map (fun r => r.data)
              = str.pending ++ ((r :: rest).take (k' + 1)).map (fun r => r.data)
            rw [List.take_succ_cons, List.map_cons, List.append_assoc]
            rfl
          · rw [show (r :: rest).drop (k' + 1) = rest.drop k' from rfl]
            exact hinv''
        · rw [if_neg hlt]
          refine ⟨_, 1, rfl, rfl, rfl, ?_, ?_, ?_, fun _ => le_refl 1⟩
          · show str.pending ++ [r.data]
              = str.pending ++ ((r :: rest).take 1).map (fun r => r.data)
            rfl
          · rw [show (r :: rest).drop 1 = rest from rfl]
            exact hinv'
          · show (str.pending ++ [r.data]).length ≤ W
            rw [List.length_append] at hlt ⊢
            simp only [List.length_cons, List.length_nil] at hlt ⊢
            omega

theorem fill_buffer_ok (cd : Codec) (file : List Nat) (W : Nat)
    (hW : 1 ≤ W) (str : RStream) (ch : List CRec)
    (hinv : rsChainInv cd file str ch)
    (hpend : str.pending.length < W)
    (hne : str.pending ≠ [] ∨ ch ≠ []) :
    ∃ str2 ch2,
      fill_buffer cd file 0 W str = some str2 ∧
      str2.bufp = 0 ∧
      str2.buf ≠ [] ∧
      rsChainInv cd file str2 ch2 ∧
      str2.pending.length < W ∧
      str2.buf ++ str2.pending.flatten
          ++ (ch2.map (fun r => r.data)).flatten
        = str.pending.flatten ++ (ch.map (fun r => r.data)).flatten := by
  obtain ⟨str', k, hfl, hbuf, hbufp, hpend', hinv', hle, hk⟩ :=
    fillLoop_ok cd file W (W + 1) str ch hinv hpend (by omega)
  have hpne' : str'.pending ≠ [] := by
    rcases hne with h | h
    · rw [hpend']
      intro hnil
      exact h (List.append_eq_nil.mp hnil).1
    · have heosf : str.eos = false := by
        cases heos : str.eos with
        | false => rfl
        | true => exact absurd (hinv.2.2.2.1 heos) h
      have hk1 := hk heosf
      rw [hpend']
      intro hnil
      have := (List.append_eq_nil.mp hnil).2
      have htk : (ch.take k).map (fun r => r.data) = [] := this
      have hlen := congrArg List.length htk
      rw [List.length_map, List.length_take] at hlen
      have hchlen : 0 < ch.length := List.length_pos.mpr h
      simp only [List.length_nil] at hlen
      omega
  cases hp : str'.pending with
  | nil => exact absurd hp hpne'
  | cons d restp =>
    have hstep : fill_buffer cd file 0 W str
        = some ⟨str'.last_head, str'.eos, restp, d, 0⟩ := by
      unfold fill_buffer
      rw [hfl]
      dsimp only
      rw [hp]
    refine ⟨⟨str'.last_head, str'.eos, restp, d, 0⟩, ch.drop k, hstep, rfl,
      ?_, ?_, ?_, ?_⟩
    · show d ≠ []
      exact hinv'.2.2.2.2 d (by rw [hp]; exact List.mem_cons_self _ _)
    · obtain ⟨i1, i2, i3, i4, i5⟩ := hinv'
      refine ⟨i1, i2, ?_, ?_, ?_⟩
      · intro h
        exact i3 h
      · intro h
        exact i4 h
      · intro x hx
        exact i5 x (by rw [hp]; exact List.mem_cons_of_mem _ hx)
    · show restp.length < W
      have := congrArg List.length hp
      simp only [List.length_cons] at this
      omega
    · show d ++ restp.flatten ++ (((ch.drop k)).map (fun r => r.data)).flatten
        = str.pending.flatten ++ (ch.map (fun r => r.data)).flatten
      have hfl2 : str'.pending.flatten = d ++ restp.flatten := by
        rw [hp]
        rfl
      have hfl3 : str'.pending.flatten
          = str.pending.flatten
            ++ ((ch.take k).map (fun r => r.data)).flatten := by
        rw [hpend', List.flatten_append]
      have hsplit : ((ch.take k).map (fun r => r.data)).flatten
            ++ ((ch.drop k).map (fun r => r.data)).flatten
          = (ch.map (fun r => r.data)).flatten := by
        rw [← List.flatten_append, ← List.map_append, List.take_append_drop]
      rw [← hsplit, ← List.append_assoc, ← hfl3, hfl2]

theorem readStreamGo_ok (cd : Codec) (file : List Nat) (W : Nat)
    (hW : 1 ≤ W) :
    ∀ (fuel : Nat) (str : RStream) (ch : List CRec) (acc : List Nat)
      (len : Nat),
      rsChainInv cd file str ch →
      str.bufp ≤ str.buf.length →
      str.pending.length < W →
      len ≤ (str.buf.drop str.bufp ++ str.pending.flatten
        ++ (ch.map (fun r => r.data)).flatten).length →
      2 * len + 1 + (if str.buf.length ≤ str.bufp then 1 else 0) ≤ fuel →
      ∃ str',
        readStreamGo cd file 0 W fuel str acc len
          = some (acc ++ (str.buf.drop str.bufp ++ str.pending.flatten
              ++ (ch.map (fun r => r.data)).flatten).take len, str') := by
  intro fuel
  induction fuel with
  | zero =>
    intro str ch acc len _ _ _ _ hfu
    omega
  | succ f ih =>
    intro str ch acc len hinv hbp hpW hlen hfu
    by_cases hl0 : len = 0
    · subst hl0
      refine ⟨str, ?_⟩
      rw [readStreamGo, if_pos rfl, List.take_zero, List.append_nil]
    · set n := min (str.buf.length - str.bufp) len with hn
      have hstep : readStreamGo cd file 0 W (f+1) str acc len
          = (if len - n ≠ 0 ∧ str.bufp + n = str.buf.length then
               match fill_buffer cd file 0 W
                 ⟨str.last_head, str.eos, str.pending, str.buf,
                  str.bufp + n⟩ with
               | none => none
               | some str2 =>
                 if str2.bufp = str2.buf.length
                 then some (acc ++ (str.buf.drop str.bufp).take n, str2)
                 else readStreamGo cd file 0 W f str2
                   (acc ++ (str.buf.drop str.bufp).take n) (len - n)
             else readStreamGo cd file 0 W f
               ⟨str.last_head, str.eos, str.pending, str.buf, str.bufp + n⟩
               (acc ++ (str.buf.drop str.bufp).take n) (len - n)) := by
        rw [readStreamGo, if_neg hl0]
      rw [hstep]
      have hClen := hlen
      rw [List.length_append, List.length_append, List.length_drop] at hClen
      by_cases hcond : len - n ≠ 0 ∧ str.bufp + n = str.buf.length
      · rw [if_pos hcond]
        obtain ⟨hc1, hc2⟩ := hcond
        have hsrc : str.pending ≠ [] ∨ ch ≠ [] := by
          by_contra hng
          push_neg at hng
          obtain ⟨hp0, hch0⟩ := hng
          have h1 : str.pending.flatten.length = 0 := by rw [hp0]; rfl
          have h2 : ((ch.map (fun r => r.data)).flatten).length = 0 := by
            rw [hch0]
            rfl
          omega
        obtain ⟨str2, ch2, hfb, hbp2, hbne2, hinv2, hpW2, hcontent⟩ :=
          fill_buffer_ok cd file W hW
            ⟨str.last_head, str.eos, str.pending, str.buf, str.bufp + n⟩ ch
            hinv hpW hsrc
        rw [hfb]
        dsimp only
        have hbl2 : 0 < str2.buf.length := List.length_pos.mpr hbne2
        rw [if_neg (by rw [hbp2]; omega)]
        have hC2len : (str2.buf.drop str2.bufp ++ str2.pending.flatten
            ++ (ch2.map (fun r => r.data)).flatten).length
            = str.pending.flatten.length
              + ((ch.map (fun r => r.data)).flatten).length := by
          have h := congrArg List.length hcontent
          dsimp only at h
          simp only [List.length_append] at h
          simp only [List.length_append, List.length_drop, hbp2]
          omega
        obtain ⟨str', hrec⟩ := ih str2 ch2
          (acc ++ (str.buf.drop str.bufp).take n) (len - n) hinv2
          (by rw [hbp2]; omega) hpW2
          (by rw [hC2len]; omega)
          (by
            rw [if_neg (by rw [hbp2]; omega)]
            by_cases hbe : str.buf.length ≤ str.bufp
            · rw [if_pos hbe] at hfu
              omega
            · rw [if_neg hbe] at hfu
              omega)
        rw [hrec]
        refine ⟨str', ?_⟩
        have hcont2 : str2.buf.drop str2.bufp ++ str2.pending.flatten
            ++ (ch2.map (fun r => r.data)).flatten
            = str.pending.flatten ++ (ch.map (fun r => r.data)).flatten := by
          rw [hbp2, List.drop_zero]
          exact hcontent
        rw [hcont2]
        have hRfull : (str.buf.drop str.bufp).take n = str.buf.drop str.bufp := by
          apply List.take_of_length_le
          rw [List.length_drop]
          omega
        have hR : (str.buf.drop str.bufp).length = n := by
          rw [List.length_drop]
          omega
        have htake : (str.buf.drop str.bufp ++ (str.pending.flatten
            ++ (ch.map (fun r => r.data)).flatten)).take len
            = str.buf.drop str.bufp
              ++ (str.pending.flatten
                ++ (ch.map (fun r => r.data)).flatten).take (len - n) := by
          have h : (str.buf.drop str.bufp ++ (str.pending.flatten
                ++ (ch.map (fun r => r.data)).flatten)).take
                ((str.buf.drop str.bufp).length + (len - n))
              = str.buf.drop str.bufp ++ (str.pending.flatten
                ++ (ch.map (fun r => r.data)).flatten).take (len - n) :=
            List.take_append (len - n)
          rw [show (str.buf.drop str.bufp).length + (len - n) = len by
            rw [hR]; omega] at h
          exact h
        conv_rhs => rw [List.append_assoc]
        rw [htake, hRfull, ← List.append_assoc]
      · rw [if_neg hcond]
        have hnlen : n = len := by
          rcases Decidable.not_and_iff_or_not.mp hcond with h | h
          · omega
          · omega
        obtain ⟨str', hrec⟩ := ih
          ⟨str.last_head, str.eos, str.pending, str.buf, str.bufp + n⟩ ch
          (acc ++ (str.buf.drop str.bufp).take n) (len - n) hinv
          (by show str.bufp + n ≤ str.buf.length; omega) hpW
          (by show len - n ≤ _; omega)
          (by
            show 2 * (len - n) + 1
              + (if str.buf.length ≤ str.bufp + n then 1 else 0) ≤ f
            have he : (if str.buf.length ≤ str.bufp + n then 1 else 0) ≤ 1 := by
              by_cases hx : str.buf.length ≤ str.bufp + n
              · rw [if_pos hx]
              · rw [if_neg hx]
                omega
            omega)
        rw [hrec]
        refine ⟨str', ?_⟩
        have htake0 : (⟨str.last_head, str.eos, str.pending, str.buf,
            str.bufp + n⟩ : RStream).buf.drop (str.bufp + n)
            ++ str.pending.flatten
            ++ (ch.map (fun r => r.data)).flatten
            = str.buf.drop (str.bufp + n) ++ str.pending.flatten
              ++ (ch.map (fun r => r.data)).flatten := rfl
        rw [show len - n = 0 by omega, List.take_zero, List.append_nil]
        have hCtake : (str.buf.drop str.bufp ++ str.pending.flatten
            ++ (ch.map (fun r => r.data)).flatten).take len
            = (str.buf.drop str.bufp).take len := by
          rw [List.take_append_of_le_length (by
            rw [List.length_append, List.length_drop]
            omega)]
          rw [List.take_append_of_le_length (by
            rw [List.length_drop]
            omega)]
        rw [hCtake, hnlen]

theorem ss_map_getD (heads : List Nat) (s : Nat) (h : s < heads.length) :
    ((heads.map (fun lh => RStream.mk lh false [] [] 0)).getD s
        ⟨0, false, [], [], 0⟩)
      = ⟨heads.getD s 0, false, [], [], 0⟩ := by
  rw [List.getD_eq_getElem?_getD, List.getElem?_map,
    List.getElem?_eq_getElem h]
  rw [List.getD_eq_getElem?_getD, List.getElem?_eq_getElem h]
  rfl

theorem read_stream_zero (cd : Codec) (rst : RState) (s : Nat) :
    read_stream cd rst s 0
      = some ([], RState.mk rst.file rst.initial_pos rst.W
          (rst.ss.set s (rst.ss.getD s ⟨0, false, [], [], 0⟩))) := rfl

/-- C1 as amended: the writer/reader round-trip, provided stream 0
receives at least one byte (an archive whose stream 0 is empty starts
with an all-zero sentinel; `open_stream_in`'s close-workaround consumes
it and then spins forever retrying a read past the end of the archive,
so the open never returns — see the counterexample).  For every stream
count `n ≥ 1`,
worker count `W ≥ 1`, back-end codec whose decompressor inverts its
compressor, and producer script, writing the script, closing, reopening
with `open_stream_in` and reading each stream's byte count back returns
exactly the bytes the producer wrote to that stream, in order. -/
theorem c1_round_trip (cd : Codec) (n B bound W : Nat)
    (htag : cd.tag ≠ CTYPE_NONE)
    (hrt : ∀ b c, cd.comp b = some c → c.length < b.length →
      cd.decomp c b.length = some b)
    (hn : 1 ≤ n) (hW : 1 ≤ W) (hB : 1 ≤ B) (hbd : bound < 2 ^ 64)
    (script : List (Nat × List Nat))
    (hv : ∀ e ∈ script, e.1 < n)
    (hstart : 25 * n + 26 * scriptBytes script ≤ bound)
    (h0 : fedBytes script 0 ≠ []) :
    ∃ rst,
      open_stream_in_full
        (close_stream_out cd (runScript cd (open_stream_out n B) script)).file
        n W = some rst ∧
      ∀ s, s < n → ∃ out rst',
        read_stream cd rst s (fedBytes script s).length = some (out, rst') ∧
        out = fedBytes script s := by
  obtain ⟨recsM, recsC, hWM, hltM, hfullM, hWC, hdataC, hshape⟩ :=
    writer_final cd n B bound htag hrt hB hbd script hv hstart
  set stf := close_stream_out cd (runScript cd (open_stream_out n B) script)
    with hstf
  obtain ⟨hlen, hbs, hflen, hcur, hpk, hend, hstl, hper⟩ := hWC
  have hchoff : ∀ s, s < n → chainHeadOff (streamChain recsC s) < 2 ^ 64 ∧
      (streamChain recsC s ≠ [] →
        25 * n ≤ chainHeadOff (streamChain recsC s)) := by
    intro s hs
    cases hch : streamChain recsC s with
    | nil =>
      refine ⟨by show (0 : Nat) < 2 ^ 64; norm_num, fun h => absurd rfl h⟩
    | cons y ys =>
      have hym : y ∈ recsC := chainOK_mem_sub recsC s y
        (by rw [hch]; exact List.mem_cons_self _ _)
      have hm := packed_mono recsC _ hpk y hym
      refine ⟨by show y.off < 2 ^ 64; omega,
        fun _ => by show 25 * n ≤ y.off; omega⟩
  have hch0 : streamChain recsC 0 ≠ [] := by
    intro hnil
    apply h0
    rw [← hdataC 0 hn]
    unfold dataOf
    rw [hnil]
    rfl
  have hflen25 : 25 * n ≤ stf.file.length := by
    have := recsEnd_ge recsC _ hpk
    omega
  have hsl := sentinel_loop_ok stf.file
    (fun s => chainHeadOff (streamChain recsC s)) n (stf.file.length + 1)
    0 0 true (by omega)
    (by
      intro i hi
      rw [Nat.zero_add]
      exact ⟨(hper i hi).1, (hchoff i hi).1⟩)
    (by
      intro _ _
      show chainHeadOff (streamChain recsC 0) ≠ 0
      have := (hchoff 0 hn).2 hch0
      omega)
  rw [Nat.mul_zero] at hsl
  have hop : open_stream_in false stf.file n
      = some (0, headsList
          (fun s => chainHeadOff (streamChain recsC s)) 0 n) := by
    unfold open_stream_in
    exact hsl
  refine ⟨RState.mk stf.file 0 W
    ((headsList (fun s => chainHeadOff (streamChain recsC s)) 0 n).map
      (fun lh => RStream.mk lh false [] [] 0)), ?_, ?_⟩
  · unfold open_stream_in_full
    rw [hop]
  · intro s hs
    have hgd : ((headsList (fun s => chainHeadOff (streamChain recsC s))
          0 n).map (fun lh => RStream.mk lh false [] [] 0)).getD s
          ⟨0, false, [], [], 0⟩
        = RStream.mk (chainHeadOff (streamChain recsC s)) false [] [] 0 := by
      rw [ss_map_getD _ s (by rw [headsList_length]; omega)]
      rw [headsList_getD _ n 0 s hs]
      rw [Nat.zero_add]
    by_cases hchs : streamChain recsC s = []
    · have hfed : fedBytes script s = [] := by
        rw [← hdataC s hs]
        unfold dataOf
        rw [hchs]
        rfl
      have hz := read_stream_zero cd (RState.mk stf.file 0 W
        ((headsList (fun s => chainHeadOff (streamChain recsC s)) 0 n).map
          (fun lh => RStream.mk lh false [] [] 0))) s
      rw [hfed]
      exact ⟨[], _, hz, rfl⟩
    · have hinv0 : rsChainInv cd stf.file
          (RStream.mk (chainHeadOff (streamChain recsC s)) false [] [] 0)
          (streamChain recsC s) := by
        refine ⟨(hper s hs).2.1, ?_, fun _ => ⟨rfl, hchs⟩,
          fun h => absurd h (by simp), fun d hd => absurd hd
            (List.not_mem_nil d)⟩
        intro r hr
        have hm := packed_mono recsC _ hpk r (chainOK_mem_sub recsC s r hr)
        constructor
        · omega
        · omega
      have hCfed : (RStream.mk (chainHeadOff (streamChain recsC s))
            false [] [] 0).buf.drop
            (RStream.mk (chainHeadOff (streamChain recsC s))
              false [] [] 0).bufp
          ++ (RStream.mk (chainHeadOff (streamChain recsC s))
            false [] [] 0).pending.flatten
          ++ ((streamChain recsC s).map (fun r => r.data)).flatten
          = fedBytes script s := by
        rw [← hdataC s hs]
        rfl
      obtain ⟨str', hgo⟩ := readStreamGo_ok cd stf.file W hW
        (2 * (fedBytes script s).length + 2)
        (RStream.mk (chainHeadOff (streamChain recsC s)) false [] [] 0)
        (streamChain recsC s) [] (fedBytes script s).length hinv0
        (by show (0 : Nat) ≤ ([] : List Nat).length; simp)
        (by show ([] : List (List Nat)).length < W; simp; omega)
        (by rw [hCfed])
        (by
          show 2 * (fedBytes script s).length + 1
            + (if ([] : List Nat).length ≤ 0 then 1 else 0)
            ≤ 2 * (fedBytes script s).length + 2
          rw [if_pos (by simp)])
      rw [hCfed] at hgo
      have hrs : read_stream cd (RState.mk stf.file 0 W
          ((headsList (fun s => chainHeadOff (streamChain recsC s)) 0 n).map
            (fun lh => RStream.mk lh false [] [] 0))) s
          (fedBytes script s).length
          = some (fedBytes script s, RState.mk stf.file 0 W
            (((headsList (fun s => chainHeadOff (streamChain recsC s))
              0 n).map (fun lh => RStream.mk lh false [] [] 0)).set s
              str')) := by
        unfold read_stream
        dsimp only
        rw [hgd, hgo]
        dsimp only
        rw [List.take_length, List.nil_append]
      exact ⟨fedBytes script s, _, hrs, rfl⟩

/-- C1 counterexample (unamended claim): with `N = 1` and a producer
that writes nothing to stream 0, the closed archive is stream 0's
all-zero sentinel alone.  `open_stream_in` misapplies its close
workaround to it (`initial_pos += 25`, `goto again`) and then reads at
the end of the archive, where `read()` transfers 0 bytes and `read_1g`
(stream.c:551-571) retries forever: one loop step re-enters the very
same state, so the sentinel loop yields no result at any fuel — the
open hangs and never returns a handle (nor NULL), and no `read_stream`
call ever happens.  The round-trip the claim promises does not
complete. -/
theorem c1_counterexample :
    (close_stream_out rawCodec
        (runScript rawCodec (open_stream_out 1 1) [])).file
      = List.replicate 25 0 ∧
    fedBytes ([] : List (Nat × List Nat)) 0 = [] ∧
    (∀ f ip, sentinel_loop false (List.replicate 25 0) (f + 1) true 1 0 ip
        = sentinel_loop false (List.replicate 25 0) f true 1 25 (ip + 25)) ∧
    (∀ f ip, sentinel_loop false (List.replicate 25 0) (f + 1) true 1 25 ip
        = sentinel_loop false (List.replicate 25 0) f true 1 25 ip) ∧
    (∀ fuel ip,
      sentinel_loop false (List.replicate 25 0) fuel true 1 0 ip = none) := by
  have hhdr0 : readHeaderAt false (List.replicate 25 0) 0
      = some (0, 0, 0, 0) := by decide
  have hhdr25 : readHeaderAt false (List.replicate 25 0) 25 = none := by
    decide
  have hstep0 : ∀ f ip,
      sentinel_loop false (List.replicate 25 0) (f + 1) true 1 0 ip
        = sentinel_loop false (List.replicate 25 0) f true 1 25 (ip + 25) := by
    intro f ip
    rw [sentinel_loop, hhdr0]
    dsimp only
    rw [if_pos ⟨rfl, rfl, rfl, rfl, rfl⟩]
    rfl
  have hstep25 : ∀ f ip,
      sentinel_loop false (List.replicate 25 0) (f + 1) true 1 25 ip
        = sentinel_loop false (List.replicate 25 0) f true 1 25 ip := by
    intro f ip
    rw [sentinel_loop, hhdr25]
  have hspin : ∀ f ip,
      sentinel_loop false (List.replicate 25 0) f true 1 25 ip = none := by
    intro f
    induction f with
    | zero => intro ip; rfl
    | succ g ih =>
      intro ip
      rw [hstep25 g ip]
      exact ih ip
  refine ⟨by decide, rfl, hstep0, hstep25, ?_⟩
  intro fuel ip
  cases fuel with
  | zero => rfl
  | succ f =>
    rw [hstep0 f ip]
    exact hspin f (ip + 25)

theorem c1_round_trip_witness :
    (rawCodec.tag ≠ CTYPE_NONE) ∧
    (∀ b c : List Nat, rawCodec.comp b = some c → c.length < b.length →
      rawCodec.decomp c b.length = some b) ∧
    (1 ≤ 1) ∧ ((51 : Nat) < 2 ^ 64) ∧
    (∀ e ∈ [((0 : Nat), [(7 : Nat)])], e.1 < 1) ∧
    (25 * 1 + 26 * scriptBytes [(0, [7])] ≤ 51) ∧
    (fedBytes [(0, [7])] 0 ≠ []) ∧
    (∃ rst,
      open_stream_in_full
        (close_stream_out rawCodec
          (runScript rawCodec (open_stream_out 1 1) [(0, [7])])).file
        1 1 = some rst ∧
      ∀ s, s < 1 → ∃ out rst',
        read_stream rawCodec rst s (fedBytes [(0, [7])] s).length
          = some (out, rst') ∧
        out = fedBytes [(0, [7])] s) :=
  ⟨by decide, fun b c h => by simp [rawCodec] at h, le_refl 1, by norm_num,
   fun e he => by rcases List.mem_singleton.mp he with rfl; decide,
   by decide, by decide,
   c1_round_trip rawCodec 1 1 51 1 (by decide)
     (fun b c h => by simp [rawCodec] at h) (le_refl 1) (le_refl 1)
     (le_refl 1) (by norm_num) [(0, [7])]
     (fun e he => by rcases List.mem_singleton.mp he with rfl; decide)
     (by decide) (by decide)⟩
